import Mathlib

/-! # madns: a shallow embedding of `madns.c`

The development models the multi-server asynchronous DNS resolver of `madns.c`.

Modelling conventions (target: x86-64 Linux with glibc, "C" locale):

* a byte is a `Nat`; plain `char` is signed, the host is little-endian;
* a C string is the list of the bytes that follow the pointer; every string
  routine stops at the first `0` byte or at the end of the list;
* an `in_addr_t` is the number whose big-endian digits are the four bytes in
  memory (network order), so `INADDR_ANY = 0` and `INADDR_NONE = 0xFFFFFFFF`;
* a pointer to a server is an index into `serv`, `NULL` is `none`; a context
  pointer is a `Nat`, `NULL` is `0`;
* the two intrusive queues are the lists of slot indices from the head
  (`q->next`) to the tail (`q->prev`);
* `time(0)`, `tick()`, `rand()`, the outcome of `sendto` and the datagrams read
  by `recvfrom` are explicit arguments; `double` values are exact rationals;
* a computation without a defined result (a dereferenced `NULL`, an access
  outside an array, a loop that never ends) is `none`;
* logging (`LOG`, `log_packet`) has no effect on the state and is left out.
-/

namespace Madns

/-! ## Constants -/

def INADDR_ANY : Nat := 0
def INADDR_NONE : Nat := 0xFFFFFFFF
def DNS_A_RECORD : Nat := 1
def DNS_CNAME : Nat := 5
def DNS_R_NXDOMAIN : Nat := 3
def DNS_MAX_HOSTNAME : Nat := 255
def DNS_PACKET_LEN : Nat := 2048
def MAX_TIDS : Nat := 32767
def MIN_CACHE : Nat := 16
/-- The constant `NS_MAXLABEL` of `<arpa/nameser.h>`. -/
def NS_MAXLABEL : Nat := 63
def MADNS_QUERY_TIME : Int := 10
def MADNS_SERVER_REQS : Int := 20

/-! ## C strings -/

/-- The function `tolower` in the "C" locale. -/
def tolower (c : Nat) : Nat := if 65 ≤ c ∧ c ≤ 90 then c + 32 else c

/-- The function `toupper` in the "C" locale. -/
def toupper (c : Nat) : Nat := if 97 ≤ c ∧ c ≤ 122 then c - 32 else c

/-- The bytes of a C string: everything before the first `0`. -/
def cstr : List Nat → List Nat
  | [] => []
  | c :: cs => if c = 0 then [] else c :: cstr cs

def strlen (s : List Nat) : Nat := (cstr s).length

def strdup (s : List Nat) : List Nat := cstr s

/-- The function `strcmp`: the difference at the first position where the strings differ. -/
def strcmp : List Nat → List Nat → Int
  | [], [] => 0
  | [], b :: _ => 0 - (b : Int)
  | a :: _, [] => (a : Int)
  | a :: as, b :: bs => if a = 0 ∨ a ≠ b then (a : Int) - (b : Int) else strcmp as bs

/-- The function `strcasecmp`: `strcmp` on the lowercased bytes. -/
def strcasecmp : List Nat → List Nat → Int
  | [], [] => 0
  | [], b :: _ => 0 - (tolower b : Int)
  | a :: _, [] => (tolower a : Int)
  | a :: as, b :: bs =>
    if a = 0 ∨ tolower a ≠ tolower b then (tolower a : Int) - (tolower b : Int)
    else strcasecmp as bs

/-- The value `tolower(c)` of glibc for a plain `char` that holds the byte `c`, converted
to `uint32_t`: the table of the "C" locale maps the bytes 128..254 (the `char` values
-128..-2) to 128..254, and the byte 255 (the value -1, `EOF`) to -1. -/
def lower32 (c : Nat) : Nat := if c = 255 then 0xFFFFFFFF else tolower c

/-- The main loop of `fnvstr`: `while (*buf) hash = (hash ^ tolower(*buf++)) * 0x01000193`. -/
def fnvLoop : List Nat → Nat → Nat
  | [], hash => hash
  | c :: cs, hash =>
    if c = 0 then hash
    else fnvLoop cs (((hash ^^^ lower32 c) * 0x01000193) % 2 ^ 32)

/-- Fowler-Noll-Vo 32-bit hash with the final mixing steps. -/
def fnvstr (buf : List Nat) : Nat :=
  let h0 := fnvLoop buf 0x811C9DC5
  let h1 := (h0 + (h0 <<< 13)) % 2 ^ 32
  let h2 := h1 ^^^ (h1 >>> 7)
  let h3 := (h2 + (h2 <<< 3)) % 2 ^ 32
  let h4 := h3 ^^^ (h3 >>> 17)
  (h4 + (h4 <<< 5)) % 2 ^ 32

/-! ## Data model -/

structure SERVER where
  ip : Nat
  nreqs : Int
  latency : ℚ
deriving DecidableEq

/-- An entry of `queries[]`; `memset(qp, 0, sizeof *qp)` gives `QUERY.zero`. -/
structure QUERY where
  ctx : Nat
  expires : Int
  tid : Nat
  name : List Nat
  server : Option Nat
  started : ℚ
deriving DecidableEq

def QUERY.zero : QUERY :=
  { ctx := 0, expires := 0, tid := 0, name := [], server := none, started := 0 }

structure RESPONSE where
  ip : Nat
  ttl : Int
  tid : Nat
  name : List Nat
deriving DecidableEq

structure CACHE_INFO where
  hash : Nat
  expires : Int
  ip : Nat
  name : List Nat
deriving DecidableEq

/-- The handle `struct madns` (`nservs` is `serv.length`; the socket is represented by
the explicit datagram arguments). -/
structure MADNS where
  query_time : Int
  server_reqs : Int
  serv : List SERVER
  limit : Nat
  count : Int
  cachev : List (Option CACHE_INFO)
  qsize : Nat
  nfree : Int
  queries : List QUERY
  active : List Nat
  unused : List Nat
deriving DecidableEq

/-- A datagram returned by `recvfrom`: the sender, the whole packet buffer after the
call, and the returned length. -/
structure DGRAM where
  src : Nat
  buf : List Nat
  len : Nat
deriving DecidableEq

/-! ## The cache -/

/-- The probe loop of `madns_lookup`; the first argument bounds the number of probes
(`limit` probes visit every slot the loop can ever visit). -/
def lookupProbe (cachev : List (Option CACHE_INFO)) (mask hash : Nat) (name : List Nat)
    (now : Int) : Nat → Nat → Option Nat
  | 0, _ => none
  | fuel + 1, h =>
    match cachev[h &&& mask]? with
    | none => none
    | some none => some INADDR_ANY
    | some (some cip) =>
      if cip.hash = hash ∧ cip.expires ≥ now ∧ strcasecmp cip.name name = 0 then some cip.ip
      else lookupProbe cachev mask hash name now fuel ((h &&& mask) + 1)

/-- The function `madns_lookup`; `inet_addr` is the libc routine. -/
def madns_lookup (inet_addr : List Nat → Nat) (mp : MADNS) (name : List Nat) (now : Int) :
    Option Nat :=
  if inet_addr name ≠ INADDR_NONE then some (inet_addr name)
  else if strlen name > DNS_MAX_HOSTNAME then some INADDR_NONE
  else lookupProbe mp.cachev (mp.limit - 1) (fnvstr name) name now mp.limit (fnvstr name)

/-- Outcome of the first loop of `update_cache`. -/
inductive PROBE where
  | found (i : Nat)
  | empty (i : Nat) (putp : Option Nat)
deriving DecidableEq

/-- The first loop of `update_cache`. -/
def updateProbe (cachev : List (Option CACHE_INFO)) (mask hash : Nat) (name : List Nat)
    (now : Int) : Nat → Nat → Option Nat → Option PROBE
  | 0, _, _ => none
  | fuel + 1, i, putp =>
    match cachev[i &&& mask]? with
    | none => none
    | some none => some (PROBE.empty (i &&& mask) putp)
    | some (some cip) =>
      if cip.hash = hash ∧ strcmp cip.name name = 0 then some (PROBE.found (i &&& mask))
      else
        updateProbe cachev mask hash name now fuel ((i &&& mask) + 1)
          (if putp = none ∧ cip.expires < now then some (i &&& mask) else putp)

/-- State of the easy sweep: the table, the flag `easy` and the local `count`. -/
structure SWEEP where
  cachev : List (Option CACHE_INFO)
  easy : Bool
  count : Int
deriving DecidableEq

/-- One iteration of the easy sweep, at index `j`. -/
def sweepStep (now : Int) (j : Nat) (st : SWEEP) : SWEEP :=
  match st.cachev[j]? with
  | some (some xp) =>
    if xp.expires > now then { st with easy := false }
    else if st.easy then { st with count := st.count - 1, cachev := st.cachev.set j none }
    else st
  | _ => { st with easy := true }

/-- The loop `for (j = mp->limit; --j >= 0;)`, with `j` the number of slots left. -/
def sweepLoop (now : Int) : Nat → SWEEP → SWEEP
  | 0, st => st
  | j + 1, st => sweepLoop now j (sweepStep now j st)

/-- The loop `for (limit = MIN_CACHE; limit <= count * 4 / 3; limit <<= 1);`. -/
def growLimit (count : Int) : Nat → Nat → Nat
  | 0, limit => limit
  | fuel + 1, limit =>
    if (limit : Int) ≤ Int.tdiv (count * 4) 3 then growLimit count fuel (limit * 2) else limit

/-- The loop `for (i = cip->hash; putp[i & (limit - 1)]; ++i);` of the rebuild:
the index of the first free slot (`limit` is a power of two that divides `2 ^ 32`, so
the wrap of the `unsigned` counter does not show through the mask). -/
def freeSlot (putp : List (Option CACHE_INFO)) (mask : Nat) : Nat → Nat → Option Nat
  | 0, _ => none
  | fuel + 1, i =>
    match putp[i &&& mask]? with
    | none => none
    | some none => some (i &&& mask)
    | some (some _) => freeSlot putp mask fuel (i + 1)

/-- The loop of the rebuild that moves the entries of the old table into the new one. -/
def rehash (now : Int) (limit : Nat) :
    List (Option CACHE_INFO) → List (Option CACHE_INFO) → Option (List (Option CACHE_INFO))
  | [], putp => some putp
  | none :: old, putp => rehash now limit old putp
  | some cip :: old, putp =>
    if cip.expires ≤ now then rehash now limit old putp
    else
      match freeSlot putp (limit - 1) limit cip.hash with
      | none => none
      | some i => rehash now limit old (putp.set i (some cip))

/-- The block `if (count >= mp->limit * 3 / 4) { ... }` of `update_cache`: the table and
the local `count` after the easy sweep (or untouched). -/
def easySweep (mp : MADNS) (now : Int) : SWEEP :=
  if mp.count + 1 ≥ Int.tdiv ((mp.limit : Int) * 3) 4 then
    sweepLoop now mp.limit
      { cachev := mp.cachev, easy := decide (mp.cachev[0]? = some none), count := mp.count + 1 }
  else { cachev := mp.cachev, easy := false, count := mp.count + 1 }

/-- The rebuild branch of `update_cache`: a new table of `limit` slots that holds the new
entry `cip` and the entries of `old` that expire after `now`. -/
def rebuild (now : Int) (count : Int) (old : List (Option CACHE_INFO)) (cip : CACHE_INFO) :
    Option (Nat × List (Option CACHE_INFO)) :=
  let limit := growLimit count (count.toNat + 1) MIN_CACHE
  (rehash now limit old
    ((List.replicate limit none).set (cip.hash &&& (limit - 1)) (some cip))).map
    (fun putp => (limit, putp))

/-- The branch of `update_cache` that puts the new entry `cip` in the empty slot `i`. -/
def placeNew (mp : MADNS) (now : Int) (i : Nat) (cip : CACHE_INFO) : Option MADNS :=
  let sw := easySweep mp now
  if sw.count < Int.tdiv ((mp.limit : Int) * 3) 4
      ∨ sw.count < mp.count - Int.tdiv (mp.limit : Int) 4 then
    some { mp with cachev := sw.cachev.set i (some cip), count := sw.count }
  else
    (rebuild now sw.count sw.cachev cip).map
      (fun r => { mp with limit := r.1, cachev := r.2, count := sw.count })

/-- The function `update_cache`. -/
def update_cache (mp : MADNS) (rp : RESPONSE) (now : Int) : Option MADNS :=
  match updateProbe mp.cachev (mp.limit - 1) (fnvstr rp.name) rp.name now mp.limit
      (fnvstr rp.name) none with
  | none => none
  | some (PROBE.found i) =>
    match mp.cachev[i]? with
    | some (some cip) =>
      some { mp with cachev := mp.cachev.set i (some { cip with expires := now + rp.ttl }) }
    | _ => none
  | some (PROBE.empty i putp) =>
    let cip : CACHE_INFO :=
      { hash := fnvstr rp.name, expires := now + rp.ttl, ip := rp.ip, name := cstr rp.name }
    match putp with
    | some k => some { mp with cachev := mp.cachev.set k (some cip) }
    | none => placeNew mp now i cip

/-! ## The two queues -/

/-- The function `qpush`: link `qel` in front of the list head, that is, at the tail. -/
def qpush (q : List Nat) (qel : Nat) : List Nat := q ++ [qel]

/-- The function `qpull`, seen from one list: the element leaves the list it is in. -/
def qpull (q : List Nat) (qel : Nat) : List Nat := q.erase qel

/-- The function `qempty`. -/
def qempty (q : List Nat) : Bool := q.isEmpty

/-! ## Wire codec: building a query -/

/-- The QNAME loop of `send_request`. The bytes of `pkt` before `p` are `done`, the
bytes between `p + 1` and `dst` are `lab` (so `dst - p - 1 = lab.length`); the result is
the content of `pkt` from `header->data` to the end of the packet, or `none` when the
function returns without sending. -/
def encodeName : List Nat → List Nat → List Nat → Option (List Nat)
  | [], done, lab => some (done ++ [lab.length % 256] ++ lab ++ [0, 0, DNS_A_RECORD, 0, 1])
  | c :: src, done, lab =>
    if c = 0 then some (done ++ [lab.length % 256] ++ lab ++ [0, 0, DNS_A_RECORD, 0, 1])
    else if c ≠ 46 then encodeName src done (lab ++ [tolower c % 256])
    else if lab.length ≤ NS_MAXLABEL then encodeName src (done ++ [lab.length % 256] ++ lab) []
    else none

/-- The twelve header bytes written by `send_request` (`header->tid` is stored in host
order, the other fields through `ntohs`). -/
def queryHeader (tid : Nat) : List Nat :=
  [tid % 256, tid / 256 % 256, 0x01, 0x00, 0x00, 0x01, 0, 0, 0, 0, 0, 0]

/-- The packet that `send_request` hands to `sendto`. -/
def queryPacket (tid : Nat) (name : List Nat) : Option (List Nat) :=
  (encodeName name [] []).map (fun data => queryHeader tid ++ data)

/-! ## Server selection -/

/-- The first loop of `send_request`: the index of the first server other than `prev`
with `nreqs < server_reqs`, or `nservs`. -/
def firstEligible (prev : Option Nat) (reqs : Int) : List SERVER → Nat → Nat
  | [], i => i
  | s :: ss, i => if some i ≠ prev ∧ s.nreqs < reqs then i else firstEligible prev reqs ss (i + 1)

/-- The second loop of `send_request`, over the servers from index `i` on; `best` is
`qp->server` and `lat` its latency. -/
def lowestLatency (prev : Option Nat) (reqs : Int) : List SERVER → Nat → Nat × ℚ → Nat × ℚ
  | [], _, best => best
  | s :: ss, i, best =>
    lowestLatency prev reqs ss (i + 1)
      (if some i ≠ prev ∧ s.nreqs < reqs ∧ s.latency < best.2 then (i, s.latency) else best)

/-- Change the counter `nreqs` of server `i` by `d`. -/
def bumpReqs (serv : List SERVER) (i : Nat) (d : Int) : Option (List SERVER) :=
  match serv[i]? with
  | none => none
  | some s => some (serv.set i { s with nreqs := s.nreqs + d })

/-- The function `send_request` for the query in slot `k`; `sent` tells whether `sendto`
returned the packet length. The second component is the packet given to `sendto`. -/
def send_request (mp : MADNS) (k : Nat) (now : Int) (sent : Bool) :
    Option (MADNS × Option (List Nat)) :=
  match mp.queries[k]? with
  | none => none
  | some qp =>
    let prev := qp.server
    let i := firstEligible prev mp.server_reqs mp.serv 0
    if i = mp.serv.length then some (mp, none)
    else
      match (match prev with
             | none => some mp.serv
             | some s => bumpReqs mp.serv s (-1)) with
      | none => none
      | some serv1 =>
        match serv1[i]? with
        | none => none
        | some si =>
          let best := (lowestLatency prev mp.server_reqs (serv1.drop i) i (i, si.latency)).1
          match bumpReqs serv1 best 1 with
          | none => none
          | some serv2 =>
            let qp1 : QUERY := { qp with server := some best }
            match queryPacket qp.tid qp.name with
            | none => some ({ mp with serv := serv2, queries := mp.queries.set k qp1 }, none)
            | some pkt =>
              let qp2 : QUERY :=
                if sent = true ∧ qp1.expires = 0 then { qp1 with expires := now + mp.query_time }
                else qp1
              some ({ mp with serv := serv2, queries := mp.queries.set k qp2 }, some pkt)

/-! ## Wire codec: parsing a response -/

/-- A byte read as `char`. -/
def schar (c : Nat) : Int := if c < 128 then (c : Int) else (c : Int) - 256

/-- The value `NTOHSP(p)`. -/
def ntohsp (buf : List Nat) (p : Nat) : Option Nat :=
  match buf[p]?, buf[p + 1]? with
  | some a, some b => some (a * 256 + b)
  | _, _ => none

/-- The value `NTOHLP(p)`; also the `in_addr_t` stored at `p`. -/
def ntohlp (buf : List Nat) (p : Nat) : Option Nat :=
  match buf[p]?, buf[p + 1]?, buf[p + 2]?, buf[p + 3]? with
  | some a, some b, some c, some d => some (((a * 256 + b) * 256 + c) * 256 + d)
  | _, _, _, _ => none

/-- The loop `for (; p < e && *p; p += len + 1) len = *p, *p = '.';`. -/
def qnameLoop (e : Nat) : Nat → List Nat → Nat → Option (List Nat × Nat)
  | 0, _, _ => none
  | fuel + 1, buf, p =>
    if p < e then
      match buf[p]? with
      | none => none
      | some c =>
        if c = 0 then some (buf, p)
        else if (p : Int) + schar c + 1 < 0 then none
        else qnameLoop e fuel (buf.set p 46) ((p : Int) + schar c + 1).toNat
    else some (buf, p)

/-- The loop `for (p = s + 1; *p; ++p) *p = tolower(*p);`. -/
def lowerLoop : Nat → List Nat → Nat → Option (List Nat × Nat)
  | 0, _, _ => none
  | fuel + 1, buf, p =>
    match buf[p]? with
    | none => none
    | some c => if c = 0 then some (buf, p) else lowerLoop fuel (buf.set p (tolower c)) (p + 1)

/-- The loop `while (*p && p + 12 < e) p++;`. -/
def skipName (buf : List Nat) (e : Nat) : Nat → Nat → Option Nat
  | 0, _ => none
  | fuel + 1, p =>
    match buf[p]? with
    | none => none
    | some c => if c ≠ 0 ∧ p + 12 < e then skipName buf e fuel (p + 1) else some p

/-- The answer walk of `parse_response`: the loop `while (p + 12 < e)`. -/
def answerLoop (buf : List Nat) (e : Nat) : Nat → Nat → RESPONSE → Option (Bool × RESPONSE)
  | 0, _, _ => none
  | fuel + 1, p, rp =>
    if p + 12 < e then
      match buf[p]? with
      | none => none
      | some c =>
        match (if c ≠ 0xC0 then (skipName buf e (e + 1) p).bind
                 (fun q => if q = 0 then none else some (q - 1))
               else some p) with
        | none => none
        | some p1 =>
          match ntohsp buf (p1 + 2) with
          | none => none
          | some ty =>
            if ty = DNS_A_RECORD then
              match ntohlp buf (p1 + 6) with
              | none => none
              | some ttl =>
                if p1 + 12 < e then
                  match ntohsp buf (p1 + 10) with
                  | none => none
                  | some dlen =>
                    if p1 + 12 + dlen ≤ e then
                      match ntohlp buf (p1 + 12) with
                      | none => none
                      | some ip => some (true, { rp with ttl := ttl, ip := ip })
                    else answerLoop buf e fuel (p1 + 12) { rp with ttl := ttl }
                else answerLoop buf e fuel p1 { rp with ttl := ttl }
            else if ty = DNS_CNAME then
              match ntohsp buf (p1 + 10) with
              | none => none
              | some dlen => answerLoop buf e fuel (p1 + 12 + dlen) rp
            else answerLoop buf e fuel e rp
    else some (false, rp)

/-- The part of `parse_response` that follows the decoding of the QNAME: `p` points
behind the terminating NUL. The flags and `header->nanswers` are read here, from the
buffer as the QNAME loop left it. -/
def afterName (buf : List Nat) (len p : Nat) (rp : RESPONSE) : Option (Bool × RESPONSE) :=
  if p + 4 > len then some (false, rp)
  else
    match ntohsp buf p with
    | none => none
    | some qtype =>
      if qtype ≠ DNS_A_RECORD then some (false, rp)
      else
        match buf[3]?, ntohsp buf 6 with
        | some f1, some nanswers =>
          if f1 % 16 = DNS_R_NXDOMAIN then
            some (true, { rp with ip := INADDR_NONE, ttl := 86400 })
          else if nanswers = 0 then some (true, rp)
          else answerLoop buf len (len + 1) (p + 4) rp
        | _, _ => none

/-- The function `parse_response` on the buffer `pkt` with received length `len`. -/
def parse_response (pkt : List Nat) (len : Nat) : Option (Bool × RESPONSE) :=
  match pkt[0]?, pkt[1]?, ntohsp pkt 2, ntohsp pkt 4 with
  | some t0, some t1, some flags, some nqueries =>
    let rp : RESPONSE :=
      { ip := INADDR_ANY, ttl := 0, tid := t0 + 256 * t1, name := cstr (pkt.drop 13) }
    if nqueries ≠ 1 ∨ flags < 0x8000 then some (false, rp)
    else
      match qnameLoop len ((pkt.length + 1) * (pkt.length + 1)) pkt 12 with
      | none => none
      | some (buf1, p1) =>
        match buf1[p1]? with
        | none => none
        | some c =>
          if c ≠ 0 then some (false, { rp with name := cstr (buf1.drop 13) })
          else
            match lowerLoop (buf1.length + 1) buf1 13 with
            | none => none
            | some (buf2, p2) =>
              afterName buf2 len (p2 + 1) { rp with name := cstr (buf2.drop 13) }
  | _, _, _, _ => none

/-! ## Dispatcher -/

/-- The function `madns_create`. `ips` are the addresses of the `nameserver` lines that
`inet_addr` accepts, `lat i` is the content that `malloc` leaves in `serv[i].latency`,
`mem i` is the content that `malloc` leaves in `queries[i]` (the source initialises only the
link field of a slot, by `qpush`), `sockOk` tells whether `socket` succeeded. The array
`serv` is taken to hold all of `ips` (the source sizes its first allocation with the result
of `fseek`, which is 0, and sizes it with `nservs` only afterwards, in `realloc`). `none`
means that no handle is returned: `NULL` when `socket` fails; on the two earlier failure
paths `madns_destroy` runs while `cachev` is still null. -/
def madns_create (ips : List Nat) (lat : Nat → ℚ) (mem : Nat → QUERY)
    (query_time server_reqs : Int) (sockOk : Bool) : Option MADNS :=
  if ips.length = 0 then none
  else
    let reqs : Int :=
      min (if server_reqs ≠ 0 then server_reqs else MADNS_SERVER_REQS)
        (Int.tdiv (MAX_TIDS : Int) (ips.length : Int))
    let qsize : Int := (ips.length : Int) * reqs
    if qsize > (MAX_TIDS : Int) ∨ qsize < 2 then none
    else if sockOk = false then none
    else
      some
        { query_time := if query_time ≠ 0 then query_time else MADNS_QUERY_TIME
          server_reqs := reqs
          serv := (List.range ips.length).map
            (fun i => { ip := ips.getD i 0, nreqs := 0, latency := lat i })
          limit := MIN_CACHE
          count := 0
          cachev := List.replicate MIN_CACHE none
          qsize := qsize.toNat
          nfree := qsize
          queries := (List.range qsize.toNat).map mem
          active := []
          unused := List.range qsize.toNat }

/-- The function `madns_ready`. -/
def madns_ready (mp : MADNS) : Int := mp.nfree

/-- The conversion of a `time_t` value to `int` on return (gcc: reduction modulo `2 ^ 32`
into the range of `int`). -/
def toInt32 (x : Int) : Int := (x + 2147483648) % 4294967296 - 2147483648

/-- The function `madns_expires`: `query_time + 1` is computed in `int` (its overflow has
no defined result), `expires - time(0)` in `time_t`, and the value is returned as `int`. -/
def madns_expires (mp : MADNS) (now : Int) : Option Int :=
  match mp.active with
  | [] => if mp.query_time + 1 > 2147483647 then none else some (toInt32 (mp.query_time + 1))
  | k :: _ => (mp.queries[k]?).map (fun qp => toInt32 (qp.expires - now))

/-- The function `destroy_query` on slot `k`; `tk` is the value of `tick()`. The result
is the context of the slot and the new state. -/
def destroy_query (mp : MADNS) (k : Nat) (tk : ℚ) : Option (Nat × MADNS) :=
  match mp.queries[k]? with
  | none => none
  | some qp =>
    match qp.server with
    | none => none
    | some s =>
      match mp.serv[s]? with
      | none => none
      | some sv =>
        let latency := tk - qp.started
        let sv1 : SERVER := { sv with nreqs := sv.nreqs - 1 }
        let sv2 : SERVER :=
          { sv1 with latency := sv1.latency + (latency - sv1.latency) / mp.server_reqs / 2 }
        some (qp.ctx,
          { mp with
            serv := mp.serv.set s sv2
            queries := mp.queries.set k QUERY.zero
            active := qpull mp.active k
            unused := qpush (qpull mp.unused k) k
            nfree := mp.nfree + 1 })

/-- The transaction id computed by `madns_request` for slot `k` and `rand()` value `rnd`,
stored in a `uint16_t`. -/
def newTid (qsize k rnd : Nat) : Nat := (k + qsize * (rnd % 32768 / qsize + 1)) % 65536

/-- The function `madns_request`. `rnd`, `tk`, `now`, `sent` are the values of `rand()`,
`tick()`, `time(0)` and whether `sendto` succeeded. The result is the returned `int`, the
new state and the packet given to `sendto`, if any. -/
def madns_request (mp : MADNS) (name : List Nat) (ctx : Nat) (rnd : Nat) (tk : ℚ)
    (now : Int) (sent : Bool) : Option (Int × MADNS × Option (List Nat)) :=
  if ctx = 0 ∨ madns_ready mp = 0 ∨ strlen name > DNS_MAX_HOSTNAME then some (0, mp, none)
  else
    match mp.unused with
    | [] => none
    | k :: rest =>
      match mp.queries[k]? with
      | none => none
      | some qp =>
        let qp1 : QUERY :=
          { qp with ctx := ctx, expires := 0, tid := newTid mp.qsize k rnd,
                    name := strdup name, started := tk }
        let mp1 : MADNS :=
          { mp with unused := rest, nfree := mp.nfree - 1,
                    queries := mp.queries.set k qp1, active := qpush mp.active k }
        match send_request mp1 k now sent with
        | none => none
        | some (mp2, pkt) =>
          match mp2.queries[k]? with
          | none => none
          | some qp2 => some ((qp2.tid : Int), mp2, pkt)

/-- The test of `madns_response` on the slot selected by the response. -/
def accepts (mp : MADNS) (qp : QUERY) (resp : RESPONSE) (src : Nat) : Bool :=
  decide (qp.ctx ≠ 0) && decide (qp.tid = resp.tid) &&
    (match qp.server with
     | none => false
     | some s =>
       match mp.serv[s]? with
       | none => false
       | some sv => decide (sv.ip = src))

/-- Result of `madns_response`: the returned pointer, the value written to `*ip` (if
any), the new state and the datagrams left in the socket. -/
structure RESULT where
  ctx : Nat
  ip : Option Nat
  mp : MADNS
  rest : List DGRAM
deriving DecidableEq

/-- The tail of `madns_response`: the check of the head of the active list. -/
def reapHead (mp : MADNS) (rest : List DGRAM) (now : Int) (tk : ℚ) : Option RESULT :=
  match mp.active with
  | [] => some { ctx := 0, ip := none, mp := mp, rest := rest }
  | k :: _ =>
    match mp.queries[k]? with
    | none => none
    | some qp =>
      if qp.expires ≤ now then
        (destroy_query mp k tk).map
          (fun r => { ctx := r.1, ip := some INADDR_ANY, mp := r.2, rest := rest })
      else some { ctx := 0, ip := none, mp := mp, rest := rest }

/-- The function `madns_response`. `dgs` are the datagrams that successive `recvfrom`
calls return (after the last one `recvfrom` returns an error). -/
def madns_response (mp : MADNS) (dgs : List DGRAM) (now : Int) (tk : ℚ) : Option RESULT :=
  match dgs with
  | [] => reapHead mp [] now tk
  | d :: ds =>
    if d.len = 0 then reapHead mp ds now tk
    else
      match parse_response d.buf d.len with
      | none => none
      | some (false, _) => madns_response mp ds now tk
      | some (true, resp) =>
        if mp.qsize = 0 then none
        else
          match mp.queries[resp.tid % mp.qsize]? with
          | none => none
          | some qp =>
            if accepts mp qp resp d.src = true then
              match (if resp.ip ≠ INADDR_ANY ∧ strcasecmp resp.name qp.name = 0
                     then update_cache mp resp now else some mp) with
              | none => none
              | some mp1 =>
                (destroy_query mp1 (resp.tid % mp.qsize) tk).map
                  (fun r => { ctx := r.1, ip := some resp.ip, mp := r.2, rest := ds })
            else madns_response mp ds now tk

/-- The scan of `madns_cancel` over the active list. -/
def cancelScan (mp : MADNS) (context : Nat) (tk : ℚ) : List Nat → Option (Int × MADNS)
  | [] => some (0, mp)
  | k :: lp =>
    match mp.queries[k]? with
    | none => none
    | some qp =>
      if qp.ctx = context then (destroy_query mp k tk).map (fun r => ((qp.tid : Int), r.2))
      else cancelScan mp context tk lp

/-- The function `madns_cancel`. -/
def madns_cancel (mp : MADNS) (context : Nat) (tk : ℚ) : Option (Int × MADNS) :=
  cancelScan mp context tk mp.active

/-- The handle states that a program can reach through the public interface from a handle
created over the memory content `mem` of the query array. -/
inductive ReachableFrom (mem : Nat → QUERY) : MADNS → Prop
  | create (ips : List Nat) (lat : Nat → ℚ) (query_time server_reqs : Int) (mp : MADNS) :
      madns_create ips lat mem query_time server_reqs true = some mp → ReachableFrom mem mp
  | request (mp : MADNS) (name : List Nat) (ctx rnd : Nat) (tk : ℚ) (now : Int) (sent : Bool)
      (r : Int × MADNS × Option (List Nat)) :
      ReachableFrom mem mp → madns_request mp name ctx rnd tk now sent = some r →
      ReachableFrom mem r.2.1
  | response (mp : MADNS) (dgs : List DGRAM) (now : Int) (tk : ℚ) (r : RESULT) :
      ReachableFrom mem mp → madns_response mp dgs now tk = some r → ReachableFrom mem r.mp
  | cancel (mp : MADNS) (context : Nat) (tk : ℚ) (r : Int × MADNS) :
      ReachableFrom mem mp → madns_cancel mp context tk = some r → ReachableFrom mem r.2

/-- The handle states that a program can reach through the public interface when `malloc`
hands out the query array zero-filled: every slot starts as `QUERY.zero`, the state in
which `destroy_query` leaves a released slot. -/
inductive Reachable : MADNS → Prop
  | create (ips : List Nat) (lat : Nat → ℚ) (query_time server_reqs : Int) (mp : MADNS) :
      madns_create ips lat (fun _ => QUERY.zero) query_time server_reqs true = some mp →
      Reachable mp
  | request (mp : MADNS) (name : List Nat) (ctx rnd : Nat) (tk : ℚ) (now : Int) (sent : Bool)
      (r : Int × MADNS × Option (List Nat)) :
      Reachable mp → madns_request mp name ctx rnd tk now sent = some r → Reachable r.2.1
  | response (mp : MADNS) (dgs : List DGRAM) (now : Int) (tk : ℚ) (r : RESULT) :
      Reachable mp → madns_response mp dgs now tk = some r → Reachable r.mp
  | cancel (mp : MADNS) (context : Nat) (tk : ℚ) (r : Int × MADNS) :
      Reachable mp → madns_cancel mp context tk = some r → Reachable r.2

/-- The key under which a name is cached and looked up: its bytes up to the first NUL,
lowercased. -/
def lowerKey (s : List Nat) : List Nat := (cstr s).map tolower

/-! ## Well-formed handles -/

/-- The server that slot `k` is bound to. -/
def srvOf (queries : List QUERY) (k : Nat) : Option Nat := (queries[k]?).bind QUERY.server

/-- The number of active slots bound to server `s`. -/
def inFlight (mp : MADNS) (s : Nat) : Nat :=
  mp.active.countP (fun k => decide (srvOf mp.queries k = some s))

/-- The invariant of the query table and the server table. -/
structure WF (mp : MADNS) : Prop where
  qlen : mp.queries.length = mp.qsize
  perm : (mp.active ++ mp.unused).Perm (List.range mp.qsize)
  nfree : mp.nfree = (mp.unused.length : Int)
  unused_clean : ∀ k ∈ mp.unused, ∃ qp, mp.queries[k]? = some qp ∧ qp.ctx = 0 ∧
    qp.server = none
  active_ok : ∀ k ∈ mp.active, ∃ qp s, mp.queries[k]? = some qp ∧ qp.ctx ≠ 0 ∧
    qp.server = some s ∧ s < mp.serv.length
  reqs : ∀ s sv, mp.serv[s]? = some sv → sv.nreqs = (inFlight mp s : Int)
  size : (mp.qsize : Int) = (mp.serv.length : Int) * mp.server_reqs
  qbound : 2 ≤ mp.qsize ∧ mp.qsize ≤ MAX_TIDS
  names : ∀ k ∈ mp.active, ∀ qp, mp.queries[k]? = some qp → strlen qp.name ≤ DNS_MAX_HOSTNAME

/-- The number of occupied slots of a cache table. -/
def occupied (cachev : List (Option CACHE_INFO)) : Nat := cachev.countP (fun o => o.isSome)

/-- The invariant of the cache table. -/
structure CacheInv (mp : MADNS) : Prop where
  len : mp.cachev.length = mp.limit
  pow : ∃ n, mp.limit = 2 ^ n
  occ : (occupied mp.cachev : Int) ≤ mp.count
  room : mp.count < (mp.limit : Int)

/-- A datagram that `madns_response` reads and drops: `parse_response` rejects it, or the
slot it selects fails the test. -/
def unmatched (mp : MADNS) (d : DGRAM) : Prop :=
  d.len ≠ 0 ∧
    ((∃ rp, parse_response d.buf d.len = some (false, rp)) ∨
     ∃ resp qp, parse_response d.buf d.len = some (true, resp) ∧
       mp.queries[resp.tid % mp.qsize]? = some qp ∧ accepts mp qp resp d.src = false)

/-- The number of active queries whose context is `c`. -/
def holders (mp : MADNS) (c : Nat) : Nat :=
  mp.active.countP (fun k => decide ((mp.queries[k]?).map QUERY.ctx = some c))

/-- The states that follow `m0` through calls of the public interface in which no
`madns_request` is made with the context `c`. -/
inductive Follows (c : Nat) (m0 : MADNS) : MADNS → Prop
  | start : Follows c m0 m0
  | request (mp : MADNS) (name : List Nat) (ctx rnd : Nat) (tk : ℚ) (now : Int) (sent : Bool)
      (r : Int × MADNS × Option (List Nat)) :
      Follows c m0 mp → ctx ≠ c → madns_request mp name ctx rnd tk now sent = some r →
      Follows c m0 r.2.1
  | response (mp : MADNS) (dgs : List DGRAM) (now : Int) (tk : ℚ) (r : RESULT) :
      Follows c m0 mp → madns_response mp dgs now tk = some r → Follows c m0 r.mp
  | cancel (mp : MADNS) (context : Nat) (tk : ℚ) (r : Int × MADNS) :
      Follows c m0 mp → madns_cancel mp context tk = some r → Follows c m0 r.2

/-- A host name as the list of its labels: the labels joined by dots. -/
def joinLabels : List (List Nat) → List Nat
  | [] => []
  | [l] => l
  | l :: ls => l ++ 46 :: joinLabels ls

/-- The wire form of a list of labels: each lowercased label behind its length byte. -/
def wireLabels : List (List Nat) → List Nat
  | [] => []
  | l :: ls => l.length :: (l.map tolower ++ wireLabels ls)

/-- The wire form after the first loop of `parse_response`: a dot for each length byte. -/
def dotLabels : List (List Nat) → List Nat
  | [] => []
  | l :: ls => 46 :: (l.map tolower ++ dotLabels ls)

/-- A label of a host name: 1 to 63 bytes, none of them NUL or a dot. -/
def goodLabel (l : List Nat) : Prop :=
  1 ≤ l.length ∧ l.length ≤ NS_MAXLABEL ∧ ∀ c ∈ l, c ≠ 0 ∧ c ≠ 46 ∧ c < 256

instance goodLabelDecidable (l : List Nat) : Decidable (goodLabel l) := by
  unfold goodLabel
  infer_instance

/-! ## Concrete data used in the examples -/

/-- A stand-in for the libc routine `inet_addr` that accepts no literal at all. -/
def noLiteral : List Nat → Nat := fun _ => INADDR_NONE

/-- The value of a string of decimal digits. -/
def digitsValue : List Nat → Nat → Option Nat
  | [], acc => some acc
  | c :: cs, acc => if 48 ≤ c ∧ c ≤ 57 then digitsValue cs (acc * 10 + (c - 48)) else none

/-- The fields of a string between its dots. -/
def splitDot : List Nat → List Nat → List (List Nat)
  | [], cur => [cur]
  | c :: cs, cur => if c = 46 then cur :: splitDot cs [] else splitDot cs (cur ++ [c])

/-- A stand-in for the libc routine `inet_addr` on its plain form: four decimal fields
`a.b.c.d`, each at most 255, give the address with the bytes `a b c d`; every other
string counts as no literal (the libc routine accepts further forms). -/
def dottedQuad (s : List Nat) : Nat :=
  match (splitDot (cstr s) []).map (fun f => if f = [] then none else digitsValue f 0) with
  | [some a, some b, some c, some d] =>
    if a ≤ 255 ∧ b ≤ 255 ∧ c ≤ 255 ∧ d ≤ 255 then ((a * 256 + b) * 256 + c) * 256 + d
    else INADDR_NONE
  | _ => INADDR_NONE

/-- A reply that echoes a query packet: the same bytes with the QR bit set in the flags. -/
def echoReply (pkt : List Nat) : List Nat := pkt.set 2 0x81

/-- The handle returned by `madns_create("resolv.conf", 5, 4)` with the single
name server 127.0.0.53, as in `madns_t.c`. -/
def handle0 : MADNS :=
  { query_time := 5, server_reqs := 4,
    serv := [{ ip := 0x7F000035, nreqs := 0, latency := 0 }],
    limit := 16, count := 0, cachev := List.replicate 16 none,
    qsize := 4, nfree := 4, queries := List.replicate 4 QUERY.zero,
    active := [], unused := [0, 1, 2, 3] }

/-- The bytes of "facebook.com". -/
def facebook : List Nat := [102, 97, 99, 101, 98, 111, 111, 107, 46, 99, 111, 109]

/-- The bytes of "FACEbook.COM". -/
def FACEbook : List Nat := [70, 65, 67, 69, 98, 111, 111, 107, 46, 67, 79, 77]

/-- The bytes of "a.b". -/
def nameAB : List Nat := [97, 46, 98]

/-- The query packet for "a.b" with TID 4. -/
def packetAB : List Nat := [4, 0, 1, 0, 0, 1, 0, 0, 0, 0, 0, 0, 1, 97, 1, 98, 0, 0, 1, 0, 1]

/-- The state of `handle0` after `madns_request(mp, "a.b", ctx)` with `ctx = 77`, at
time 100, when `rand()` returns 0. -/
def handle1 : MADNS :=
  { handle0 with
    serv := [{ ip := 0x7F000035, nreqs := 1, latency := 0 }]
    nfree := 3
    queries := [{ ctx := 77, expires := 105, tid := 4, name := nameAB, server := some 0,
                  started := 0 }, QUERY.zero, QUERY.zero, QUERY.zero]
    active := [0]
    unused := [1, 2, 3] }

/-- A reply to `packetAB`: one A record "a.b" → 1.2.3.4 with TTL 300. -/
def replyAB : List Nat :=
  [4, 0, 0x81, 0, 0, 1, 0, 1, 0, 0, 0, 0, 1, 97, 1, 98, 0, 0, 1, 0, 1,
   0xC0, 12, 0, 1, 0, 1, 0, 0, 1, 44, 0, 4, 1, 2, 3, 4]

/-- What `parse_response` extracts from `replyAB`. -/
def respAB : RESPONSE := { ip := 0x01020304, ttl := 300, tid := 4, name := nameAB }

/-- The datagram `replyAB` sent by 8.8.8.8, which is not the server of `handle1`. -/
def spoofedAB : DGRAM := { src := 0x08080808, buf := replyAB, len := 37 }

/-- The datagram `replyAB` sent by the server 127.0.0.53. -/
def dgramAB : DGRAM := { src := 0x7F000035, buf := replyAB, len := 37 }

/-- A name that `send_request` cannot encode: a label of 64 letters `a`, then ".b". -/
def longLabel : List Nat := List.replicate 64 97 ++ [46, 98]

/-- A name of 255 letters `a`. -/
def name255 : List Nat := List.replicate 255 97

/-- A name of 256 letters `a`. -/
def name256 : List Nat := List.replicate 256 97

/-- The state of `handle1` after `madns_cancel(mp, ctx)` with `ctx = 77`, when `tick()`
returns 1. -/
def handle2 : MADNS :=
  { handle0 with
    serv := [{ ip := 0x7F000035, nreqs := 0, latency := 1 / 8 }]
    unused := [1, 2, 3, 0] }

/-- The labels of "Mail.Google.com". -/
def mailGoogle : List (List Nat) :=
  [[77, 97, 105, 108], [71, 111, 111, 103, 108, 101], [99, 111, 109]]

/-- The bytes of "mail.google.com". -/
def mailGoogleLower : List Nat :=
  [109, 97, 105, 108, 46, 103, 111, 111, 103, 108, 101, 46, 99, 111, 109]

/-- A reply to the second query for "a.b" (TID 5): one A record "a.b" → 5.6.7.8 with
TTL 300. -/
def replyAB2 : List Nat :=
  [5, 0, 0x81, 0, 0, 1, 0, 1, 0, 0, 0, 0, 1, 97, 1, 98, 0, 0, 1, 0, 1,
   0xC0, 12, 0, 1, 0, 1, 0, 0, 1, 44, 0, 4, 5, 6, 7, 8]

/-- The datagram `replyAB2` sent by the server 127.0.0.53. -/
def dgramAB2 : DGRAM := { src := 0x7F000035, buf := replyAB2, len := 37 }

/-- The run on which a refreshed cache entry keeps its old address: from `handle1` the
reply `dgramAB` is accepted at time 101; "a.b" is requested again at time 500 with
context 78; the reply `dgramAB2` is accepted at time 501. The result holds the three
outcomes. -/
def refreshRun : Option (RESULT × (Int × MADNS × Option (List Nat)) × RESULT) :=
  (madns_response handle1 [dgramAB] 101 1).bind fun r1 =>
    (madns_request r1.mp nameAB 78 0 0 500 true).bind fun r2 =>
      (madns_response r2.2.1 [dgramAB2] 501 1).map fun r3 => (r1, r2, r3)

/-- The bytes of "A.B". -/
def nameABUpper : List Nat := [65, 46, 66]

/-- The state of `handle1` after `madns_response` has accepted `dgramAB` at time 101,
when `tick()` returns 1: "a.b" is cached until time 401. -/
def handle3 : MADNS :=
  { handle0 with
    serv := [{ ip := 0x7F000035, nreqs := 0, latency := 1 / 8 }]
    count := 1
    cachev := (List.replicate 16 none).set (fnvstr nameAB % 16)
      (some { hash := fnvstr nameAB, expires := 401, ip := 0x01020304, name := nameAB })
    unused := [1, 2, 3, 0] }

/-- The bytes of "1.2.3.4", a host name that is an IPv4 literal. -/
def name1234 : List Nat := [49, 46, 50, 46, 51, 46, 52]

/-- A reply to the query for "1.2.3.4" with TID 4: one A record → 9.9.9.9, TTL 300,
sent by the server 127.0.0.53. -/
def dgram1234 : DGRAM :=
  { src := 0x7F000035
    buf := [4, 0, 0x81, 0, 0, 1, 0, 1, 0, 0, 0, 0, 1, 49, 1, 50, 1, 51, 1, 52, 0, 0, 1, 0, 1,
            0xC0, 12, 0, 1, 0, 1, 0, 0, 1, 44, 0, 4, 9, 9, 9, 9]
    len := 41 }

/-- The run on a literal name: "1.2.3.4" is requested on `handle0` at time 100 and the
reply `dgram1234` is accepted at time 101. -/
def literalRun : Option RESULT :=
  (madns_request handle0 name1234 77 0 0 100 true).bind fun r1 =>
    madns_response r1.2.1 [dgram1234] 101 1

/-- A name that is one label of 64 letters `a`. -/
def label64 : List Nat := List.replicate 64 97

/-- The name "b." followed by 64 letters `a`: the last label has 64 bytes. -/
def lastLabel64 : List Nat := [98, 46] ++ List.replicate 64 97

/-- The name "b." followed by 64 letters `a` and ".c": the middle label has 64 bytes. -/
def midLabel64 : List Nat := [98, 46] ++ List.replicate 64 97 ++ [46, 99]

/-- A label of 63 letters `a`, then ".b". -/
def label63 : List Nat := List.replicate 63 97 ++ [46, 98]

/-- What a run of `madns_request` on `handle0` at time 100 (`rand()` = 0, `sendto`
succeeds) shows of `send_request`: the length of the packet handed to `sendto` and its
first length byte, if a packet was built, and the field `expires` of the slot. -/
def sendOutcome (name : List Nat) : Option (Option (Nat × Option Nat) × Option Int) :=
  (madns_request handle0 name 77 0 0 100 true).map fun r =>
    (r.2.2.map (fun pkt => (pkt.length, pkt[12]?)), (r.2.1.queries[0]?).map QUERY.expires)

/-- The wire form of a QNAME as it stands in a packet: each label behind its length byte
(the bytes of the labels as they are, in any case). -/
def rawLabels : List (List Nat) → List Nat
  | [] => []
  | l :: ls => l.length :: (l ++ rawLabels ls)

/-- The wire form after the first loop of `parse_response`, before lowercasing. -/
def dotRaw : List (List Nat) → List Nat
  | [] => []
  | l :: ls => 46 :: (l ++ dotRaw ls)

/-- A label of a QNAME: 1 to 63 bytes, none of them NUL. -/
def wireLabel (l : List Nat) : Prop :=
  1 ≤ l.length ∧ l.length ≤ NS_MAXLABEL ∧ ∀ c ∈ l, c ≠ 0

instance wireLabelDecidable (l : List Nat) : Decidable (wireLabel l) := by
  unfold wireLabel
  infer_instance

/-- The state inside `madns_request(mp, "a.b", ctx)` on `handle0` (`ctx = 77`, `rand()` = 0)
at the call of `send_request`: slot 0 is filled in and linked on the active list, no
server is bound yet. -/
def handle0Filled : MADNS :=
  { handle0 with
    nfree := 3
    queries := [{ ctx := 77, expires := 0, tid := 4, name := nameAB, server := none,
                  started := 0 }, QUERY.zero, QUERY.zero, QUERY.zero]
    active := [0]
    unused := [1, 2, 3] }

/-- A reply to `packetAB` that carries no answer: the query echoed with the QR bit set
(ANCOUNT 0, RCODE 0), sent by the server 127.0.0.53. -/
def emptyReplyAB : DGRAM := { src := 0x7F000035, buf := echoReply packetAB, len := 21 }

/-- The cache states that `update_cache` calls produce from the empty table of
`madns_create` (`limit = 16`, `count = 0`), whatever the names, addresses, TTLs and times
of the calls. -/
inductive Cached : MADNS → Prop
  | start (mp : MADNS) : mp.limit = MIN_CACHE → mp.count = 0 →
      mp.cachev = List.replicate MIN_CACHE none → Cached mp
  | step (mp : MADNS) (rp : RESPONSE) (now : Int) (mp' : MADNS) :
      Cached mp → update_cache mp rp now = some mp' → Cached mp'

/-- The load bound of the cache: `limit` is a power of two, at least 16, and `count` is at
most three quarters of it. -/
def Load (mp : MADNS) : Prop :=
  (∃ n, 4 ≤ n ∧ mp.limit = 2 ^ n) ∧ 4 * mp.count ≤ 3 * (mp.limit : Int)

/-- The cache of `handle0` after `update_cache` has been called at time 100 for the `n`
one-letter names "a", "b", "c", ... with the addresses 10.0.0.0, 10.0.0.1, ... and TTL 300
(all entries live). -/
def fillNames (n : Nat) : Option MADNS :=
  (List.range n).foldl
    (fun acc i => acc.bind fun m =>
      update_cache m { ip := 0x0A000000 + i, ttl := 300, tid := 0, name := [97 + i] } 100)
    (some handle0)

/-- The cache state behind `fillNames 11`: eleven live one-letter names in a table of
`limit = 16`. -/
def cache11 : MADNS := (fillNames 11).getD handle0

/-- The reply data for the twelfth one-letter name "l". -/
def resp12 : RESPONSE := { ip := 0x0A00000B, ttl := 300, tid := 0, name := [108] }

/-- The bytes of a resource record: owner name, TYPE, CLASS IN, TTL, RDLENGTH, RDATA. -/
def rrBytes (owner : List Nat) (ty ttl : Nat) (rdata : List Nat) : List Nat :=
  owner ++ [ty / 256, ty % 256, 0, 1, ttl / 16777216 % 256, ttl / 65536 % 256,
    ttl / 256 % 256, ttl % 256, rdata.length / 256, rdata.length % 256] ++ rdata

/-- The wire form of a canonical name of 229 bytes (labels of 63, 63, 63 and 36 letters). -/
def longCname : List Nat :=
  rawLabels [List.replicate 63 120, List.replicate 63 121, List.replicate 63 122,
    List.replicate 36 119] ++ [0]

/-- A reply of 296 bytes to the query for "a.b" with TID 4 that carries a CNAME chain:
"a.b" CNAME `longCname` (its RDATA stands at offset 33), `longCname` CNAME "c.d" (RDATA at
offset 275), and an A record 9.9.9.9 with TTL 300 whose owner name is `owner`. -/
def chainReply (owner : List Nat) : List Nat :=
  [4, 0, 0x81, 0x80, 0, 1, 0, 3, 0, 0, 0, 0] ++ rawLabels [[97], [98]] ++ [0, 0, 1, 0, 1]
    ++ rrBytes [0xC0, 12] 5 300 longCname
    ++ rrBytes [0xC0, 33] 5 300 (rawLabels [[99], [100]] ++ [0])
    ++ rrBytes owner 1 300 [9, 9, 9, 9]

/-- The state of `handle0` after two requests at time 100: "a.b" with context 77, which is
sent, and `longLabel` with context 78, which `send_request` cannot encode. -/
def unsentRun : Option MADNS :=
  (madns_request handle0 nameAB 77 0 0 100 true).bind fun r1 =>
    (madns_request r1.2.1 longLabel 78 0 0 100 true).map fun r2 => r2.2.1

/-- The fields `expires` of the active queries, from the head of the list. -/
def activeExpires (mp : MADNS) : List Int :=
  mp.active.map fun k => (mp.queries.getD k QUERY.zero).expires

/-- Whether a slot of the cache holds an entry for the key `κ` (a lowercased name). -/
def entryKey (o : Option CACHE_INFO) (κ : List Nat) : Bool :=
  match o with
  | some e => decide (lowerKey e.name = κ)
  | none => false

/-- The number of entries of a cache table for the key `κ`. -/
def keyCount (cachev : List (Option CACHE_INFO)) (κ : List Nat) : Nat :=
  cachev.countP fun o => entryKey o κ

/-- The keys (lowercased names) of the entries of a cache table, in table order. -/
def entryKeys (cachev : List (Option CACHE_INFO)) : List (List Nat) :=
  cachev.filterMap fun o => o.map fun e => lowerKey e.name

/-- The entry that `update_cache` allocates for the reply data `rp` at time `now`. -/
def newEntry (rp : RESPONSE) (now : Int) : CACHE_INFO :=
  { hash := fnvstr rp.name, expires := now + rp.ttl, ip := rp.ip, name := cstr rp.name }

/-- Reply data for the literal name "1.2.3.4": the address 9.9.9.9 with TTL 300. -/
def resp1234 : RESPONSE := { ip := 0x09090909, ttl := 300, tid := 0, name := name1234 }

/-- As `fillNames`, but the first name "a" gets the TTL 5 (it expires at time 105). -/
def fillShort (n : Nat) : Option MADNS :=
  (List.range n).foldl
    (fun acc i => acc.bind fun m =>
      update_cache m
        { ip := 0x0A000000 + i, ttl := if i = 0 then 5 else 300, tid := 0, name := [97 + i] }
        100)
    (some handle0)

/-- The cache state behind `fillShort 11`. -/
def cacheShort : MADNS := (fillShort 11).getD handle0

/-- As `fillNames`, but the name with the index `s` gets the TTL 5 (it expires at time
105). -/
def fillShortAt (s n : Nat) : Option MADNS :=
  (List.range n).foldl
    (fun acc i => acc.bind fun m =>
      update_cache m
        { ip := 0x0A000000 + i, ttl := if i = s then 5 else 300, tid := 0, name := [97 + i] }
        100)
    (some handle0)

/-- The open-addressing property at slot `k` of a table: if the slot holds an entry with
hash `H`, every slot on the cyclic path from `H mod limit` up to `k` is occupied. -/
def probeReach (cachev : List (Option CACHE_INFO)) (k : Nat) : Bool :=
  match cachev[k]? with
  | some (some e) =>
    (List.range ((k + cachev.length - e.hash % cachev.length) % cachev.length)).all
      fun t => ((cachev[(e.hash + t) % cachev.length]?).join).isSome
  | _ => true

/-- The open-addressing property of a table: it holds at every slot. -/
def openAddressed (cachev : List (Option CACHE_INFO)) : Bool :=
  (List.range cachev.length).all (probeReach cachev)

/-- A reply of 34 bytes to the query for "a.b" with TID 4: the A record at offset 21
declares an RDLENGTH of 1, and the packet ends behind the first byte of its RDATA. -/
def shortRdata : List Nat :=
  [4, 0, 0x81, 0, 0, 1, 0, 1, 0, 0, 0, 0, 1, 97, 1, 98, 0, 0, 1, 0, 1,
   0xC0, 12, 0, 1, 0, 1, 0, 0, 1, 44, 0, 1, 1]

/-- A handle with four servers and `server_reqs = 4`, with six active queries: slot 0 is
bound to server 0, the slots 1 to 4 to server 1 (which is full), slot 5 to server 2; the
servers 2 and 3 have the same latency 1/4, server 1 has the lowest latency 0. -/
def handleFour : MADNS :=
  { query_time := 5, server_reqs := 4,
    serv := [{ ip := 0x0A000001, nreqs := 1, latency := 1 / 2 },
             { ip := 0x0A000002, nreqs := 4, latency := 0 },
             { ip := 0x0A000003, nreqs := 1, latency := 1 / 4 },
             { ip := 0x0A000004, nreqs := 0, latency := 1 / 4 }],
    limit := 16, count := 0, cachev := List.replicate 16 none,
    qsize := 16, nfree := 10,
    queries :=
      [{ ctx := 70, expires := 105, tid := 16, name := nameAB, server := some 0, started := 0 },
       { ctx := 71, expires := 105, tid := 17, name := nameAB, server := some 1, started := 0 },
       { ctx := 72, expires := 105, tid := 18, name := nameAB, server := some 1, started := 0 },
       { ctx := 73, expires := 105, tid := 19, name := nameAB, server := some 1, started := 0 },
       { ctx := 74, expires := 105, tid := 20, name := nameAB, server := some 1, started := 0 },
       { ctx := 75, expires := 105, tid := 21, name := nameAB, server := some 2, started := 0 }]
        ++ List.replicate 10 QUERY.zero,
    active := [0, 1, 2, 3, 4, 5], unused := [6, 7, 8, 9, 10, 11, 12, 13, 14, 15] }

/-- No server has more than `server_reqs` requests in flight. -/
def ReqsBounded (mp : MADNS) : Prop :=
  ∀ (s : Nat) (sv : SERVER), mp.serv[s]? = some sv → sv.nreqs ≤ mp.server_reqs

/-- Whether a slot holds an entry that the rebuild of `update_cache` at time `now` drops
(`expires <= now`). -/
def staleAt (now : Int) (o : Option CACHE_INFO) : Bool :=
  match o with
  | some e => decide (e.expires ≤ now)
  | none => false

/-- The open-addressing property of a table as a proposition: every entry stands `s`
steps behind its home slot `hash mod limit`, and the `s` slots before it on the cyclic
path are occupied. -/
def OpenAddressed (cachev : List (Option CACHE_INFO)) : Prop :=
  ∀ (k : Nat) (e : CACHE_INFO), cachev[k]? = some (some e) →
    ∃ s, s < cachev.length ∧ (e.hash + s) % cachev.length = k ∧
      ∀ u, u < s → ∃ e' : CACHE_INFO, cachev[(e.hash + u) % cachev.length]? = some (some e')

/-- A content of the query array as `malloc` may hand it out: slot 1 holds what an earlier
use of the block left there (the context 5, the TID 5, a null name and a pointer to
`serv[0]`), the other slots are zero. -/
def staleMem (i : Nat) : QUERY :=
  if i = 1 then { ctx := 5, expires := 0, tid := 5, name := [], server := some 0, started := 0 }
  else QUERY.zero

/-- The handle that `madns_create("resolv.conf", 5, 4)` returns over the memory `staleMem`,
with the single name server 127.0.0.53. -/
def staleHandle : MADNS :=
  { handle0 with queries := [QUERY.zero, staleMem 1, QUERY.zero, QUERY.zero] }

/-- A reply with TID 5 that carries no answer (QR set, QDCOUNT 1, question "a.b", ANCOUNT 0,
RCODE 0), sent by the server 127.0.0.53. -/
def emptyReply5 : DGRAM :=
  { src := 0x7F000035, buf := (echoReply packetAB).set 0 5, len := 21 }

/-- Four requests for "a.b" in a row, with the contexts 71 to 74, at time 100. -/
def fourRequests (m : MADNS) : Option MADNS :=
  (madns_request m nameAB 71 0 0 100 true).bind fun a =>
    (madns_request a.2.1 nameAB 72 0 0 100 true).bind fun b =>
      (madns_request b.2.1 nameAB 73 0 0 100 true).bind fun c =>
        (madns_request c.2.1 nameAB 74 0 0 100 true).map fun d => d.2.1

/-- A content of the query array in which the field `server` of slot 0 holds a stale
pointer, to `serv[s]` (outside the table when `s` is not below `nservs`); everything else
is zero. -/
def staleServer (s : Nat) (i : Nat) : QUERY :=
  if i = 0 then { QUERY.zero with server := some s } else QUERY.zero

/-- A reply with RCODE 3 whose QNAME is the root name (the single byte 0), followed by
QTYPE 1, QCLASS 1 and `n` zero bytes. -/
def rootReply (n : Nat) : List Nat :=
  [4, 0, 0x81, 0x83, 0, 1, 0, 0, 0, 0, 0, 0] ++ [0] ++ [0, 1, 0, 1] ++ List.replicate n 0

/-- A reply with RCODE 3 for the QNAME made of the labels `a NUL b` and `c`: the first
label holds a NUL byte. -/
def nulLabelReply : List Nat :=
  [4, 0, 0x81, 0x83, 0, 1, 0, 0, 0, 0, 0, 0] ++ rawLabels [[97, 0, 98], [99]]
    ++ [0, 0, 1, 0, 1]

/-- The cache state behind `fillNames 12`: twelve live one-letter names; the twelfth call
has rebuilt the table with `limit = 32`. -/
def cache12 : MADNS := (fillNames 12).getD handle0

/-! ## Theorems -/

/-! ### Strings and hashing -/

theorem tolower_eq_zero (c : Nat) : tolower c = 0 ↔ c = 0 := by
  unfold tolower; split <;> omega

theorem tolower_idem (c : Nat) : tolower (tolower c) = tolower c := by
  unfold tolower; split_ifs <;> omega

theorem tolower_toupper (c : Nat) : tolower (toupper c) = tolower c := by
  unfold tolower toupper; split_ifs <;> omega

theorem map_tolower_toupper (a : List Nat) : (a.map toupper).map tolower = a.map tolower := by
  induction a with
  | nil => rfl
  | cons c cs ih => simp [tolower_toupper]

theorem cstr_idem (s : List Nat) : cstr (cstr s) = cstr s := by
  induction s with
  | nil => rfl
  | cons c cs ih =>
    by_cases hc : c = 0
    · simp [hc, cstr]
    · rw [cstr, if_neg hc, cstr, if_neg hc, ih]

theorem cstr_length_of_map (a b : List Nat) (h : a.map tolower = b.map tolower) :
    (cstr a).length = (cstr b).length := by
  induction a generalizing b with
  | nil => cases b with
    | nil => rfl
    | cons _ _ => simp at h
  | cons x xs ih => cases b with
    | nil => simp at h
    | cons y ys =>
      simp only [List.map_cons, List.cons.injEq] at h
      have hz : x = 0 ↔ y = 0 := by rw [← tolower_eq_zero x, ← tolower_eq_zero y, h.1]
      unfold cstr
      by_cases hx : x = 0
      · simp [hx, hz.mp hx]
      · have hy : y ≠ 0 := fun e => hx (hz.mpr e)
        simp [hx, hy, ih ys h.2]

theorem lower32_of_tolower (x y : Nat) (h : tolower x = tolower y) : lower32 x = lower32 y := by
  unfold lower32
  unfold tolower at h ⊢
  split_ifs at h ⊢ <;> omega

theorem fnvLoop_of_map (a b : List Nat) (h : a.map tolower = b.map tolower) (hash : Nat) :
    fnvLoop a hash = fnvLoop b hash := by
  induction a generalizing b hash with
  | nil => cases b with
    | nil => rfl
    | cons _ _ => simp at h
  | cons x xs ih => cases b with
    | nil => simp at h
    | cons y ys =>
      simp only [List.map_cons, List.cons.injEq] at h
      have hz : x = 0 ↔ y = 0 := by rw [← tolower_eq_zero x, ← tolower_eq_zero y, h.1]
      unfold fnvLoop
      by_cases hx : x = 0
      · simp [hx, hz.mp hx]
      · have hy : y ≠ 0 := fun e => hx (hz.mpr e)
        simp only [hx, hy, if_false, lower32_of_tolower x y h.1]
        exact ih ys h.2 _

theorem fnvstr_of_map (a b : List Nat) (h : a.map tolower = b.map tolower) :
    fnvstr a = fnvstr b := by
  unfold fnvstr; rw [fnvLoop_of_map a b h]

theorem strcasecmp_of_map (a b : List Nat) (h : a.map tolower = b.map tolower) (c : List Nat) :
    strcasecmp c a = strcasecmp c b := by
  induction c generalizing a b with
  | nil => cases a with
    | nil => cases b with
      | nil => rfl
      | cons _ _ => simp at h
    | cons x xs => cases b with
      | nil => simp at h
      | cons y ys =>
        simp only [List.map_cons, List.cons.injEq] at h
        simp [strcasecmp, h.1]
  | cons z zs ih => cases a with
    | nil => cases b with
      | nil => rfl
      | cons _ _ => simp at h
    | cons x xs => cases b with
      | nil => simp at h
      | cons y ys =>
        simp only [List.map_cons, List.cons.injEq] at h
        simp only [strcasecmp, h.1]
        rw [ih xs ys h.2]

theorem lookupProbe_of_map (cachev : List (Option CACHE_INFO)) (mask hash : Nat) (now : Int)
    (a b : List Nat) (h : b.map tolower = a.map tolower) (fuel i : Nat) :
    lookupProbe cachev mask hash b now fuel i = lookupProbe cachev mask hash a now fuel i := by
  induction fuel generalizing i with
  | zero => rfl
  | succ n ih =>
    unfold lookupProbe
    cases cachev[i &&& mask]? with
    | none => rfl
    | some o =>
      cases o with
      | none => rfl
      | some cip => simp only [strcasecmp_of_map b a h, ih]

theorem handle0_created :
    madns_create [0x7F000035] (fun _ => 0) (fun _ => QUERY.zero) 5 4 true = some handle0 := by
  decide

/-- C8: `madns_lookup`, the hash `fnvstr` and the comparison `strcasecmp` give the same
result on a name and on any case variant of it (a name with the same lowercased bytes),
the uppercased name being such a variant; `inet_addr` is taken to treat case variants
alike. -/
theorem C8_lookup_ignores_case (inet_addr : List Nat → Nat) (mp : MADNS) (now : Int)
    (a : List Nat) :
    (∀ b : List Nat, b.map tolower = a.map tolower → inet_addr b = inet_addr a →
      madns_lookup inet_addr mp b now = madns_lookup inet_addr mp a now ∧
      fnvstr b = fnvstr a ∧ ∀ c, strcasecmp c b = strcasecmp c a) ∧
    (a.map toupper).map tolower = a.map tolower := by
  refine ⟨?_, map_tolower_toupper a⟩
  intro b hb hlit
  refine ⟨?_, fnvstr_of_map b a hb, strcasecmp_of_map b a hb⟩
  unfold madns_lookup strlen
  rw [hlit, cstr_length_of_map b a hb, fnvstr_of_map b a hb, lookupProbe_of_map _ _ _ _ a b hb]

theorem C8_lookup_ignores_case_witness :
    madns_lookup noLiteral handle3 nameABUpper 200 = madns_lookup noLiteral handle3 nameAB 200 ∧
    fnvstr FACEbook = fnvstr facebook :=
  ⟨((C8_lookup_ignores_case noLiteral handle3 200 nameAB).1 nameABUpper (by decide) rfl).1,
   ((C8_lookup_ignores_case noLiteral handle0 100 facebook).1 FACEbook (by decide) rfl).2.1⟩

/-! ### The dispatcher skips a datagram that fails the slot test -/

/-- C3: a datagram that `parse_response` accepts but whose slot `tid mod qsize` fails the
test of `madns_response` (null `ctx`, another `tid`, no server, or a server whose address
differs from the sender) is skipped: the call goes on with the next datagram from the
same handle state, so no slot, server or cache entry changes. -/
theorem C3_mismatch_skipped (mp : MADNS) (d : DGRAM) (ds : List DGRAM) (now : Int) (tk : ℚ)
    (resp : RESPONSE) (qp : QUERY)
    (hlen : d.len ≠ 0) (hq : mp.qsize ≠ 0)
    (hparse : parse_response d.buf d.len = some (true, resp))
    (hslot : mp.queries[resp.tid % mp.qsize]? = some qp)
    (hbad : qp.ctx = 0 ∨ qp.tid ≠ resp.tid ∨ qp.server = none ∨
      ∃ s sv, qp.server = some s ∧ mp.serv[s]? = some sv ∧ sv.ip ≠ d.src) :
    accepts mp qp resp d.src = false ∧
    madns_response mp (d :: ds) now tk = madns_response mp ds now tk := by
  have hacc : accepts mp qp resp d.src = false := by
    unfold accepts
    rcases hbad with h | h | h | ⟨s, sv, h1, h2, h3⟩
    · simp [h]
    · simp [h]
    · simp [h]
    · simp [h1, h2, h3]
  refine ⟨hacc, ?_⟩
  rw [madns_response]
  simp [hlen, hq, hparse, hslot, hacc]

/-! ### Requests -/

theorem send_request_spec (mp : MADNS) (k : Nat) (now : Int) (sent : Bool)
    (r : MADNS × Option (List Nat)) (h : send_request mp k now sent = some r) :
    ∃ qp, mp.queries[k]? = some qp ∧
      ((firstEligible qp.server mp.server_reqs mp.serv 0 = mp.serv.length ∧ r = (mp, none)) ∨
       (firstEligible qp.server mp.server_reqs mp.serv 0 ≠ mp.serv.length ∧
        ∃ serv1 si serv2 e,
          (match qp.server with
           | none => some mp.serv
           | some s => bumpReqs mp.serv s (-1)) = some serv1 ∧
          serv1[firstEligible qp.server mp.server_reqs mp.serv 0]? = some si ∧
          bumpReqs serv1 (lowestLatency qp.server mp.server_reqs
            (serv1.drop (firstEligible qp.server mp.server_reqs mp.serv 0))
            (firstEligible qp.server mp.server_reqs mp.serv 0)
            (firstEligible qp.server mp.server_reqs mp.serv 0, si.latency)).1 1 = some serv2 ∧
          (e = qp.expires ∨ (qp.expires = 0 ∧ e = now + mp.query_time)) ∧
          r.1 = { mp with
            serv := serv2
            queries := mp.queries.set k
              { qp with
                server := some (lowestLatency qp.server mp.server_reqs
                  (serv1.drop (firstEligible qp.server mp.server_reqs mp.serv 0))
                  (firstEligible qp.server mp.server_reqs mp.serv 0)
                  (firstEligible qp.server mp.server_reqs mp.serv 0, si.latency)).1
                expires := e } })) := by
  unfold send_request at h
  split at h
  · exact absurd h (by simp)
  · rename_i qp hqp
    refine ⟨qp, hqp, ?_⟩
    simp only at h
    split at h
    · rename_i hi
      left
      exact ⟨hi, (Option.some.inj h).symm⟩
    · rename_i hi
      right
      refine ⟨hi, ?_⟩
      split at h
      · exact absurd h (by simp)
      · rename_i serv1 hs1
        split at h
        · exact absurd h (by simp)
        · rename_i si hsi
          split at h
          · exact absurd h (by simp)
          · rename_i serv2 hs2
            split at h
            · refine ⟨serv1, si, serv2, qp.expires, hs1, hsi, hs2, Or.inl rfl, ?_⟩
              rw [← Option.some.inj h]
            · split at h
              · rename_i hc
                refine ⟨serv1, si, serv2, now + mp.query_time, hs1, hsi, hs2, Or.inr ⟨hc.2, rfl⟩, ?_⟩
                rw [← Option.some.inj h]
              · refine ⟨serv1, si, serv2, qp.expires, hs1, hsi, hs2, Or.inl rfl, ?_⟩
                rw [← Option.some.inj h]


theorem send_request_slot (mp : MADNS) (k : Nat) (now : Int) (sent : Bool)
    (r : MADNS × Option (List Nat)) (h : send_request mp k now sent = some r) :
    ∃ qp qp', mp.queries[k]? = some qp ∧ r.1.queries[k]? = some qp' ∧
      qp'.ctx = qp.ctx ∧ qp'.tid = qp.tid ∧ qp'.name = qp.name := by
  obtain ⟨qp, hqp, hr⟩ := send_request_spec mp k now sent r h
  have hk : k < mp.queries.length := by
    rcases Nat.lt_or_ge k mp.queries.length with hk | hk
    · exact hk
    · rw [List.getElem?_eq_none hk] at hqp; exact absurd hqp (by simp)
  rcases hr with ⟨_, hr⟩ | ⟨_, serv1, si, serv2, e, _, _, _, _, hr⟩
  · exact ⟨qp, qp, hqp, by rw [hr]; exact hqp, rfl, rfl, rfl⟩
  · rw [hr]
    exact ⟨qp, _, hqp, List.getElem?_set_self hk, rfl, rfl, rfl⟩

theorem newTid_aux (qsize k x m : Nat) (hq2 : qsize ≤ 21845) (hk : k < qsize)
    (hx : qsize * x ≤ m) (hm : m ≤ 32767) : k + (qsize * x + qsize) < 65536 := by
  rcases Nat.lt_or_ge 16384 qsize with hbig | hsm
  · have h2 : x < 2 := by
      by_contra hge
      have : qsize * 2 ≤ qsize * x := Nat.mul_le_mul_left _ (by omega)
      omega
    have h3 : x = 0 ∨ x = 1 := by omega
    rcases h3 with h3 | h3 <;> subst h3 <;> omega
  · omega

theorem newTid_bounds (qsize k rnd : Nat) (hq2 : qsize ≤ 21845)
    (hk : k < qsize) :
    newTid qsize k rnd = k + qsize * (rnd % 32768 / qsize + 1) ∧
    qsize ≤ newTid qsize k rnd ∧ newTid qsize k rnd ≤ 65535 ∧
    newTid qsize k rnd % qsize = k ∧ rnd % 32768 / qsize + 1 ≤ 32767 / qsize + 1 := by
  have hr : rnd % 32768 ≤ 32767 := Nat.le_of_lt_succ (Nat.mod_lt _ (by decide))
  have hdiv : rnd % 32768 / qsize ≤ 32767 / qsize := Nat.div_le_div_right hr
  have hmul : qsize * (rnd % 32768 / qsize) ≤ rnd % 32768 := Nat.mul_div_le _ _
  have hexp : qsize * (rnd % 32768 / qsize + 1) = qsize * (rnd % 32768 / qsize) + qsize := by
    ring
  have hlt := newTid_aux qsize k _ _ hq2 hk hmul hr
  have hval : newTid qsize k rnd = k + qsize * (rnd % 32768 / qsize + 1) := by
    unfold newTid
    apply Nat.mod_eq_of_lt
    rw [hexp]
    exact hlt
  refine ⟨hval, ?_, ?_, ?_, Nat.add_le_add_right hdiv 1⟩
  · rw [hval, hexp]
    exact le_trans (Nat.le_add_left _ _) (Nat.le_add_left _ _)
  · rw [hval, hexp]
    exact Nat.le_of_lt_succ hlt
  · rw [hval, Nat.add_mul_mod_self_left]
    exact Nat.mod_eq_of_lt hk

/-- C5 (amended): for a handle with `2 ≤ qsize ≤ 21845` whose first free slot is `k`, the
value that an admitted `madns_request` returns is the TID stored in slot `k`; it satisfies
`1 ≤ tid ≤ 65535` and `tid mod qsize = k`, and
`tid = k + qsize * r` with `1 ≤ r ≤ ⌊32767 / qsize⌋ + 1`. -/
theorem C5_tid_range (mp : MADNS) (name : List Nat) (ctx rnd : Nat) (tk : ℚ) (now : Int)
    (sent : Bool) (k : Nat) (rest : List Nat) (r : Int × MADNS × Option (List Nat))
    (hq : 2 ≤ mp.qsize) (hq2 : mp.qsize ≤ 21845) (hu : mp.unused = k :: rest)
    (hk : k < mp.qsize) (hctx : ctx ≠ 0) (hready : madns_ready mp ≠ 0)
    (hname : strlen name ≤ DNS_MAX_HOSTNAME)
    (h : madns_request mp name ctx rnd tk now sent = some r) :
    ∃ tid r' : Nat, r.1 = (tid : Int) ∧ (∃ qp, r.2.1.queries[k]? = some qp ∧ qp.tid = tid) ∧
      1 ≤ tid ∧ tid ≤ 65535 ∧ tid % mp.qsize = k ∧
      tid = k + mp.qsize * r' ∧ 1 ≤ r' ∧ r' ≤ 32767 / mp.qsize + 1 := by
  obtain ⟨hval, hlo, hhi, hmod, hr⟩ := newTid_bounds mp.qsize k rnd hq2 hk
  have hc : ¬ (ctx = 0 ∨ madns_ready mp = 0 ∨ strlen name > DNS_MAX_HOSTNAME) := by
    rintro (h | h | h)
    · exact hctx h
    · exact hready h
    · exact absurd hname (Nat.not_le.mpr h)
  have hres : r.1 = (newTid mp.qsize k rnd : Int) ∧
      ∃ qp, r.2.1.queries[k]? = some qp ∧ qp.tid = newTid mp.qsize k rnd := by
    unfold madns_request at h
    rw [if_neg hc] at h
    simp only [hu] at h
    split at h
    · exact absurd h (by simp)
    · rename_i qp hqp
      split at h
      · exact absurd h (by simp)
      · rename_i mp2 pkt hs
        obtain ⟨q1, q2, hq1, hq2', _, htid, _⟩ := send_request_slot _ _ _ _ _ hs
        have hklen : k < mp.queries.length := by
          rcases Nat.lt_or_ge k mp.queries.length with hk | hk
          · exact hk
          · rw [List.getElem?_eq_none hk] at hqp; exact absurd hqp (by simp)
        simp only [List.getElem?_set_self hklen, Option.some.injEq] at hq1
        simp only at hq2'
        rw [hq2'] at h
        simp only at h
        subst hq1
        simp only at htid
        have hr := Option.some.inj h
        subst hr
        exact ⟨by simp [htid], q2, hq2', htid⟩
  exact ⟨newTid mp.qsize k rnd, rnd % 32768 / mp.qsize + 1, hres.1, hres.2,
    le_trans (le_trans (by decide) hq) hlo, hhi, hmod, hval, Nat.le_add_left 1 _, hr⟩

/-- Above `qsize = 21845` the 16-bit TID wraps: with `qsize = 32767`, slot 2 and
`rand() = 32767` the computed value `2 + 32767 * 2 = 65536` is stored as 0; with
`qsize = 21846`, slot 21845 and `rand() = 21846` the value 65537 is stored as 1. -/
theorem newTid_wraps : newTid 32767 2 32767 = 0 ∧ newTid 21846 21845 21846 = 1 := by
  decide

theorem handle1_requested :
    madns_request handle0 nameAB 77 0 0 100 true = some (4, handle1, some packetAB) := by
  decide

theorem C5_tid_range_witness :
    ∃ tid r' : Nat, (4 : Int) = (tid : Int) ∧
      (∃ qp, handle1.queries[0]? = some qp ∧ qp.tid = tid) ∧
      1 ≤ tid ∧ tid ≤ 65535 ∧ tid % handle0.qsize = 0 ∧
      tid = 0 + handle0.qsize * r' ∧ 1 ≤ r' ∧ r' ≤ 32767 / handle0.qsize + 1 :=
  C5_tid_range handle0 nameAB 77 0 0 100 true 0 [1, 2, 3] (4, handle1, some packetAB)
    (by decide) (by decide) rfl (by decide) (by decide) (by decide) (by decide)
    handle1_requested

/-- C5 (as stated) fails: on the handle of `madns_t.c` (`qsize = 4`), when `rand()`
returns 32767 the request is admitted with TID 32768, above 32767; the multiplier is
8192 = ⌊32767 / 4⌋ + 1. -/
theorem C5_counterexample :
    2 ≤ handle0.qsize ∧ handle0.qsize ≤ 32767 ∧
    (madns_request handle0 nameAB 77 32767 0 100 true).map (fun r => r.1) = some 32768 ∧
    ¬ ((32768 : Int) ≤ 32767) ∧ 32768 = 0 + 4 * 8192 ∧ ¬ (8192 ≤ 32767 / 4) := by
  decide

theorem replyAB_parsed : parse_response replyAB 37 = some (true, respAB) := by
  decide

theorem C3_mismatch_skipped_witness :
    accepts handle1
      { ctx := 77, expires := 105, tid := 4, name := nameAB, server := some 0, started := 0 }
      respAB spoofedAB.src = false ∧
    madns_response handle1 [spoofedAB] 101 1 = madns_response handle1 [] 101 1 :=
  C3_mismatch_skipped handle1 spoofedAB [] 101 1 respAB
    { ctx := 77, expires := 105, tid := 4, name := nameAB, server := some 0, started := 0 }
    (by decide) (by decide) replyAB_parsed (by decide)
    (Or.inr (Or.inr (Or.inr
      ⟨0, { ip := 0x7F000035, nreqs := 1, latency := 0 }, rfl, by decide, by decide⟩)))

/-! ### The invariant of the query and server tables -/

theorem getElem?_lt_length {α : Type} (l : List α) (k : Nat) (a : α) (h : l[k]? = some a) :
    k < l.length := by
  rcases Nat.lt_or_ge k l.length with hk | hk
  · exact hk
  · rw [List.getElem?_eq_none hk] at h; exact absurd h (by simp)

theorem create_wf (ips : List Nat) (lat : Nat → ℚ) (mem : Nat → QUERY)
    (query_time server_reqs : Int) (sockOk : Bool) (mp : MADNS)
    (hclean : ∀ i, (mem i).ctx = 0 ∧ (mem i).server = none)
    (h : madns_create ips lat mem query_time server_reqs sockOk = some mp) : WF mp := by
  unfold madns_create at h
  by_cases h0 : ips.length = 0
  · rw [if_pos h0] at h; exact absurd h (by simp)
  · rw [if_neg h0] at h
    dsimp only at h
    generalize min (if server_reqs ≠ 0 then server_reqs else MADNS_SERVER_REQS)
      (Int.tdiv (MAX_TIDS : Int) (ips.length : Int)) = R at h
    by_cases hq : (ips.length : Int) * R > (MAX_TIDS : Int) ∨ (ips.length : Int) * R < 2
    · rw [if_pos hq] at h; exact absurd h (by simp)
    · rw [if_neg hq] at h
      by_cases hs : sockOk = false
      · rw [if_pos hs] at h; exact absurd h (by simp)
      · rw [if_neg hs] at h
        have hmp := (Option.some.inj h).symm
        subst hmp
        have hq2 : (0 : Int) ≤ (ips.length : Int) * R := by omega
        refine ⟨by simp, by simp, by simp [Int.toNat_of_nonneg hq2], ?_, by simp, ?_, ?_, ?_,
          by simp⟩
        · intro k hk
          simp only [List.mem_range] at hk
          exact ⟨mem k, by simp [hk], hclean k⟩
        · intro s sv hs
          simp only [List.getElem?_map] at hs
          cases hr : (List.range ips.length)[s]? with
          | none => rw [hr] at hs; exact absurd hs (by simp)
          | some i =>
            rw [hr] at hs
            simp only [Option.map_some', Option.some.injEq] at hs
            subst hs
            simp [inFlight]
        · simp [Int.toNat_of_nonneg hq2]
        · simp only
          omega

theorem WF.nodup {mp : MADNS} (h : WF mp) : (mp.active ++ mp.unused).Nodup :=
  h.perm.nodup_iff.mpr (List.nodup_range _)

theorem WF.not_both {mp : MADNS} (h : WF mp) (k : Nat) (ha : k ∈ mp.active)
    (hu : k ∈ mp.unused) : False :=
  (List.nodup_append.mp h.nodup).2.2 ha hu

theorem WF.mem_lt {mp : MADNS} (h : WF mp) (k : Nat) (hk : k ∈ mp.active ++ mp.unused) :
    k < mp.qsize :=
  List.mem_range.mp (h.perm.mem_iff.mp hk)

theorem WF.mem_of_lt {mp : MADNS} (h : WF mp) (k : Nat) (hk : k < mp.qsize) :
    k ∈ mp.active ∨ k ∈ mp.unused :=
  List.mem_append.mp (h.perm.mem_iff.mpr (List.mem_range.mpr hk))

theorem countP_erase_of_mem (p : Nat → Bool) (l : List Nat) (k : Nat) (hk : k ∈ l) :
    l.countP p = (l.erase k).countP p + (if p k = true then 1 else 0) := by
  rw [(List.perm_cons_erase hk).countP_eq p, List.countP_cons]

theorem countP_congr_mem (p q : Nat → Bool) (l : List Nat) (h : ∀ k ∈ l, p k = q k) :
    l.countP p = l.countP q := by
  induction l with
  | nil => rfl
  | cons a as ih =>
    rw [List.countP_cons, List.countP_cons, ih (fun k hk => h k (List.mem_cons_of_mem _ hk)),
      h a (List.mem_cons_self _ _)]

theorem srvOf_set_ne (queries : List QUERY) (k j : Nat) (q : QUERY) (h : k ≠ j) :
    srvOf (queries.set k q) j = srvOf queries j := by
  unfold srvOf
  rw [List.getElem?_set_ne h]

theorem destroy_query_wf (mp : MADNS) (k : Nat) (tk : ℚ) (h : WF mp) (hk : k ∈ mp.active) :
    ∃ qp s sv, mp.queries[k]? = some qp ∧ qp.server = some s ∧ mp.serv[s]? = some sv ∧
      destroy_query mp k tk = some (qp.ctx,
        { mp with
          serv := mp.serv.set s
            { sv with nreqs := sv.nreqs - 1
                      latency := sv.latency + (tk - qp.started - sv.latency) / mp.server_reqs / 2 }
          queries := mp.queries.set k QUERY.zero
          active := mp.active.erase k
          unused := mp.unused ++ [k]
          nfree := mp.nfree + 1 }) ∧
      WF { mp with
          serv := mp.serv.set s
            { sv with nreqs := sv.nreqs - 1
                      latency := sv.latency + (tk - qp.started - sv.latency) / mp.server_reqs / 2 }
          queries := mp.queries.set k QUERY.zero
          active := mp.active.erase k
          unused := mp.unused ++ [k]
          nfree := mp.nfree + 1 } := by
  obtain ⟨qp, s, hqp, hctx, hsrv, hs⟩ := h.active_ok k hk
  have hsv : mp.serv[s]? = some (mp.serv[s]) := List.getElem?_eq_getElem hs
  have hku : k ∉ mp.unused := fun hu => h.not_both k hk hu
  have hklen : k < mp.queries.length := getElem?_lt_length _ _ _ hqp
  have hnd : mp.active.Nodup := (List.nodup_append.mp h.nodup).1
  refine ⟨qp, s, mp.serv[s], hqp, hsrv, hsv, ?_, ?_⟩
  · unfold destroy_query
    simp only [hqp, hsrv, hsv, qpull, qpush, List.erase_of_not_mem hku]
  · refine ⟨by simp [h.qlen], ?_, by simp [h.nfree], ?_, ?_, ?_, by simpa using h.size,
      h.qbound, ?_⟩
    rotate_right
    · intro j hj q hq
      have hja : j ∈ mp.active := List.mem_of_mem_erase hj
      have hne : k ≠ j := fun e => by
        subst e
        exact (List.Nodup.not_mem_erase hnd) hj
      simp only [List.getElem?_set_ne hne] at hq
      exact h.names j hja q hq
    · simp only
      refine List.Perm.trans ?_ h.perm
      rw [← List.append_assoc]
      refine List.Perm.trans (List.perm_append_comm) ?_
      simp only [List.singleton_append]
      have h1 : (k :: (mp.active.erase k ++ mp.unused)).Perm (mp.active ++ mp.unused) := by
        rw [← List.cons_append]
        exact List.Perm.append_right _ (List.perm_cons_erase hk).symm
      exact h1
    · intro j hj
      simp only [List.mem_append, List.mem_singleton] at hj
      rcases hj with hj | hj
      · have hne : k ≠ j := fun e => hku (e ▸ hj)
        simp only [List.getElem?_set_ne hne]
        exact h.unused_clean j hj
      · subst hj
        exact ⟨QUERY.zero, by simp [hklen], rfl, rfl⟩
    · intro j hj
      have hja : j ∈ mp.active := List.mem_of_mem_erase hj
      have hne : k ≠ j := fun e => by
        subst e
        exact (List.Nodup.not_mem_erase hnd) hj
      obtain ⟨q, s', h1, h2, h3, h4⟩ := h.active_ok j hja
      exact ⟨q, s', by simp only [List.getElem?_set_ne hne]; exact h1, h2, h3, by simpa using h4⟩
    · intro s' sv' hs'
      have hcount : inFlight mp s' =
          (mp.active.erase k).countP (fun j => decide (srvOf (mp.queries.set k QUERY.zero) j
            = some s')) + (if s = s' then 1 else 0) := by
        unfold inFlight
        rw [countP_erase_of_mem _ _ k hk]
        congr 1
        · apply countP_congr_mem
          intro j hj
          have hne : k ≠ j := fun e => by
            subst e
            exact (List.Nodup.not_mem_erase hnd) hj
          rw [srvOf_set_ne _ _ _ _ hne]
        · simp [srvOf, hqp, hsrv]
      simp only [inFlight]
      simp only at hs'
      by_cases hss : s = s'
      · subst hss
        rw [List.getElem?_set_self hs] at hs'
        have := h.reqs s _ hsv
        rw [← Option.some.inj hs']
        simp only
        rw [this, hcount]
        simp
      · rw [List.getElem?_set_ne hss] at hs'
        have := h.reqs s' _ hs'
        rw [this, hcount]
        simp [hss]


theorem firstEligible_le (prev : Option Nat) (reqs : Int) (l : List SERVER) (i : Nat) :
    i ≤ firstEligible prev reqs l i ∧ firstEligible prev reqs l i ≤ i + l.length := by
  induction l generalizing i with
  | nil => simp [firstEligible]
  | cons s ss ih =>
    unfold firstEligible
    split
    · simp
    · have := ih (i + 1)
      simp only [List.length_cons]
      omega

theorem firstEligible_none (prev : Option Nat) (reqs : Int) (l : List SERVER) (i : Nat)
    (h : firstEligible prev reqs l i = i + l.length) (j : Nat) (sv : SERVER)
    (hj : l[j]? = some sv) : ¬ (some (i + j) ≠ prev ∧ sv.nreqs < reqs) := by
  induction l generalizing i j with
  | nil => simp at hj
  | cons s ss ih =>
    unfold firstEligible at h
    split at h
    · simp only [List.length_cons] at h; omega
    · rename_i hne
      cases j with
      | zero =>
        simp only [List.getElem?_cons_zero, Option.some.injEq] at hj
        subst hj
        simpa using hne
      | succ j' =>
        simp only [List.getElem?_cons_succ] at hj
        have h' : firstEligible prev reqs ss (i + 1) = (i + 1) + ss.length := by
          simp only [List.length_cons] at h; omega
        have := ih (i + 1) h' j' hj
        rwa [show i + 1 + j' = i + (j' + 1) by omega] at this

theorem lowestLatency_range (prev : Option Nat) (reqs : Int) (l : List SERVER) (i : Nat)
    (best : Nat × ℚ) :
    (lowestLatency prev reqs l i best).1 = best.1 ∨
      (i ≤ (lowestLatency prev reqs l i best).1 ∧
        (lowestLatency prev reqs l i best).1 < i + l.length) := by
  induction l generalizing i best with
  | nil => left; rfl
  | cons s ss ih =>
    unfold lowestLatency
    rcases ih (i + 1)
      (if some i ≠ prev ∧ s.nreqs < reqs ∧ s.latency < best.2 then (i, s.latency) else best)
      with h | h
    · rw [h]
      split
      · right; simp
      · left; rfl
    · right
      simp only [List.length_cons]
      omega

theorem sum_countP_eq_length (n : Nat) (f : Nat → Option Nat) (l : List Nat)
    (h : ∀ k ∈ l, ∃ s, s < n ∧ f k = some s) :
    (∑ s in Finset.range n, l.countP (fun k => decide (f k = some s))) = l.length := by
  induction l with
  | nil => simp
  | cons a as ih =>
    obtain ⟨s0, hs0, hf⟩ := h a (List.mem_cons_self _ _)
    simp only [List.countP_cons, Finset.sum_add_distrib, List.length_cons]
    rw [ih (fun k hk => h k (List.mem_cons_of_mem _ hk))]
    congr 1
    simp only [hf, Option.some.injEq, decide_eq_true_eq]
    rw [Finset.sum_ite_eq]
    simp [hs0]

theorem WF.sum_inFlight {mp : MADNS} (h : WF mp) :
    (∑ s in Finset.range mp.serv.length, inFlight mp s) = mp.active.length := by
  unfold inFlight
  apply sum_countP_eq_length
  intro k hk
  obtain ⟨qp, s, h1, _, h3, h4⟩ := h.active_ok k hk
  exact ⟨s, h4, by simp [srvOf, h1, h3]⟩

theorem WF.exists_eligible {mp : MADNS} (h : WF mp) (hfree : mp.unused ≠ []) :
    ∃ (s : Nat) (sv : SERVER), mp.serv[s]? = some sv ∧ sv.nreqs < mp.server_reqs := by
  by_contra hno
  have hall : ∀ s ∈ Finset.range mp.serv.length, mp.server_reqs ≤ (inFlight mp s : Int) := by
    intro s hs
    have hs' : s < mp.serv.length := Finset.mem_range.mp hs
    have hsv : mp.serv[s]? = some (mp.serv[s]) := List.getElem?_eq_getElem hs'
    rw [← h.reqs s _ hsv]
    by_contra hlt
    exact hno ⟨s, _, hsv, not_le.mp hlt⟩
  have hsum : (mp.serv.length : Int) * mp.server_reqs ≤
      ∑ s in Finset.range mp.serv.length, (inFlight mp s : Int) := by
    have := Finset.card_nsmul_le_sum (Finset.range mp.serv.length)
      (fun s => (inFlight mp s : Int)) mp.server_reqs hall
    simpa using this
  have hcast : (∑ s in Finset.range mp.serv.length, (inFlight mp s : Int)) =
      (mp.active.length : Int) := by
    rw [← h.sum_inFlight]; push_cast; rfl
  have hlen : mp.active.length + mp.unused.length = mp.qsize := by
    have := h.perm.length_eq
    simpa using this
  have hpos : 0 < mp.unused.length := List.length_pos.mpr hfree
  have hsize := h.size
  rw [hcast] at hsum
  omega


theorem send_request_fresh (mp : MADNS) (k : Nat) (now : Int) (sent : Bool) (qp : QUERY)
    (hqp : mp.queries[k]? = some qp) (hprev : qp.server = none)
    (helig : ∃ (s : Nat) (sv : SERVER), mp.serv[s]? = some sv ∧ sv.nreqs < mp.server_reqs) :
    ∃ best sv e pkt, mp.serv[best]? = some sv ∧
      (e = qp.expires ∨ (qp.expires = 0 ∧ sent = true ∧ pkt ≠ none ∧ e = now + mp.query_time)) ∧
      (pkt = none → e = qp.expires) ∧
      pkt = queryPacket qp.tid qp.name ∧
      send_request mp k now sent = some
        ({ mp with
           serv := mp.serv.set best { sv with nreqs := sv.nreqs + 1 }
           queries := mp.queries.set k { qp with server := some best, expires := e } }, pkt) := by
  have hle := firstEligible_le none mp.server_reqs mp.serv 0
  have hi : firstEligible none mp.server_reqs mp.serv 0 < mp.serv.length := by
    rcases Nat.lt_or_ge (firstEligible none mp.server_reqs mp.serv 0) mp.serv.length with h | h
    · exact h
    · obtain ⟨s, sv, hs, hlt⟩ := helig
      have heq : firstEligible none mp.server_reqs mp.serv 0 = 0 + mp.serv.length := by omega
      exact absurd ⟨by simp, hlt⟩ (firstEligible_none none mp.server_reqs mp.serv 0 heq s sv hs)
  generalize hidef : firstEligible none mp.server_reqs mp.serv 0 = i at hi hle
  have hsi : mp.serv[i]? = some (mp.serv[i]) := List.getElem?_eq_getElem hi
  have hbest := lowestLatency_range none mp.server_reqs (mp.serv.drop i) i (i, (mp.serv[i]).latency)
  generalize hbdef : (lowestLatency none mp.server_reqs (mp.serv.drop i) i
    (i, (mp.serv[i]).latency)).1 = best at hbest
  have hb : best < mp.serv.length := by
    simp only [List.length_drop] at hbest
    omega
  have hsb : mp.serv[best]? = some (mp.serv[best]) := List.getElem?_eq_getElem hb
  cases hpk : queryPacket qp.tid qp.name with
  | none =>
    refine ⟨best, mp.serv[best], qp.expires, none, hsb, Or.inl rfl, fun _ => rfl, rfl, ?_⟩
    unfold send_request
    simp only [hqp, hprev, hidef, hsi, hbdef, bumpReqs, hsb, hpk]
    rw [if_neg (by omega)]
  | some pkt =>
    by_cases hc : sent = true ∧ qp.expires = 0
    · refine ⟨best, mp.serv[best], now + mp.query_time, some pkt, hsb,
        Or.inr ⟨hc.2, hc.1, by simp, rfl⟩, fun h => absurd h (by simp), rfl, ?_⟩
      unfold send_request
      simp only [hqp, hprev, hidef, hsi, hbdef, bumpReqs, hsb, hpk]
      rw [if_neg (by omega)]
      simp [hc]
    · refine ⟨best, mp.serv[best], qp.expires, some pkt, hsb, Or.inl rfl,
        fun h => absurd h (by simp), rfl, ?_⟩
      unfold send_request
      simp only [hqp, hprev, hidef, hsi, hbdef, bumpReqs, hsb, hpk]
      rw [if_neg (by omega)]
      simp [hc]


theorem request_admitted (mp : MADNS) (name : List Nat) (ctx rnd : Nat) (tk : ℚ) (now : Int)
    (sent : Bool) (h : WF mp)
    (hadm : ¬ (ctx = 0 ∨ madns_ready mp = 0 ∨ strlen name > DNS_MAX_HOSTNAME)) :
    ∃ k rest best sv e pkt, mp.unused = k :: rest ∧ mp.serv[best]? = some sv ∧
      (e = 0 ∨ (sent = true ∧ pkt ≠ none ∧ e = now + mp.query_time)) ∧
      (pkt = none → e = 0) ∧
      pkt = queryPacket (newTid mp.qsize k rnd) (strdup name) ∧
      madns_request mp name ctx rnd tk now sent = some
        ((newTid mp.qsize k rnd : Int),
         { mp with
           unused := rest
           nfree := mp.nfree - 1
           serv := mp.serv.set best { sv with nreqs := sv.nreqs + 1 }
           queries := mp.queries.set k
             { ctx := ctx, expires := e, tid := newTid mp.qsize k rnd, name := strdup name,
               server := some best, started := tk }
           active := mp.active ++ [k] }, pkt) ∧
      WF { mp with
           unused := rest
           nfree := mp.nfree - 1
           serv := mp.serv.set best { sv with nreqs := sv.nreqs + 1 }
           queries := mp.queries.set k
             { ctx := ctx, expires := e, tid := newTid mp.qsize k rnd, name := strdup name,
               server := some best, started := tk }
           active := mp.active ++ [k] } := by
  have hctx : ctx ≠ 0 := fun e => hadm (Or.inl e)
  have hne : mp.unused ≠ [] := by
    intro e
    apply hadm
    right; left
    simp [madns_ready, h.nfree, e]
  obtain ⟨k, rest, hu⟩ := List.exists_cons_of_ne_nil hne
  obtain ⟨qp0, hkz, _, hs0⟩ := h.unused_clean k (by simp [hu])
  have hklen : k < mp.queries.length := getElem?_lt_length _ _ _ hkz
  have helig := h.exists_eligible hne
  have hnd := h.nodup
  rw [hu] at hnd
  have hka : k ∉ mp.active := fun ha => h.not_both k ha (by simp [hu])
  have hkr : k ∉ rest := by
    have := (List.nodup_append.mp hnd).2.1
    exact (List.nodup_cons.mp this).1
  obtain ⟨best, sv, e, pkt, hsb, he, hpn, hpk, hsend⟩ :=
    send_request_fresh
      { mp with unused := rest, nfree := mp.nfree - 1,
                queries := mp.queries.set k
                  { qp0 with ctx := ctx, expires := 0, tid := newTid mp.qsize k rnd,
                             name := strdup name, started := tk },
                active := qpush mp.active k }
      k now sent
      { qp0 with ctx := ctx, expires := 0, tid := newTid mp.qsize k rnd,
                 name := strdup name, started := tk }
      (List.getElem?_set_self hklen) hs0 helig
  have hb : best < mp.serv.length := getElem?_lt_length _ _ _ hsb
  refine ⟨k, rest, best, sv, e, pkt, hu, hsb, ?_, hpn, hpk, ?_, ?_⟩
  · rcases he with he | ⟨_, h2, h3, h4⟩
    · left; exact he
    · right; exact ⟨h2, h3, h4⟩
  · unfold madns_request
    rw [if_neg hadm]
    simp only [hu, hkz]
    rw [hsend]
    simp [hklen, QUERY.zero, qpush]
  · refine ⟨by simp [h.qlen], ?_, by simp [h.nfree, hu], ?_, ?_, ?_, by simpa using h.size,
      h.qbound, ?_⟩
    rotate_right
    · intro j hj q hq
      simp only [List.mem_append, List.mem_singleton] at hj
      rcases hj with hj | hj
      · have hne' : k ≠ j := fun e => hka (e ▸ hj)
        simp only [List.getElem?_set_ne hne'] at hq
        exact h.names j hj q hq
      · subst hj
        simp only [List.getElem?_set_self hklen, Option.some.injEq] at hq
        subst hq
        simp only [strdup, strlen, cstr_idem]
        have := hadm
        simp only [not_or, strlen] at this
        omega
    · simp only
      refine List.Perm.trans ?_ h.perm
      rw [hu, List.append_assoc]
      simp
    · intro j hj
      have hne' : k ≠ j := fun e => hkr (e ▸ hj)
      simp only [List.getElem?_set_ne hne']
      exact h.unused_clean j (by simp [hu, hj])
    · intro j hj
      simp only [List.mem_append, List.mem_singleton] at hj
      rcases hj with hj | hj
      · have hne' : k ≠ j := fun e => hka (e ▸ hj)
        obtain ⟨q, s', h1, h2, h3, h4⟩ := h.active_ok j hj
        exact ⟨q, s', by simp only [List.getElem?_set_ne hne']; exact h1, h2, h3,
          by simpa using h4⟩
      · subst hj
        exact ⟨_, best, List.getElem?_set_self hklen, hctx, rfl, by simpa using hb⟩
    · intro s' sv' hs'
      simp only at hs'
      have hcount : inFlight { mp with
           unused := rest
           nfree := mp.nfree - 1
           serv := mp.serv.set best { sv with nreqs := sv.nreqs + 1 }
           queries := mp.queries.set k
             { ctx := ctx, expires := e, tid := newTid mp.qsize k rnd, name := strdup name,
               server := some best, started := tk }
           active := mp.active ++ [k] } s' = inFlight mp s' + (if best = s' then 1 else 0) := by
        unfold inFlight
        simp only [List.countP_append]
        congr 1
        · apply countP_congr_mem
          intro j hj
          have hne' : k ≠ j := fun e => hka (e ▸ hj)
          rw [srvOf_set_ne _ _ _ _ hne']
        · simp [srvOf, hklen, List.countP_cons]
      rw [hcount]
      by_cases hss : best = s'
      · subst hss
        rw [List.getElem?_set_self hb] at hs'
        rw [← Option.some.inj hs']
        simp only
        rw [h.reqs best sv hsb]
        simp
      · rw [List.getElem?_set_ne hss] at hs'
        rw [h.reqs s' sv' hs']
        simp [hss]


theorem placeNew_frame (mp mp' : MADNS) (now : Int) (i : Nat) (cip : CACHE_INFO)
    (h : placeNew mp now i cip = some mp') :
    ∃ l c cv, mp' = { mp with limit := l, count := c, cachev := cv } := by
  unfold placeNew at h
  simp only at h
  split at h
  · exact ⟨_, _, _, (Option.some.inj h).symm⟩
  · cases hr : rebuild now (easySweep mp now).count (easySweep mp now).cachev cip with
    | none => rw [hr] at h; exact absurd h (by simp)
    | some r =>
      rw [hr] at h
      exact ⟨_, _, _, (Option.some.inj h).symm⟩

theorem update_cache_frame (mp mp' : MADNS) (rp : RESPONSE) (now : Int)
    (h : update_cache mp rp now = some mp') :
    ∃ l c cv, mp' = { mp with limit := l, count := c, cachev := cv } := by
  unfold update_cache at h
  split at h
  · exact absurd h (by simp)
  · split at h
    · exact ⟨_, _, _, (Option.some.inj h).symm⟩
    · exact absurd h (by simp)
  · split at h
    · exact ⟨_, _, _, (Option.some.inj h).symm⟩
    · exact placeNew_frame mp mp' now _ _ h

theorem WF.of_cache {mp : MADNS} (h : WF mp) (l : Nat) (c : Int)
    (cv : List (Option CACHE_INFO)) : WF { mp with limit := l, count := c, cachev := cv } :=
  ⟨h.qlen, h.perm, h.nfree, h.unused_clean, h.active_ok, h.reqs, h.size, h.qbound, h.names⟩

theorem update_cache_wf (mp mp' : MADNS) (rp : RESPONSE) (now : Int) (hwf : WF mp)
    (h : update_cache mp rp now = some mp') : WF mp' := by
  obtain ⟨l, c, cv, he⟩ := update_cache_frame mp mp' rp now h
  rw [he]
  exact hwf.of_cache l c cv

theorem destroy_query_result (mp : MADNS) (k : Nat) (tk : ℚ) (h : WF mp) (hk : k ∈ mp.active)
    (r : Nat × MADNS) (hr : destroy_query mp k tk = some r) :
    WF r.2 ∧ (∃ qp, mp.queries[k]? = some qp ∧ r.1 = qp.ctx) ∧
    r.2.active = mp.active.erase k ∧ r.2.unused = mp.unused ++ [k] ∧
    r.2.nfree = mp.nfree + 1 ∧ r.2.queries = mp.queries.set k QUERY.zero ∧
    r.2.limit = mp.limit ∧ r.2.count = mp.count ∧ r.2.cachev = mp.cachev ∧
    r.2.qsize = mp.qsize := by
  obtain ⟨qp, s, sv, hqp, _, _, hd, hwf⟩ := destroy_query_wf mp k tk h hk
  rw [hd] at hr
  have := Option.some.inj hr
  subst this
  exact ⟨hwf, ⟨qp, hqp, rfl⟩, rfl, rfl, rfl, rfl, rfl, rfl, rfl, rfl⟩

theorem accepts_active (mp : MADNS) (h : WF mp) (k : Nat) (qp : QUERY) (resp : RESPONSE)
    (src : Nat) (hk : mp.queries[k]? = some qp) (hacc : accepts mp qp resp src = true) :
    k ∈ mp.active := by
  have hklt : k < mp.qsize := by
    rw [← h.qlen]; exact getElem?_lt_length _ _ _ hk
  rcases h.mem_of_lt k hklt with ha | hu
  · exact ha
  · obtain ⟨qp', hz, hc0, _⟩ := h.unused_clean k hu
    rw [hk] at hz
    have := Option.some.inj hz
    subst this
    simp [accepts, hc0] at hacc

theorem reapHead_wf (mp : MADNS) (rest : List DGRAM) (now : Int) (tk : ℚ) (h : WF mp) :
    ∃ r, reapHead mp rest now tk = some r ∧ WF r.mp := by
  unfold reapHead
  cases ha : mp.active with
  | nil => exact ⟨_, rfl, h⟩
  | cons k ks =>
    have hk : k ∈ mp.active := by simp [ha]
    obtain ⟨qp, s, sv, hqp, _, _, hd, hwf⟩ := destroy_query_wf mp k tk h hk
    simp only [hqp]
    split
    · rw [hd]
      exact ⟨_, rfl, hwf⟩
    · exact ⟨_, rfl, h⟩

theorem response_wf (mp : MADNS) (dgs : List DGRAM) (now : Int) (tk : ℚ) (h : WF mp)
    (r : RESULT) (hr : madns_response mp dgs now tk = some r) : WF r.mp := by
  induction dgs with
  | nil =>
    rw [madns_response] at hr
    obtain ⟨r', h1, h2⟩ := reapHead_wf mp [] now tk h
    rw [h1] at hr
    rw [← Option.some.inj hr]; exact h2
  | cons d ds ih =>
    rw [madns_response] at hr
    split at hr
    · obtain ⟨r', h1, h2⟩ := reapHead_wf mp ds now tk h
      rw [h1] at hr
      rw [← Option.some.inj hr]; exact h2
    · split at hr
      · exact absurd hr (by simp)
      · exact ih hr
      · rename_i resp hparse
        split at hr
        · exact absurd hr (by simp)
        · split at hr
          · exact absurd hr (by simp)
          · rename_i qp hqp
            split at hr
            · rename_i hacc
              have hk := accepts_active mp h _ qp resp d.src hqp hacc
              split at hr
              · exact absurd hr (by simp)
              · rename_i mp1 hmp1
                have hwf1 : WF mp1 := by
                  split at hmp1
                  · exact update_cache_wf mp mp1 resp now h hmp1
                  · rw [← Option.some.inj hmp1]; exact h
                have hact : mp1.active = mp.active := by
                  split at hmp1
                  · obtain ⟨l, c, cv, he⟩ := update_cache_frame mp mp1 resp now hmp1
                    rw [he]
                  · rw [← Option.some.inj hmp1]
                cases hd : destroy_query mp1 (resp.tid % mp.qsize) tk with
                | none => rw [hd] at hr; exact absurd hr (by simp)
                | some r1 =>
                  rw [hd] at hr
                  simp only [Option.map_some', Option.some.injEq] at hr
                  rw [← hr]
                  exact (destroy_query_result mp1 _ tk hwf1 (hact ▸ hk) r1 hd).1
            · exact ih hr

theorem cancelScan_wf (mp : MADNS) (context : Nat) (tk : ℚ) (h : WF mp) (l : List Nat)
    (hl : ∀ k ∈ l, k ∈ mp.active) (r : Int × MADNS)
    (hr : cancelScan mp context tk l = some r) : WF r.2 := by
  induction l with
  | nil =>
    rw [cancelScan] at hr
    rw [← Option.some.inj hr]; exact h
  | cons k ks ih =>
    rw [cancelScan] at hr
    split at hr
    · exact absurd hr (by simp)
    · split at hr
      · cases hd : destroy_query mp k tk with
        | none => rw [hd] at hr; exact absurd hr (by simp)
        | some r1 =>
          rw [hd] at hr
          simp only [Option.map_some', Option.some.injEq] at hr
          rw [← hr]
          exact (destroy_query_result mp k tk h (hl k (List.mem_cons_self _ _)) r1 hd).1
      · exact ih (fun j hj => hl j (List.mem_cons_of_mem _ hj)) hr

theorem request_wf (mp : MADNS) (name : List Nat) (ctx rnd : Nat) (tk : ℚ) (now : Int)
    (sent : Bool) (h : WF mp) (r : Int × MADNS × Option (List Nat))
    (hr : madns_request mp name ctx rnd tk now sent = some r) : WF r.2.1 := by
  by_cases hadm : ctx = 0 ∨ madns_ready mp = 0 ∨ strlen name > DNS_MAX_HOSTNAME
  · unfold madns_request at hr
    rw [if_pos hadm] at hr
    rw [← Option.some.inj hr]; exact h
  · obtain ⟨k, rest, best, sv, e, pkt, _, _, _, _, _, hreq, hwf⟩ :=
      request_admitted mp name ctx rnd tk now sent h hadm
    rw [hreq] at hr
    rw [← Option.some.inj hr]; exact hwf

theorem reachable_wf (mp : MADNS) (h : Reachable mp) : WF mp := by
  induction h with
  | create ips lat qt sr mp hc =>
    exact create_wf ips lat _ qt sr true mp (fun _ => ⟨rfl, rfl⟩) hc
  | request mp name ctx rnd tk now sent r _ hr ih =>
    exact request_wf mp name ctx rnd tk now sent ih r hr
  | response mp dgs now tk r _ hr ih => exact response_wf mp dgs now tk ih r hr
  | cancel mp context tk r _ hr ih =>
    exact cancelScan_wf mp context tk ih mp.active (fun _ hk => hk) r hr


theorem reachableFrom_wf (mem : Nat → QUERY)
    (hclean : ∀ i, (mem i).ctx = 0 ∧ (mem i).server = none) (mp : MADNS)
    (h : ReachableFrom mem mp) : WF mp := by
  induction h with
  | create ips lat qt sr mp hc => exact create_wf ips lat mem qt sr true mp hclean hc
  | request mp name ctx rnd tk now sent r _ hr ih =>
    exact request_wf mp name ctx rnd tk now sent ih r hr
  | response mp dgs now tk r _ hr ih => exact response_wf mp dgs now tk ih r hr
  | cancel mp context tk r _ hr ih =>
    exact cancelScan_wf mp context tk ih mp.active (fun _ hk => hk) r hr

theorem handle1_reachable : Reachable handle1 :=
  Reachable.request handle0 nameAB 77 0 0 100 true (4, handle1, some packetAB)
    (Reachable.create [0x7F000035] (fun _ => 0) 5 4 handle0 handle0_created) handle1_requested

theorem handle1_reachableFrom : ReachableFrom (fun _ => QUERY.zero) handle1 :=
  ReachableFrom.request handle0 nameAB 77 0 0 100 true (4, handle1, some packetAB)
    (ReachableFrom.create [0x7F000035] (fun _ => 0) 5 4 handle0 handle0_created)
    handle1_requested

/-- The two slot lists in every state reached from a handle whose query array was
allocated with null `ctx` and `server` fields in every slot: `madns_ready()` plus the
length of the active list is `qsize`, and each of the `qsize` slots occurs exactly once in
the two lists together (which hold nothing but slot indices). -/
theorem slot_partition_kept (mem : Nat → QUERY)
    (hclean : ∀ i, (mem i).ctx = 0 ∧ (mem i).server = none) (mp : MADNS)
    (h : ReachableFrom mem mp) :
    madns_ready mp + (mp.active.length : Int) = (mp.qsize : Int) ∧
    (∀ k, k < mp.qsize → (mp.active ++ mp.unused).count k = 1) ∧
    (∀ k, k ∈ mp.active ++ mp.unused → k < mp.qsize) ∧
    mp.active.length + mp.unused.length = mp.qsize := by
  have hwf := reachableFrom_wf mem hclean mp h
  have hlen : mp.active.length + mp.unused.length = mp.qsize := by
    have := hwf.perm.length_eq
    simpa using this
  refine ⟨?_, ?_, fun k hk => hwf.mem_lt k hk, hlen⟩
  · unfold madns_ready
    rw [hwf.nfree]
    omega
  · intro k hk
    rw [hwf.perm.count_eq]
    exact List.count_eq_one_of_mem (List.nodup_range _) (List.mem_range.mpr hk)

/-- C1: `madns_create` leaves the query array as `malloc` returns it. Over the memory
`staleMem`, in which slot 1 holds the context 5, the TID 5 and a pointer to `serv[0]`, it
returns `staleHandle`: no query is active and `madns_ready()` is 4 = `qsize`. A reply
with TID 5 from the name server then passes the test of `madns_response` on slot 1, which
was never requested: the call returns the context 5 and releases the slot a second time,
so that `madns_ready()` is 5 while no slot is active and `qsize` is 4. After four more
requests the free list is empty while `madns_ready()` is 1, and the next `madns_request`
has no defined result. -/
theorem C1_stale_slot_released :
    madns_create [0x7F000035] (fun _ => 0) staleMem 5 4 true = some staleHandle ∧
    (madns_ready staleHandle, staleHandle.active, staleHandle.unused, staleHandle.qsize)
      = (4, [], [0, 1, 2, 3], 4) ∧
    (madns_response staleHandle [emptyReply5] 100 1).map (fun r => (r.ctx, r.ip))
      = some (5, some INADDR_ANY) ∧
    (madns_response staleHandle [emptyReply5] 100 1).map
        (fun r => (madns_ready r.mp, r.mp.active, r.mp.unused, r.mp.qsize))
      = some (5, [], [0, 2, 3, 1], 4) ∧
    ((madns_response staleHandle [emptyReply5] 100 1).bind fun r => fourRequests r.mp).map
        (fun m => (madns_ready m, m.active.length, m.unused))
      = some (1, 4, []) ∧
    ((madns_response staleHandle [emptyReply5] 100 1).bind fun r => fourRequests r.mp).map
        (fun m => (madns_request m nameAB 75 0 0 100 true).isSome)
      = some false := by
  refine ⟨by decide, by decide, by decide, by decide, by decide!, by decide!⟩

/-! ### Admission of requests -/

/-- C6 (amended): on a handle with `qsize ≤ 21845` that was reached from a `madns_create`
whose query array was allocated with null `ctx` and `server` fields in every slot (the
source leaves the array as `malloc` returns it), `madns_request` returns a result, and the
result is 0 exactly when `ctx` is null, no slot is free (`madns_ready() == 0`) or the name
is longer than 255 bytes; a rejected request leaves the handle unchanged and sends
nothing. In every other case, also when the name cannot be encoded, the query is admitted
with a non-zero TID. -/
theorem C6_request_zero_iff (mem : Nat → QUERY) (mp : MADNS) (name : List Nat)
    (ctx rnd : Nat) (tk : ℚ) (now : Int) (sent : Bool) (h : ReachableFrom mem mp)
    (hclean : ∀ i, (mem i).ctx = 0 ∧ (mem i).server = none) (hq : mp.qsize ≤ 21845) :
    ∃ r, madns_request mp name ctx rnd tk now sent = some r ∧
      (r.1 = 0 ↔ (ctx = 0 ∨ madns_ready mp = 0 ∨ strlen name > DNS_MAX_HOSTNAME)) ∧
      (r.1 = 0 → r.2.1 = mp ∧ r.2.2 = none) ∧
      (r.1 ≠ 0 → madns_ready r.2.1 = madns_ready mp - 1) := by
  have hwf := reachableFrom_wf mem hclean mp h
  by_cases hadm : ctx = 0 ∨ madns_ready mp = 0 ∨ strlen name > DNS_MAX_HOSTNAME
  · refine ⟨(0, mp, none), ?_, ?_, ?_, ?_⟩
    · unfold madns_request
      rw [if_pos hadm]
    · simp [hadm]
    · intro _; exact ⟨rfl, rfl⟩
    · intro hne; exact absurd rfl hne
  · obtain ⟨k, rest, best, sv, e, pkt, hu, _, _, _, _, hreq, _⟩ :=
      request_admitted mp name ctx rnd tk now sent hwf hadm
    have hk : k < mp.qsize := hwf.mem_lt k (by simp [hu])
    obtain ⟨_, hlo, _, _, _⟩ := newTid_bounds mp.qsize k rnd hq hk
    have hpos : (newTid mp.qsize k rnd : Int) ≠ 0 := by
      have := hwf.qbound.1
      omega
    refine ⟨_, hreq, ?_, ?_, ?_⟩
    · simp only [hpos, false_iff]
      exact hadm
    · intro h0; exact absurd h0 hpos
    · intro _; rfl

theorem C6_request_zero_iff_witness :
    ∃ r, madns_request handle1 longLabel 78 0 0 100 true = some r ∧
      (r.1 = 0 ↔ (78 = 0 ∨ madns_ready handle1 = 0 ∨ strlen longLabel > DNS_MAX_HOSTNAME)) ∧
      (r.1 = 0 → r.2.1 = handle1 ∧ r.2.2 = none) ∧
      (r.1 ≠ 0 → madns_ready r.2.1 = madns_ready handle1 - 1) :=
  C6_request_zero_iff (fun _ => QUERY.zero) handle1 longLabel 78 0 0 100 true
    handle1_reachableFrom (fun _ => ⟨rfl, rfl⟩) (by decide)

set_option maxRecDepth 100000 in
/-- C6 (as stated) fails: a name whose first label has 64 bytes cannot be encoded
(`send_request` builds no packet), yet `madns_request` returns the non-zero TID 4. The
names of 255 and 256 bytes behave as the claim says. -/
theorem C6_counterexample :
    queryPacket 4 longLabel = none ∧
    (madns_request handle0 longLabel 77 0 0 100 true).map (fun r => (r.1, r.2.2))
      = some (4, none) ∧
    (madns_request handle0 name255 77 0 0 100 true).map (fun r => r.1) = some 4 ∧
    (madns_request handle0 name256 77 0 0 100 true).map (fun r => r.1) = some 0 := by
  decide

/-- The field `server` of a slot is read before it is ever written: `madns_request` fills in
`ctx`, `expires`, `tid`, `name` and `started`, and `send_request` takes `qp->server` as the
previous server and decrements its counter. Over the memory `staleServer 7`, in which slot
0 holds a pointer outside the table of two servers, the first `madns_request` on the fresh
handle, admitted with `madns_ready() = 8`, has no defined result. -/
theorem request_reads_unset_server :
    (madns_create [0x0A000001, 0x0A000002] (fun _ => 0) (staleServer 7) 5 4 true).map
        (fun m => (madns_ready m, m.serv.length, (m.queries[0]?).map QUERY.server))
      = some (8, 2, some (some 7)) ∧
    (madns_create [0x0A000001, 0x0A000002] (fun _ => 0) (staleServer 7) 5 4 true).map
        (fun m => (madns_request m nameAB 77 0 0 100 true).isSome)
      = some false := by
  refine ⟨?_, ?_⟩ <;> decide

/-! ### Responses and timeouts -/

theorem response_cases (mp : MADNS) (dgs : List DGRAM) (now : Int) (tk : ℚ) (h : WF mp)
    (r : RESULT) (hr : madns_response mp dgs now tk = some r) :
    (r.ctx = 0 ∧ r.ip = none ∧ r.mp = mp) ∨
    ∃ k mp1 r1, k ∈ mp.active ∧ WF mp1 ∧
      (∃ l c cv, mp1 = { mp with limit := l, count := c, cachev := cv }) ∧
      destroy_query mp1 k tk = some r1 ∧ r.ctx = r1.1 ∧ r.mp = r1.2 ∧ r.ip ≠ none ∧
      (mp1 = mp ∨ ∃ resp, update_cache mp resp now = some mp1) := by
  have hreap : ∀ rest r, reapHead mp rest now tk = some r →
      (r.ctx = 0 ∧ r.ip = none ∧ r.mp = mp) ∨
      ∃ k mp1 r1, k ∈ mp.active ∧ WF mp1 ∧
        (∃ l c cv, mp1 = { mp with limit := l, count := c, cachev := cv }) ∧
        destroy_query mp1 k tk = some r1 ∧ r.ctx = r1.1 ∧ r.mp = r1.2 ∧ r.ip ≠ none ∧
        (mp1 = mp ∨ ∃ resp, update_cache mp resp now = some mp1) := by
    intro rest r hr
    unfold reapHead at hr
    split at hr
    · left; rw [← Option.some.inj hr]; exact ⟨rfl, rfl, rfl⟩
    · rename_i k ks ha
      split at hr
      · exact absurd hr (by simp)
      · split at hr
        · cases hd : destroy_query mp k tk with
          | none => rw [hd] at hr; exact absurd hr (by simp)
          | some r1 =>
            rw [hd] at hr
            simp only [Option.map_some', Option.some.injEq] at hr
            right
            refine ⟨k, mp, r1, by simp [ha], h, ⟨mp.limit, mp.count, mp.cachev, rfl⟩, hd, ?_⟩
            rw [← hr]; exact ⟨rfl, rfl, by simp, Or.inl rfl⟩
        · left; rw [← Option.some.inj hr]; exact ⟨rfl, rfl, rfl⟩
  induction dgs with
  | nil =>
    rw [madns_response] at hr
    exact hreap _ _ hr
  | cons d ds ih =>
    rw [madns_response] at hr
    split at hr
    · exact hreap _ _ hr
    · split at hr
      · exact absurd hr (by simp)
      · exact ih hr
      · rename_i resp hparse
        split at hr
        · exact absurd hr (by simp)
        · split at hr
          · exact absurd hr (by simp)
          · rename_i qp hqp
            split at hr
            · rename_i hacc
              have hk := accepts_active mp h _ qp resp d.src hqp hacc
              split at hr
              · exact absurd hr (by simp)
              · rename_i mp1 hmp1
                have hfr : ∃ l c cv, mp1 = { mp with limit := l, count := c, cachev := cv } := by
                  split at hmp1
                  · exact update_cache_frame mp mp1 resp now hmp1
                  · rw [← Option.some.inj hmp1]; exact ⟨mp.limit, mp.count, mp.cachev, rfl⟩
                have hwf1 : WF mp1 := by
                  obtain ⟨l, c, cv, he⟩ := hfr
                  rw [he]; exact h.of_cache l c cv
                cases hd : destroy_query mp1 (resp.tid % mp.qsize) tk with
                | none => rw [hd] at hr; exact absurd hr (by simp)
                | some r1 =>
                  rw [hd] at hr
                  simp only [Option.map_some', Option.some.injEq] at hr
                  right
                  have hsrc : mp1 = mp ∨ ∃ resp, update_cache mp resp now = some mp1 := by
                    split at hmp1
                    · exact Or.inr ⟨resp, hmp1⟩
                    · exact Or.inl (Option.some.inj hmp1).symm
                  refine ⟨_, mp1, r1, hk, hwf1, hfr, hd, ?_⟩
                  rw [← hr]; exact ⟨rfl, rfl, by simp, hsrc⟩
            · exact ih hr

theorem response_unmatched (mp : MADNS) (dgs : List DGRAM) (now : Int) (tk : ℚ)
    (hq : mp.qsize ≠ 0) (hun : ∀ d ∈ dgs, unmatched mp d) :
    madns_response mp dgs now tk = reapHead mp [] now tk := by
  induction dgs with
  | nil => rw [madns_response]
  | cons d ds ih =>
    have hd := hun d (List.mem_cons_self _ _)
    have ih' := ih (fun x hx => hun x (List.mem_cons_of_mem _ hx))
    rw [madns_response, if_neg hd.1]
    rcases hd.2 with ⟨rp, hp⟩ | ⟨resp, qp, hp, hslot, hacc⟩
    · rw [hp]; exact ih'
    · rw [hp]
      simp only [hq, if_false, hslot, hacc]
      simpa using ih'

theorem cancelScan_cases (mp : MADNS) (c : Nat) (tk : ℚ) (l : List Nat) (r : Int × MADNS)
    (hr : cancelScan mp c tk l = some r) :
    (r = (0, mp) ∧ ∀ k ∈ l, ∀ qp, mp.queries[k]? = some qp → qp.ctx ≠ c) ∨
    ∃ pre k post qp r1, l = pre ++ k :: post ∧
      (∀ j ∈ pre, ∀ q, mp.queries[j]? = some q → q.ctx ≠ c) ∧
      mp.queries[k]? = some qp ∧ qp.ctx = c ∧ destroy_query mp k tk = some r1 ∧
      r = ((qp.tid : Int), r1.2) := by
  induction l with
  | nil =>
    rw [cancelScan] at hr
    left
    exact ⟨(Option.some.inj hr).symm, fun k hk => absurd hk (by simp)⟩
  | cons k ks ih =>
    rw [cancelScan] at hr
    split at hr
    · exact absurd hr (by simp)
    · rename_i qp hqp
      split at hr
      · rename_i hc
        cases hd : destroy_query mp k tk with
        | none => rw [hd] at hr; exact absurd hr (by simp)
        | some r1 =>
          rw [hd] at hr
          simp only [Option.map_some', Option.some.injEq] at hr
          right
          exact ⟨[], k, ks, qp, r1, rfl, fun j hj => absurd hj (by simp), hqp, hc, hd, hr.symm⟩
      · rename_i hc
        rcases ih hr with ⟨h1, h2⟩ | ⟨pre, k', post, qp', r1, h1, h2, h3, h4, h5, h6⟩
        · left
          refine ⟨h1, ?_⟩
          intro j hj q hq
          rcases List.mem_cons.mp hj with e | e
          · subst e
            rw [hqp] at hq
            rw [← Option.some.inj hq]; exact hc
          · exact h2 j e q hq
        · right
          refine ⟨k :: pre, k', post, qp', r1, by simp [h1], ?_, h3, h4, h5, h6⟩
          intro j hj q hq
          rcases List.mem_cons.mp hj with e | e
          · subst e
            rw [hqp] at hq
            rw [← Option.some.inj hq]; exact hc
          · exact h2 j e q hq

/-- No slot of the handle carries the context `c`. -/
theorem noCtx_of_cancel (mp : MADNS) (c : Nat) (tk : ℚ) (r : Int × MADNS) (h : WF mp)
    (hc : c ≠ 0) (hone : holders mp c ≤ 1) (hr : madns_cancel mp c tk = some r) :
    WF r.2 ∧ ∀ (j : Nat) (q : QUERY), r.2.queries[j]? = some q → q.ctx ≠ c := by
  have hwf' := cancelScan_wf mp c tk h mp.active (fun _ hk => hk) r hr
  refine ⟨hwf', ?_⟩
  have hunused : ∀ j q, j ∈ mp.unused → mp.queries[j]? = some q → q.ctx ≠ c := by
    intro j q hj hq
    obtain ⟨q', hq', hc0, _⟩ := h.unused_clean j hj
    rw [hq'] at hq
    rw [← Option.some.inj hq, hc0]
    exact fun e => hc e.symm
  rcases cancelScan_cases mp c tk mp.active r hr with
    ⟨h1, h2⟩ | ⟨pre, k, post, qp, r1, h1, _, h3, h4, h5, h6⟩
  · rw [h1]
    intro j q hq
    have hj : j < mp.qsize := by rw [← h.qlen]; exact getElem?_lt_length _ _ _ hq
    rcases h.mem_of_lt j hj with ha | hu
    · exact h2 j ha q hq
    · exact hunused j q hu hq
  · have hk : k ∈ mp.active := by rw [h1]; simp
    obtain ⟨_, _, hact, _, _, hqs, _⟩ := destroy_query_result mp k tk h hk r1 h5
    rw [h6]
    simp only
    rw [hqs]
    intro j q hq
    by_cases hjk : k = j
    · subst hjk
      have hlt := getElem?_lt_length _ _ _ h3
      rw [List.getElem?_set_self hlt] at hq
      rw [← Option.some.inj hq]
      exact fun e => hc e.symm
    · rw [List.getElem?_set_ne hjk] at hq
      have hj : j < mp.qsize := by rw [← h.qlen]; exact getElem?_lt_length _ _ _ hq
      rcases h.mem_of_lt j hj with ha | hu
      · intro hcj
        have hje : j ∈ mp.active.erase k := (List.mem_erase_of_ne (Ne.symm hjk)).mpr ha
        have hcount := countP_erase_of_mem
          (fun k => decide ((mp.queries[k]?).map QUERY.ctx = some c)) mp.active k hk
        have hpos : 0 < (mp.active.erase k).countP
            (fun k => decide ((mp.queries[k]?).map QUERY.ctx = some c)) :=
          List.countP_pos_iff.mpr ⟨j, hje, by simp [hq, hcj]⟩
        have hpk : (decide ((mp.queries[k]?).map QUERY.ctx = some c)) = true := by
          simp [h3, h4]
        unfold holders at hone
        rw [hcount, if_pos hpk] at hone
        omega
      · exact hunused j q hu hq

theorem noCtx_step (c : Nat) (hc : c ≠ 0) (m0 m : MADNS) (hf : Follows c m0 m)
    (h0 : WF m0 ∧ ∀ (j : Nat) (q : QUERY), m0.queries[j]? = some q → q.ctx ≠ c) :
    WF m ∧ ∀ (j : Nat) (q : QUERY), m.queries[j]? = some q → q.ctx ≠ c := by
  induction hf with
  | start => exact h0
  | request mp name ctx rnd tk now sent r _ hctx hr ih =>
    refine ⟨request_wf mp name ctx rnd tk now sent ih.1 r hr, ?_⟩
    by_cases hadm : ctx = 0 ∨ madns_ready mp = 0 ∨ strlen name > DNS_MAX_HOSTNAME
    · unfold madns_request at hr
      rw [if_pos hadm] at hr
      rw [← Option.some.inj hr]; exact ih.2
    · obtain ⟨k, rest, best, sv, e, pkt, _, _, _, _, _, hreq, _⟩ :=
        request_admitted mp name ctx rnd tk now sent ih.1 hadm
      rw [hreq] at hr
      rw [← Option.some.inj hr]
      simp only
      intro j q hq
      by_cases hjk : k = j
      · subst hjk
        have hlt : k < mp.queries.length := by
          have := getElem?_lt_length _ _ _ hq
          simpa using this
        rw [List.getElem?_set_self hlt] at hq
        rw [← Option.some.inj hq]
        exact hctx
      · rw [List.getElem?_set_ne hjk] at hq
        exact ih.2 j q hq
  | response mp dgs now tk r _ hr ih =>
    refine ⟨response_wf mp dgs now tk ih.1 r hr, ?_⟩
    rcases response_cases mp dgs now tk ih.1 r hr with
      ⟨_, _, h3⟩ | ⟨k, mp1, r1, hk, hwf1, ⟨l, cc, cv, he⟩, hd, _, hmp, _⟩
    · rw [h3]; exact ih.2
    · have hk1 : k ∈ mp1.active := by rw [he]; exact hk
      obtain ⟨_, _, _, _, _, hqs, _⟩ := destroy_query_result mp1 k tk hwf1 hk1 r1 hd
      rw [hmp, hqs, he]
      simp only
      intro j q hq
      by_cases hjk : k = j
      · subst hjk
        have hlt : k < mp.queries.length := by
          have := getElem?_lt_length _ _ _ hq
          simpa using this
        rw [List.getElem?_set_self hlt] at hq
        rw [← Option.some.inj hq]
        exact fun e => hc e.symm
      · rw [List.getElem?_set_ne hjk] at hq
        exact ih.2 j q hq
  | cancel mp context tk r _ hr ih =>
    refine ⟨cancelScan_wf mp context tk ih.1 mp.active (fun _ hk => hk) r hr, ?_⟩
    rcases cancelScan_cases mp context tk mp.active r hr with
      ⟨h1, _⟩ | ⟨pre, k, post, qp, r1, h1, _, h3, _, h5, h6⟩
    · rw [h1]; exact ih.2
    · have hk : k ∈ mp.active := by rw [h1]; simp
      obtain ⟨_, _, _, _, _, hqs, _⟩ := destroy_query_result mp k tk ih.1 hk r1 h5
      rw [h6]
      simp only
      rw [hqs]
      intro j q hq
      by_cases hjk : k = j
      · subst hjk
        have hlt := getElem?_lt_length _ _ _ h3
        rw [List.getElem?_set_self hlt] at hq
        rw [← Option.some.inj hq]
        exact fun e => hc e.symm
      · rw [List.getElem?_set_ne hjk] at hq
        exact ih.2 j q hq

/-- C4 (amended): on a handle that was reached from a `madns_create` whose query array was
allocated with null `ctx` and `server` fields in every slot (the source leaves the array
as `malloc` returns it) and in which at most one active query holds the non-null context
`ctx`, after `madns_cancel(mp, ctx)` no later `madns_response` returns `ctx`, whatever
datagrams arrive, whatever the clock shows and whatever other calls are made in between,
as long as no `madns_request` is made with `ctx`. -/
theorem C4_cancel_final (mem : Nat → QUERY) (mp : MADNS) (c : Nat) (tk : ℚ)
    (r : Int × MADNS) (m : MADNS) (dgs : List DGRAM) (now : Int) (tk' : ℚ) (res : RESULT)
    (h : ReachableFrom mem mp) (hclean : ∀ i, (mem i).ctx = 0 ∧ (mem i).server = none)
    (hc : c ≠ 0) (hone : holders mp c ≤ 1)
    (hcancel : madns_cancel mp c tk = some r) (hf : Follows c r.2 m)
    (hres : madns_response m dgs now tk' = some res) : res.ctx ≠ c := by
  have h0 := noCtx_of_cancel mp c tk r (reachableFrom_wf mem hclean mp h) hc hone hcancel
  obtain ⟨hwf, hno⟩ := noCtx_step c hc r.2 m hf h0
  rcases response_cases m dgs now tk' hwf res hres with
    ⟨h1, _, _⟩ | ⟨k, mp1, r1, hk, hwf1, ⟨l, cc, cv, he⟩, hd, hctx, _, _⟩
  · rw [h1]; exact fun e => hc e.symm
  · have hk1 : k ∈ mp1.active := by rw [he]; exact hk
    obtain ⟨_, ⟨qp, hqp, hq⟩, _⟩ := destroy_query_result mp1 k tk' hwf1 hk1 r1 hd
    rw [hctx, hq]
    rw [he] at hqp
    exact hno k qp hqp


theorem handle2_cancelled : madns_cancel handle1 77 1 = some (4, handle2) := by
  decide!

theorem C4_cancel_final_witness :
    ({ ctx := 0, ip := none, mp := handle2, rest := [] } : RESULT).ctx ≠ 77 :=
  C4_cancel_final (fun _ => QUERY.zero) handle1 77 1 (4, handle2) handle2 [dgramAB] 200 2
    { ctx := 0, ip := none, mp := handle2, rest := [] }
    handle1_reachableFrom (fun _ => ⟨rfl, rfl⟩) (by decide) (by decide) handle2_cancelled
    (Follows.start) (by decide!)

/-- C4 (as stated) fails: after two requests made with the same context 77,
`madns_cancel(mp, 77)` releases only the first of them; the second stays active and the
next `madns_response` after its expiry returns 77. -/
theorem C4_counterexample :
    ((madns_request handle0 nameAB 77 0 0 100 true).bind fun r1 =>
      (madns_request r1.2.1 nameAB 77 0 0 100 true).bind fun r2 =>
        (madns_cancel r2.2.1 77 1).bind fun r3 =>
          (madns_response r3.2 [] 200 2).map fun r4 => (r3.1, r4.ctx, r4.ip))
      = some (4, 77, some INADDR_ANY) := by
  decide!

/-- A context left in a slot that was never requested: on `staleHandle` no active query
holds the context 5 and `madns_cancel(mp, 5)` finds nothing (it returns 0 and changes
nothing), yet the next `madns_response` that reads a reply with TID 5 from the name server
returns the context 5. -/
theorem cancel_misses_stale_slot :
    holders staleHandle 5 = 0 ∧
    madns_cancel staleHandle 5 1 = some (0, staleHandle) ∧
    (madns_response staleHandle [emptyReply5] 100 1).map (fun r => (r.ctx, r.ip))
      = some (5, some INADDR_ANY) := by
  refine ⟨?_, ?_, ?_⟩ <;> decide

/-! ### The name codec -/

theorem tolower_lt (c : Nat) (h : c < 256) : tolower c < 256 := by
  unfold tolower; split_ifs <;> omega

theorem tolower_ne_dot (c : Nat) (h : c ≠ 46) : tolower c ≠ 46 := by
  unfold tolower; split_ifs <;> omega

theorem getElem?_append_cons {α : Type} (pre post : List α) (c : α) :
    (pre ++ c :: post)[pre.length]? = some c := by
  rw [List.getElem?_append_right (Nat.le_refl _), Nat.sub_self]
  exact List.getElem?_cons_zero

theorem set_append_cons {α : Type} (pre post : List α) (c x : α) :
    (pre ++ c :: post).set pre.length x = pre ++ x :: post := by
  induction pre with
  | nil => rfl
  | cons a as ih => simp [ih]

theorem joinLabels_cons_cons (l l2 : List Nat) (ls : List (List Nat)) :
    joinLabels (l :: l2 :: ls) = l ++ 46 :: joinLabels (l2 :: ls) := rfl

theorem encodeName_label (l src done lab : List Nat)
    (hl : ∀ c ∈ l, c ≠ 0 ∧ c ≠ 46 ∧ c < 256) :
    encodeName (l ++ src) done lab = encodeName src done (lab ++ l.map tolower) := by
  induction l generalizing lab with
  | nil => simp
  | cons c cs ih =>
    obtain ⟨h0, hdot, hlt⟩ := hl c (List.mem_cons_self _ _)
    rw [List.cons_append, encodeName, if_neg h0, if_pos hdot,
      ih _ (fun x hx => hl x (List.mem_cons_of_mem _ hx)),
      Nat.mod_eq_of_lt (tolower_lt c hlt)]
    simp

theorem encodeName_labels (labels : List (List Nat)) (done : List Nat) (hne : labels ≠ [])
    (hlab : ∀ l ∈ labels, goodLabel l) :
    encodeName (joinLabels labels) done [] =
      some (done ++ wireLabels labels ++ [0, 0, DNS_A_RECORD, 0, 1]) := by
  induction labels generalizing done with
  | nil => exact absurd rfl hne
  | cons l ls ih =>
    obtain ⟨h1, h63, hl⟩ := hlab l (List.mem_cons_self _ _)
    have hmod : l.length % 256 = l.length := Nat.mod_eq_of_lt (by unfold NS_MAXLABEL at h63; omega)
    cases ls with
    | nil =>
      have := encodeName_label l [] done [] hl
      simp only [List.append_nil, List.nil_append] at this
      rw [joinLabels, this, encodeName]
      simp [wireLabels, hmod]
    | cons l2 ls2 =>
      rw [joinLabels_cons_cons, encodeName_label l _ done [] hl]
      rw [encodeName, if_neg (by decide), if_neg (by simp)]
      simp only [List.nil_append, List.length_map]
      rw [if_pos h63, ih _ (by simp) (fun x hx => hlab x (List.mem_cons_of_mem _ hx))]
      simp [wireLabels, hmod]

theorem dotLabels_eq (labels : List (List Nat)) (hne : labels ≠ []) :
    dotLabels labels = 46 :: (joinLabels labels).map tolower := by
  induction labels with
  | nil => exact absurd rfl hne
  | cons l ls ih =>
    cases ls with
    | nil => simp [dotLabels, joinLabels]
    | cons l2 ls2 =>
      rw [dotLabels, ih (by simp), joinLabels_cons_cons]
      simp [tolower]

theorem wireLabels_length (labels : List (List Nat)) :
    (wireLabels labels).length = (dotLabels labels).length := by
  induction labels with
  | nil => rfl
  | cons l ls ih => simp [wireLabels, dotLabels, ih]

theorem joinLabels_nonzero (labels : List (List Nat)) (hlab : ∀ l ∈ labels, goodLabel l) :
    ∀ c ∈ joinLabels labels, c ≠ 0 := by
  induction labels with
  | nil => intro c hc; simp [joinLabels] at hc
  | cons l ls ih =>
    have hl := (hlab l (List.mem_cons_self _ _)).2.2
    have ih' := ih (fun x hx => hlab x (List.mem_cons_of_mem _ hx))
    cases ls with
    | nil => intro c hc; exact (hl c (by simpa [joinLabels] using hc)).1
    | cons l2 ls2 =>
      intro c hc
      rw [joinLabels_cons_cons] at hc
      simp only [List.mem_append, List.mem_cons] at hc
      rcases hc with hc | hc | hc
      · exact (hl c hc).1
      · omega
      · exact ih' c hc

theorem qnameLoop_labels (labels : List (List Nat)) (e fuel : Nat) (pre post : List Nat)
    (hlab : ∀ l ∈ labels, goodLabel l) (hfuel : labels.length < fuel)
    (he : pre.length + (wireLabels labels).length < e) :
    qnameLoop e fuel (pre ++ wireLabels labels ++ 0 :: post) pre.length =
      some (pre ++ dotLabels labels ++ 0 :: post, pre.length + (wireLabels labels).length) := by
  induction labels generalizing pre fuel with
  | nil =>
    cases fuel with
    | zero => simp at hfuel
    | succ n =>
      simp only [wireLabels, List.length_nil, Nat.add_zero, List.append_nil] at he ⊢
      rw [qnameLoop, if_pos he, getElem?_append_cons]
      simp [dotLabels]
  | cons l ls ih =>
    obtain ⟨h1, h63, hl⟩ := hlab l (List.mem_cons_self _ _)
    unfold NS_MAXLABEL at h63
    cases fuel with
    | zero => simp at hfuel
    | succ n =>
      have hlt : pre.length < e := by omega
      have hshape : pre ++ wireLabels (l :: ls) ++ 0 :: post
          = pre ++ l.length :: (l.map tolower ++ wireLabels ls ++ 0 :: post) := by
        simp [wireLabels]
      have hget : (pre ++ wireLabels (l :: ls) ++ 0 :: post)[pre.length]? = some l.length := by
        rw [hshape, getElem?_append_cons]
      rw [qnameLoop, if_pos hlt, hget]
      simp only
      rw [if_neg (by omega)]
      have hs : schar l.length = (l.length : Int) := by
        unfold schar; rw [if_pos (by omega)]
      rw [hs, if_neg (by omega)]
      have hp : ((pre.length : Int) + (l.length : Int) + 1).toNat
          = (pre ++ 46 :: l.map tolower).length := by
        simp only [List.length_append, List.length_cons, List.length_map]
        omega
      have hset : (pre ++ wireLabels (l :: ls) ++ 0 :: post).set pre.length 46
          = (pre ++ 46 :: l.map tolower) ++ wireLabels ls ++ 0 :: post := by
        rw [hshape, set_append_cons]
        simp
      rw [hp, hset, ih n (pre ++ 46 :: l.map tolower)
        (fun x hx => hlab x (List.mem_cons_of_mem _ hx))
        (by simp only [List.length_cons] at hfuel; omega)
        (by simp only [wireLabels, List.length_cons, List.length_append, List.length_map] at he ⊢
            omega)]
      simp only [dotLabels, wireLabels, List.length_cons, List.length_append, List.length_map,
        List.append_assoc, List.cons_append, Option.some.injEq, Prod.mk.injEq]
      constructor
      · trivial
      · omega

theorem lowerLoop_body (body : List Nat) (fuel : Nat) (pre post : List Nat)
    (hbody : ∀ c ∈ body, c ≠ 0) (hfuel : body.length < fuel) :
    lowerLoop fuel (pre ++ body ++ 0 :: post) pre.length =
      some (pre ++ body.map tolower ++ 0 :: post, pre.length + body.length) := by
  induction body generalizing pre fuel with
  | nil =>
    cases fuel with
    | zero => simp at hfuel
    | succ n =>
      simp only [List.append_nil, List.map_nil, List.length_nil, Nat.add_zero]
      rw [lowerLoop, getElem?_append_cons]
      simp
  | cons c cs ih =>
    cases fuel with
    | zero => simp at hfuel
    | succ n =>
      have hc := hbody c (List.mem_cons_self _ _)
      have hshape : pre ++ c :: cs ++ 0 :: post = pre ++ c :: (cs ++ 0 :: post) := by simp
      have hget : (pre ++ c :: cs ++ 0 :: post)[pre.length]? = some c := by
        rw [hshape, getElem?_append_cons]
      rw [lowerLoop, hget]
      simp only
      rw [if_neg hc]
      have hset : (pre ++ c :: cs ++ 0 :: post).set pre.length (tolower c)
          = (pre ++ [tolower c]) ++ cs ++ 0 :: post := by
        rw [hshape, set_append_cons]
        simp
      have hp : pre.length + 1 = (pre ++ [tolower c]).length := by simp
      rw [hset, hp, ih n (pre ++ [tolower c]) (fun x hx => hbody x (List.mem_cons_of_mem _ hx))
        (by simp only [List.length_cons] at hfuel; omega)]
      simp only [List.length_append, List.length_cons, List.length_nil, List.map_cons,
        List.append_assoc, List.cons_append, List.nil_append, Option.some.injEq, Prod.mk.injEq]
      constructor
      · trivial
      · omega

theorem cstr_append_zero (a b : List Nat) (ha : ∀ c ∈ a, c ≠ 0) : cstr (a ++ 0 :: b) = a := by
  induction a with
  | nil => simp [cstr]
  | cons c cs ih =>
    rw [List.cons_append, cstr, if_neg (ha c (List.mem_cons_self _ _)),
      ih (fun x hx => ha x (List.mem_cons_of_mem _ hx))]

theorem wireLabels_length_ge (labels : List (List Nat)) :
    labels.length ≤ (wireLabels labels).length := by
  induction labels with
  | nil => simp
  | cons l ls ih => simp only [wireLabels, List.length_cons, List.length_append]; omega

theorem map_tolower_idem (a : List Nat) : (a.map tolower).map tolower = a.map tolower := by
  induction a with
  | nil => rfl
  | cons c cs ih => simp [tolower_idem]

theorem header_reads (t0 t1 f0 f1 q0 q1 a0 a1 x8 x9 x10 x11 : Nat) (rest : List Nat) :
    ([t0, t1, f0, f1, q0, q1, a0, a1, x8, x9, x10, x11] ++ rest)[0]? = some t0 ∧
    ([t0, t1, f0, f1, q0, q1, a0, a1, x8, x9, x10, x11] ++ rest)[1]? = some t1 ∧
    ([t0, t1, f0, f1, q0, q1, a0, a1, x8, x9, x10, x11] ++ rest)[3]? = some f1 ∧
    ntohsp ([t0, t1, f0, f1, q0, q1, a0, a1, x8, x9, x10, x11] ++ rest) 2
      = some (f0 * 256 + f1) ∧
    ntohsp ([t0, t1, f0, f1, q0, q1, a0, a1, x8, x9, x10, x11] ++ rest) 4
      = some (q0 * 256 + q1) ∧
    ntohsp ([t0, t1, f0, f1, q0, q1, a0, a1, x8, x9, x10, x11] ++ rest) 6
      = some (a0 * 256 + a1) := by
  simp [ntohsp]

/-- The question section: on a packet whose header announces one question in a reply and
whose QNAME is the wire form of a list of labels, `parse_response` decodes the name to the
lowercased dotted name and goes on behind the terminating NUL. -/
theorem parse_response_question (t0 t1 f0 f1 a0 a1 x8 x9 x10 x11 : Nat)
    (labels : List (List Nat)) (post : List Nat) (len : Nat)
    (hf : 128 ≤ f0) (hne : labels ≠ []) (hlab : ∀ l ∈ labels, goodLabel l)
    (hlen : 12 + (wireLabels labels).length < len) :
    parse_response
      ([t0, t1, f0, f1, 0, 1, a0, a1, x8, x9, x10, x11] ++ wireLabels labels ++ 0 :: post) len
    = afterName
        ([t0, t1, f0, f1, 0, 1, a0, a1, x8, x9, x10, x11] ++ dotLabels labels ++ 0 :: post)
        len (12 + (wireLabels labels).length + 1)
        { ip := INADDR_ANY, ttl := 0, tid := t0 + 256 * t1,
          name := (joinLabels labels).map tolower } := by
  obtain ⟨r0, r1, r3, n2, n4, n6⟩ :=
    header_reads t0 t1 f0 f1 0 1 a0 a1 x8 x9 x10 x11 (wireLabels labels ++ 0 :: post)
  rw [← List.append_assoc] at r0 r1 r3 n2 n4 n6
  obtain ⟨hdr, hhdr⟩ : ∃ hdr, hdr = [t0, t1, f0, f1, 0, 1, a0, a1, x8, x9, x10, x11] :=
    ⟨_, rfl⟩
  have h12 : hdr.length = 12 := by rw [hhdr]; rfl
  rw [← hhdr] at r0 r1 r3 n2 n4 n6 ⊢
  have hq := qnameLoop_labels labels len
    (((hdr ++ wireLabels labels ++ 0 :: post).length + 1) *
     ((hdr ++ wireLabels labels ++ 0 :: post).length + 1))
    hdr post hlab
    (by
      have := wireLabels_length_ge labels
      simp only [List.length_append, List.length_cons]
      nlinarith)
    (by rw [h12]; exact hlen)
  rw [h12] at hq
  have hdot := dotLabels_eq labels hne
  have hnz : ∀ c ∈ (joinLabels labels).map tolower, c ≠ 0 := by
    intro c hc
    obtain ⟨x, hx, rfl⟩ := List.mem_map.mp hc
    exact fun e => joinLabels_nonzero labels hlab x hx ((tolower_eq_zero x).mp e)
  have hwl : (wireLabels labels).length = ((joinLabels labels).map tolower).length + 1 := by
    rw [wireLabels_length, hdot]; simp
  have hshape : hdr ++ dotLabels labels ++ 0 :: post
      = (hdr ++ [46]) ++ (joinLabels labels).map tolower ++ 0 :: post := by
    rw [hdot]; simp
  have h13 : (hdr ++ [46]).length = 13 := by simp [h12]
  have hl := lowerLoop_body ((joinLabels labels).map tolower)
    ((hdr ++ dotLabels labels ++ 0 :: post).length + 1)
    (hdr ++ [46]) post hnz
    (by rw [hshape]; simp only [List.length_append, List.length_cons]; omega)
  rw [map_tolower_idem, ← hshape, h13] at hl
  have hz : (hdr ++ dotLabels labels ++ 0 :: post)[12 + (wireLabels labels).length]?
      = some 0 := by
    rw [wireLabels_length, ← h12, ← List.length_append, getElem?_append_cons]
  have hname : cstr (List.drop 13 (hdr ++ dotLabels labels ++ 0 :: post))
      = (joinLabels labels).map tolower := by
    rw [hshape, List.append_assoc, ← h13, List.drop_left, cstr_append_zero _ _ hnz]
  generalize hdr ++ wireLabels labels ++ 0 :: post = P at r0 r1 r3 n2 n4 n6 hq ⊢
  generalize hdr ++ dotLabels labels ++ 0 :: post = B at hq hl hz hname ⊢
  unfold parse_response
  simp only [r0, r1, r3, n2, n4, n6]
  rw [if_neg (by omega), hq]
  simp only [hz]
  rw [if_neg (by simp), hl]
  simp only [hname]
  rw [hwl]
  congr 1
  omega

/-- C10: for a host name made of labels of 1 to 63 bytes, none NUL or a dot, of total
length at most 255, `send_request` builds a packet of `strlen(name) + 18` bytes, and
`parse_response` applied to the reply that echoes this packet (QR bit set) succeeds and
yields the ASCII-lowercased name (with the TID of the query and no address). -/
theorem C10_qname_roundtrip (tid : Nat) (labels : List (List Nat)) (htid : tid < 65536)
    (hne : labels ≠ []) (hlab : ∀ l ∈ labels, goodLabel l)
    (_hlen : (joinLabels labels).length ≤ DNS_MAX_HOSTNAME) :
    ∃ pkt, queryPacket tid (joinLabels labels) = some pkt ∧
      pkt.length = (joinLabels labels).length + 18 ∧
      parse_response (echoReply pkt) pkt.length =
        some (true, { ip := INADDR_ANY, ttl := 0, tid := tid,
                      name := (joinLabels labels).map tolower }) := by
  have henc := encodeName_labels labels [] hne hlab
  have hdot := dotLabels_eq labels hne
  have hwl : (wireLabels labels).length = (joinLabels labels).length + 1 := by
    rw [wireLabels_length, hdot]; simp
  refine ⟨queryHeader tid ++ (wireLabels labels ++ [0, 0, DNS_A_RECORD, 0, 1]), ?_, ?_, ?_⟩
  · unfold queryPacket
    rw [henc]
    simp
  · simp only [queryHeader, List.length_append, List.length_cons, List.length_nil, hwl]
    omega
  · have hrep : echoReply (queryHeader tid ++ (wireLabels labels ++ [0, 0, DNS_A_RECORD, 0, 1]))
        = [tid % 256, tid / 256 % 256, 0x81, 0, 0, 1, 0, 0, 0, 0, 0, 0] ++ wireLabels labels
          ++ 0 :: [0, 1, 0, 1] := by
      simp [echoReply, queryHeader, DNS_A_RECORD]
    have hl : (queryHeader tid ++ (wireLabels labels ++ [0, 0, DNS_A_RECORD, 0, 1])).length
        = 12 + (wireLabels labels).length + 5 := by
      simp only [queryHeader, List.length_append, List.length_cons, List.length_nil]
      omega
    rw [hrep, hl, parse_response_question _ _ _ _ _ _ _ _ _ _ labels _ _ (by omega) hne hlab
      (by omega)]
    have hq : ntohsp ([tid % 256, tid / 256 % 256, 0x81, 0, 0, 1, 0, 0, 0, 0, 0, 0]
        ++ dotLabels labels ++ 0 :: [0, 1, 0, 1]) (12 + (wireLabels labels).length + 1)
        = some 1 := by
      have e1 : 12 + (wireLabels labels).length + 1
          = ([tid % 256, tid / 256 % 256, 0x81, 0, 0, 1, 0, 0, 0, 0, 0, 0]
              ++ dotLabels labels ++ [0]).length := by
        simp only [List.length_append, List.length_cons, List.length_nil, wireLabels_length]
      have e2 : [tid % 256, tid / 256 % 256, 0x81, 0, 0, 1, 0, 0, 0, 0, 0, 0]
          ++ dotLabels labels ++ 0 :: [0, 1, 0, 1]
          = ([tid % 256, tid / 256 % 256, 0x81, 0, 0, 1, 0, 0, 0, 0, 0, 0]
              ++ dotLabels labels ++ [0]) ++ [0, 1, 0, 1] := by simp
      rw [e1, e2]
      unfold ntohsp
      rw [List.getElem?_append_right (Nat.le_refl _),
        List.getElem?_append_right (Nat.le_succ _)]
      simp
    unfold afterName
    rw [if_neg (by omega), hq]
    simp only [DNS_A_RECORD, DNS_R_NXDOMAIN, INADDR_ANY]
    have ht : tid % 256 + 256 * (tid / 256 % 256) = tid := by omega
    simp [ht, ntohsp]


theorem C10_qname_roundtrip_witness :
    ∃ pkt, queryPacket 0x1234 (joinLabels mailGoogle) = some pkt ∧
      pkt.length = (joinLabels mailGoogle).length + 18 ∧
      parse_response (echoReply pkt) pkt.length =
        some (true, { ip := INADDR_ANY, ttl := 0, tid := 0x1234,
                      name := (joinLabels mailGoogle).map tolower }) :=
  C10_qname_roundtrip 0x1234 mailGoogle (by decide) (by decide) (by decide) (by decide)

theorem mailGoogle_lowered : (joinLabels mailGoogle).map tolower = mailGoogleLower := by
  decide

/-! ### A refreshed cache entry keeps its old address -/

/-- A refreshed entry keeps its old address: on the run `refreshRun` the reply `dgramAB` caches
"a.b" → 1.2.3.4 until time 401 (`madns_lookup` returns 1.2.3.4 at time 101 and
`INADDR_ANY` at time 402). The name is requested again (TID 5); the reply `dgramAB2`,
accepted at time 501, carries 5.6.7.8 with TTL 300 and `madns_response` returns the
context 78 with `*ip` = 5.6.7.8. `update_cache` finds the old entry and only refreshes its
expiry, so `madns_lookup` at time 501 returns 1.2.3.4, not 5.6.7.8. -/
theorem C2_refresh_keeps_old_address :
    refreshRun.map (fun t => (t.1.ctx, t.1.ip)) = some (77, some 0x01020304) ∧
    refreshRun.map (fun t => madns_lookup noLiteral t.1.mp nameAB 101)
      = some (some 0x01020304) ∧
    refreshRun.map (fun t => madns_lookup noLiteral t.1.mp nameAB 402)
      = some (some INADDR_ANY) ∧
    refreshRun.map (fun t => t.2.1.1) = some 5 ∧
    refreshRun.map (fun t => (t.2.2.ctx, t.2.2.ip)) = some (78, some 0x05060708) ∧
    refreshRun.map (fun t => madns_lookup noLiteral t.2.2.mp nameAB 501)
      = some (some 0x01020304) := by
  decide!

/-! ### The cache table -/

theorem occupied_set (l : List (Option CACHE_INFO)) (i : Nat) (old new : Option CACHE_INFO)
    (h : l[i]? = some old) :
    occupied (l.set i new) + (if old.isSome then 1 else 0)
      = occupied l + (if new.isSome then 1 else 0) := by
  induction l generalizing i with
  | nil => simp at h
  | cons a as ih =>
    cases i with
    | zero =>
      simp only [List.getElem?_cons_zero, Option.some.injEq] at h
      subst h
      simp only [List.set_cons_zero, occupied, List.countP_cons]
      omega
    | succ j =>
      simp only [List.getElem?_cons_succ] at h
      have := ih j h
      simp only [List.set_cons_succ, occupied, List.countP_cons] at this ⊢
      omega

theorem occupied_remove (l : List (Option CACHE_INFO)) (i : Nat) (c : CACHE_INFO)
    (h : l[i]? = some (some c)) : occupied (l.set i none) + 1 = occupied l := by
  have := occupied_set l i (some c) none h
  simpa using this

theorem occupied_insert (l : List (Option CACHE_INFO)) (i : Nat) (c : CACHE_INFO)
    (h : l[i]? = some none) : occupied (l.set i (some c)) = occupied l + 1 := by
  have := occupied_set l i none (some c) h
  simpa using this

theorem occupied_replace (l : List (Option CACHE_INFO)) (i : Nat) (c c' : CACHE_INFO)
    (h : l[i]? = some (some c)) : occupied (l.set i (some c')) = occupied l := by
  have := occupied_set l i (some c) (some c') h
  simpa using this

theorem exists_empty_slot (l : List (Option CACHE_INFO)) (h : occupied l < l.length) :
    ∃ j : Nat, l[j]? = some none := by
  induction l with
  | nil => simp at h
  | cons a as ih =>
    cases a with
    | none => exact ⟨0, List.getElem?_cons_zero⟩
    | some c =>
      have : occupied as < as.length := by
        simp only [occupied, List.countP_cons, List.length_cons, Option.isSome_some,
          if_true] at h ⊢
        omega
      obtain ⟨j, hj⟩ := ih this
      exact ⟨j + 1, by simpa using hj⟩

theorem cyclic_reach (L i j : Nat) (hj : j < L) : ∃ t, t < L ∧ (i + t) % L = j := by
  refine ⟨(j + L - i % L) % L, Nat.mod_lt _ (by omega), ?_⟩
  have h1 : i % L < L := Nat.mod_lt _ (by omega)
  have h2 : i % L + (j + L - i % L) = j + L := by omega
  rw [Nat.add_mod_mod, ← Nat.mod_add_mod, h2, Nat.add_mod_right, Nat.mod_eq_of_lt hj]

theorem mask_eq_mod (n h : Nat) : h &&& (2 ^ n - 1) = h % 2 ^ n :=
  Nat.and_pow_two_sub_one_eq_mod h n

theorem lookupProbe_total (cachev : List (Option CACHE_INFO)) (n hash : Nat) (name : List Nat)
    (now : Int) (hlen : cachev.length = 2 ^ n) (fuel h : Nat)
    (hfree : ∃ t, t < fuel ∧ cachev[(h + t) % 2 ^ n]? = some none) :
    ∃ r, lookupProbe cachev (2 ^ n - 1) hash name now fuel h = some r := by
  induction fuel generalizing h with
  | zero => obtain ⟨t, ht, _⟩ := hfree; omega
  | succ f ih =>
    obtain ⟨t, ht, hslot⟩ := hfree
    have hpos : 0 < 2 ^ n := Nat.pow_pos (by decide)
    have hidx : h % 2 ^ n < cachev.length := by rw [hlen]; exact Nat.mod_lt _ hpos
    rw [lookupProbe, mask_eq_mod, List.getElem?_eq_getElem hidx]
    cases hc : cachev[h % 2 ^ n] with
    | none => exact ⟨_, rfl⟩
    | some cip =>
      simp only
      split
      · exact ⟨_, rfl⟩
      · apply ih
        cases t with
        | zero =>
          rw [Nat.add_zero, List.getElem?_eq_getElem hidx, hc] at hslot
          exact absurd hslot (by simp)
        | succ t' =>
          refine ⟨t', by omega, ?_⟩
          have : (h % 2 ^ n + 1 + t') % 2 ^ n = (h + (t' + 1)) % 2 ^ n := by
            rw [Nat.add_assoc, Nat.add_mod, Nat.mod_mod, ← Nat.add_mod]
            congr 2
            omega
          rw [this]; exact hslot

theorem lookupProbe_sound (cachev : List (Option CACHE_INFO)) (mask hash : Nat)
    (name : List Nat) (now : Int) (fuel h r : Nat)
    (hr : lookupProbe cachev mask hash name now fuel h = some r) :
    r = INADDR_ANY ∨
    ∃ (i : Nat) (cip : CACHE_INFO), cachev[i]? = some (some cip) ∧ cip.hash = hash ∧ cip.expires ≥ now ∧
      strcasecmp cip.name name = 0 ∧ cip.ip = r := by
  induction fuel generalizing h with
  | zero => rw [lookupProbe] at hr; exact absurd hr (by simp)
  | succ f ih =>
    rw [lookupProbe] at hr
    split at hr
    · exact absurd hr (by simp)
    · left; exact (Option.some.inj hr).symm
    · rename_i cip hc
      split at hr
      · rename_i hm
        right
        exact ⟨_, cip, hc, hm.1, hm.2.1, hm.2.2, Option.some.inj hr⟩
      · exact ih _ hr

theorem lookupProbe_miss (cachev : List (Option CACHE_INFO)) (mask hash : Nat)
    (name : List Nat) (now : Int) (fuel h r : Nat)
    (hr : lookupProbe cachev mask hash name now fuel h = some r)
    (hno : ∀ (i : Nat) (cip : CACHE_INFO), cachev[i]? = some (some cip) →
      ¬ (strcasecmp cip.name name = 0 ∧ cip.expires ≥ now)) :
    r = INADDR_ANY := by
  rcases lookupProbe_sound cachev mask hash name now fuel h r hr with h0 | ⟨i, cip, h1, _, h3, h4, _⟩
  · exact h0
  · exact absurd ⟨h4, h3⟩ (hno i cip h1)

theorem CacheInv.lookup_total {mp : MADNS} (h : CacheInv mp) (inet_addr : List Nat → Nat)
    (name : List Nat) (now : Int) : ∃ r, madns_lookup inet_addr mp name now = some r := by
  unfold madns_lookup
  split
  · exact ⟨_, rfl⟩
  · split
    · exact ⟨_, rfl⟩
    · obtain ⟨n, hn⟩ := h.pow
      have hl : mp.cachev.length = 2 ^ n := by rw [h.len, hn]
      have hocc : occupied mp.cachev < mp.cachev.length := by
        have h1 := h.occ
        have h2 := h.room
        rw [h.len]
        omega
      obtain ⟨j, hj⟩ := exists_empty_slot mp.cachev hocc
      have hjl : j < 2 ^ n := by rw [← hl]; exact getElem?_lt_length _ _ _ hj
      obtain ⟨t, ht, hm⟩ := cyclic_reach (2 ^ n) (fnvstr name) j hjl
      rw [hn]
      exact lookupProbe_total mp.cachev n _ name now hl _ _ ⟨t, ht, by rw [hm]; exact hj⟩


theorem updateProbe_total (cachev : List (Option CACHE_INFO)) (n hash : Nat) (name : List Nat)
    (now : Int) (hlen : cachev.length = 2 ^ n) (fuel i : Nat) (putp : Option Nat)
    (hfree : ∃ t, t < fuel ∧ cachev[(i + t) % 2 ^ n]? = some none)
    (hput : putp = none ∨ ∃ (k : Nat) (c : CACHE_INFO), putp = some k ∧
      cachev[k]? = some (some c)) :
    (∃ (j : Nat) (c : CACHE_INFO),
      updateProbe cachev (2 ^ n - 1) hash name now fuel i putp = some (PROBE.found j) ∧
      cachev[j]? = some (some c)) ∨
    (∃ (j : Nat) (p : Option Nat),
      updateProbe cachev (2 ^ n - 1) hash name now fuel i putp = some (PROBE.empty j p) ∧
      cachev[j]? = some none ∧
      (p = none ∨ ∃ (k : Nat) (c : CACHE_INFO), p = some k ∧ cachev[k]? = some (some c))) := by
  induction fuel generalizing i putp with
  | zero => obtain ⟨t, ht, _⟩ := hfree; omega
  | succ f ih =>
    obtain ⟨t, ht, hslot⟩ := hfree
    have hpos : 0 < 2 ^ n := Nat.pow_pos (by decide)
    have hidx : i % 2 ^ n < cachev.length := by rw [hlen]; exact Nat.mod_lt _ hpos
    rw [updateProbe, mask_eq_mod, List.getElem?_eq_getElem hidx]
    cases hc : cachev[i % 2 ^ n] with
    | none =>
      right
      exact ⟨_, putp, rfl, by rw [List.getElem?_eq_getElem hidx, hc], hput⟩
    | some cip =>
      simp only
      split
      · left
        exact ⟨_, cip, rfl, by rw [List.getElem?_eq_getElem hidx, hc]⟩
      · apply ih
        · cases t with
          | zero =>
            rw [Nat.add_zero, List.getElem?_eq_getElem hidx, hc] at hslot
            exact absurd hslot (by simp)
          | succ t' =>
            refine ⟨t', by omega, ?_⟩
            have : (i % 2 ^ n + 1 + t') % 2 ^ n = (i + (t' + 1)) % 2 ^ n := by
              rw [Nat.add_assoc, Nat.mod_add_mod]
              congr 2
              omega
            rw [this]; exact hslot
        · split
          · right
            exact ⟨_, cip, rfl, by rw [List.getElem?_eq_getElem hidx, hc]⟩
          · exact hput

theorem sweepStep_spec (now : Int) (j : Nat) (st : SWEEP) :
    (sweepStep now j st).cachev.length = st.cachev.length ∧
    (occupied (sweepStep now j st).cachev : Int) - (sweepStep now j st).count
      = (occupied st.cachev : Int) - st.count ∧
    occupied (sweepStep now j st).cachev ≤ occupied st.cachev ∧
    (∀ i : Nat, st.cachev[i]? = some none → (sweepStep now j st).cachev[i]? = some none) := by
  unfold sweepStep
  split
  · rename_i xp hx
    split
    · exact ⟨rfl, rfl, Nat.le_refl _, fun _ h => h⟩
    · split
      · have hocc := occupied_remove st.cachev j xp hx
        refine ⟨by simp, ?_, ?_, ?_⟩
        · simp only
          have : (occupied (st.cachev.set j none) : Int) + 1 = occupied st.cachev := by
            exact_mod_cast hocc
          omega
        · simp only
          omega
        · intro i hi
          simp only
          by_cases hij : j = i
          · subst hij
            rw [hx] at hi
            exact absurd hi (by simp)
          · rw [List.getElem?_set_ne hij]; exact hi
      · exact ⟨rfl, rfl, Nat.le_refl _, fun _ h => h⟩
  · exact ⟨rfl, rfl, Nat.le_refl _, fun _ h => h⟩

theorem sweepLoop_spec (now : Int) (j : Nat) (st : SWEEP) :
    (sweepLoop now j st).cachev.length = st.cachev.length ∧
    (occupied (sweepLoop now j st).cachev : Int) - (sweepLoop now j st).count
      = (occupied st.cachev : Int) - st.count ∧
    occupied (sweepLoop now j st).cachev ≤ occupied st.cachev ∧
    (∀ i : Nat, st.cachev[i]? = some none → (sweepLoop now j st).cachev[i]? = some none) := by
  induction j generalizing st with
  | zero => exact ⟨rfl, rfl, Nat.le_refl _, fun _ h => h⟩
  | succ k ih =>
    rw [sweepLoop]
    obtain ⟨a1, a2, a3, a4⟩ := sweepStep_spec now k st
    obtain ⟨b1, b2, b3, b4⟩ := ih (sweepStep now k st)
    exact ⟨b1.trans a1, b2.trans a2, Nat.le_trans b3 a3, fun i h => b4 i (a4 i h)⟩

theorem easySweep_spec (mp : MADNS) (now : Int) :
    (easySweep mp now).cachev.length = mp.cachev.length ∧
    (occupied (easySweep mp now).cachev : Int) - (easySweep mp now).count
      = (occupied mp.cachev : Int) - (mp.count + 1) ∧
    occupied (easySweep mp now).cachev ≤ occupied mp.cachev ∧
    (∀ i : Nat, mp.cachev[i]? = some none → (easySweep mp now).cachev[i]? = some none) := by
  unfold easySweep
  split
  · exact sweepLoop_spec now mp.limit _
  · exact ⟨rfl, rfl, Nat.le_refl _, fun _ h => h⟩

theorem growLimit_spec (count : Int) (fuel limit : Nat)
    (hfuel : Int.tdiv (count * 4) 3 < (limit : Int) * 2 ^ fuel) :
    Int.tdiv (count * 4) 3 < (growLimit count fuel limit : Int) ∧
    ∃ m, growLimit count fuel limit = limit * 2 ^ m := by
  induction fuel generalizing limit with
  | zero =>
    rw [growLimit]
    exact ⟨by simpa using hfuel, 0, by simp⟩
  | succ f ih =>
    rw [growLimit]
    split
    · have := ih (limit * 2) (by
        have e : ((limit * 2 : Nat) : Int) * 2 ^ f = (limit : Int) * 2 ^ (f + 1) := by
          push_cast; ring
        rw [e]; exact hfuel)
      obtain ⟨h1, m, hm⟩ := this
      exact ⟨h1, m + 1, by rw [hm]; ring⟩
    · rename_i hgt
      exact ⟨not_le.mp hgt, 0, by simp⟩

theorem freeSlot_total (putp : List (Option CACHE_INFO)) (n : Nat) (hlen : putp.length = 2 ^ n)
    (fuel i : Nat) (hfree : ∃ t, t < fuel ∧ putp[(i + t) % 2 ^ n]? = some none) :
    ∃ j, freeSlot putp (2 ^ n - 1) fuel i = some j ∧ putp[j]? = some none := by
  induction fuel generalizing i with
  | zero => obtain ⟨t, ht, _⟩ := hfree; omega
  | succ f ih =>
    obtain ⟨t, ht, hslot⟩ := hfree
    have hpos : 0 < 2 ^ n := Nat.pow_pos (by decide)
    have hidx : i % 2 ^ n < putp.length := by rw [hlen]; exact Nat.mod_lt _ hpos
    rw [freeSlot, mask_eq_mod, List.getElem?_eq_getElem hidx]
    cases hc : putp[i % 2 ^ n] with
    | none => exact ⟨_, rfl, by rw [List.getElem?_eq_getElem hidx, hc]⟩
    | some cip =>
      simp only
      apply ih
      cases t with
      | zero =>
        rw [Nat.add_zero, List.getElem?_eq_getElem hidx, hc] at hslot
        exact absurd hslot (by simp)
      | succ t' =>
        refine ⟨t', by omega, ?_⟩
        have : (i + 1 + t') % 2 ^ n = (i + (t' + 1)) % 2 ^ n := by
          congr 1
          omega
        rw [this]; exact hslot

theorem rehash_spec (now : Int) (n : Nat) (old putp : List (Option CACHE_INFO))
    (hlen : putp.length = 2 ^ n) (hroom : occupied putp + occupied old < 2 ^ n + 1) :
    ∃ res, rehash now (2 ^ n) old putp = some res ∧ res.length = 2 ^ n ∧
      occupied res ≤ occupied putp + occupied old := by
  induction old generalizing putp with
  | nil => exact ⟨putp, rfl, hlen, by simp [occupied]⟩
  | cons a as ih =>
    cases a with
    | none =>
      rw [rehash]
      have hocc : occupied (none :: as) = occupied as := by simp [occupied]
      rw [hocc] at hroom ⊢
      exact ih putp hlen hroom
    | some cip =>
      have hocc : occupied (some cip :: as) = occupied as + 1 := by simp [occupied]
      rw [hocc] at hroom ⊢
      rw [rehash]
      split
      · obtain ⟨res, h1, h2, h3⟩ := ih putp hlen (by omega)
        exact ⟨res, h1, h2, by omega⟩
      · have hlt : occupied putp < putp.length := by rw [hlen]; omega
        obtain ⟨j, hj⟩ := exists_empty_slot putp hlt
        have hjl : j < 2 ^ n := by rw [← hlen]; exact getElem?_lt_length _ _ _ hj
        obtain ⟨t, ht, hm⟩ := cyclic_reach (2 ^ n) cip.hash j hjl
        obtain ⟨k, hk, hk2⟩ := freeSlot_total putp n hlen (2 ^ n) cip.hash
          ⟨t, ht, by rw [hm]; exact hj⟩
        rw [hk]
        simp only
        have hset := occupied_insert putp k cip hk2
        obtain ⟨res, h1, h2, h3⟩ := ih (putp.set k (some cip)) (by simpa using hlen)
          (by omega)
        exact ⟨res, h1, h2, by omega⟩


theorem occupied_replicate (k : Nat) : occupied (List.replicate k none) = 0 := by
  induction k with
  | zero => rfl
  | succ m ih => simp [occupied, List.replicate_succ]

theorem placeNew_inv (mp : MADNS) (now : Int) (i : Nat) (cip : CACHE_INFO) (h : CacheInv mp)
    (hi : mp.cachev[i]? = some none) :
    ∃ mp', placeNew mp now i cip = some mp' ∧ CacheInv mp' := by
  obtain ⟨s1, s2, _, s4⟩ := easySweep_spec mp now
  have hocc := h.occ
  have hroom := h.room
  have hswi := s4 i hi
  have hins := occupied_insert (easySweep mp now).cachev i cip hswi
  have hL : (0 : Int) ≤ (mp.limit : Int) := Int.ofNat_nonneg _
  unfold placeNew
  simp only
  split
  · rename_i hc
    refine ⟨_, rfl, ?_, h.pow, ?_, ?_⟩
    · simp only [List.length_set]
      rw [s1]; exact h.len
    · simp only
      rw [hins]
      push_cast
      omega
    · simp only
      rcases hc with hc | hc
      · rw [Int.tdiv_eq_ediv (by omega) (by decide)] at hc
        omega
      · rw [Int.tdiv_eq_ediv hL (by decide)] at hc
        omega
  · have hcnt : 1 ≤ (easySweep mp now).count := by omega
    obtain ⟨k, hk⟩ : ∃ k : Nat, (easySweep mp now).count = (k : Int) :=
      ⟨(easySweep mp now).count.toNat, (Int.toNat_of_nonneg (by omega)).symm⟩
    have hk2 : k < 2 ^ k := Nat.lt_two_pow k
    have hfuel : Int.tdiv ((easySweep mp now).count * 4) 3
        < ((MIN_CACHE : Nat) : Int) * 2 ^ ((easySweep mp now).count.toNat + 1) := by
      rw [Int.tdiv_eq_ediv (by omega) (by decide), hk]
      simp only [Int.toNat_ofNat, MIN_CACHE]
      have : ((2 : Int) ^ (k + 1)) = 2 * ((2 ^ k : Nat) : Int) := by
        push_cast; ring
      rw [this]
      have hk3 : (k : Int) < ((2 ^ k : Nat) : Int) := by exact_mod_cast hk2
      omega
    obtain ⟨g1, m, g2⟩ := growLimit_spec (easySweep mp now).count
      ((easySweep mp now).count.toNat + 1) MIN_CACHE hfuel
    have g3 : growLimit (easySweep mp now).count ((easySweep mp now).count.toNat + 1) MIN_CACHE
        = 2 ^ (m + 4) := by
      rw [g2, MIN_CACHE]; ring
    rw [Int.tdiv_eq_ediv (by omega) (by decide)] at g1
    unfold rebuild
    simp only
    rw [g3] at g1 ⊢
    have hp0 : (List.replicate (2 ^ (m + 4)) (none : Option CACHE_INFO))[
        cip.hash &&& (2 ^ (m + 4) - 1)]? = some none := by
      rw [mask_eq_mod]
      have : cip.hash % 2 ^ (m + 4) < 2 ^ (m + 4) := Nat.mod_lt _ (Nat.pow_pos (by decide))
      simp [this]
    have hocc0 := occupied_insert _ _ cip hp0
    rw [occupied_replicate] at hocc0
    obtain ⟨res, r1, r2, r3⟩ := rehash_spec now (m + 4) (easySweep mp now).cachev
      ((List.replicate (2 ^ (m + 4)) none).set (cip.hash &&& (2 ^ (m + 4) - 1)) (some cip))
      (by simp)
      (by
        rw [hocc0]
        have : ((2 ^ (m + 4) : Nat) : Int) = (2 : Int) ^ (m + 4) := by push_cast; rfl
        have hlt : (easySweep mp now).count < ((2 ^ (m + 4) : Nat) : Int) := by
          push_cast at g1 ⊢
          omega
        have : (occupied (easySweep mp now).cachev : Int) + 1 < ((2 ^ (m + 4) : Nat) : Int) + 1 := by
          omega
        omega)
    rw [r1]
    refine ⟨_, rfl, r2, ⟨m + 4, rfl⟩, ?_, ?_⟩
    · simp only
      rw [hocc0] at r3
      have : (occupied res : Int) ≤ 1 + occupied (easySweep mp now).cachev := by
        exact_mod_cast (by omega : occupied res ≤ 1 + occupied (easySweep mp now).cachev)
      omega
    · simp only
      push_cast at g1 ⊢
      omega

theorem update_cache_inv (mp : MADNS) (rp : RESPONSE) (now : Int) (h : CacheInv mp) :
    ∃ mp', update_cache mp rp now = some mp' ∧ CacheInv mp' := by
  obtain ⟨n, hn⟩ := h.pow
  have hl : mp.cachev.length = 2 ^ n := by rw [h.len, hn]
  have hocc : occupied mp.cachev < mp.cachev.length := by
    have h1 := h.occ
    have h2 := h.room
    rw [h.len]
    omega
  obtain ⟨j, hj⟩ := exists_empty_slot mp.cachev hocc
  have hjl : j < 2 ^ n := by rw [← hl]; exact getElem?_lt_length _ _ _ hj
  obtain ⟨t, ht, hm⟩ := cyclic_reach (2 ^ n) (fnvstr rp.name) j hjl
  have hprobe := updateProbe_total mp.cachev n (fnvstr rp.name) rp.name now hl (2 ^ n)
    (fnvstr rp.name) none ⟨t, ht, by rw [hm]; exact hj⟩ (Or.inl rfl)
  rw [← hn] at hprobe
  unfold update_cache
  rcases hprobe with ⟨i, c, hp, hc⟩ | ⟨i, p, hp, hc, hput⟩
  · rw [hp]
    simp only [hc]
    refine ⟨_, rfl, by simpa using h.len, ⟨n, hn⟩, ?_, h.room⟩
    simp only
    rw [occupied_replace _ _ _ _ hc]
    exact h.occ
  · rw [hp]
    simp only
    rcases hput with hnone | ⟨k, c, hk, hkc⟩
    · subst hnone
      simp only
      exact placeNew_inv mp now i _ h hc
    · subst hk
      simp only
      refine ⟨_, rfl, by simpa using h.len, ⟨n, hn⟩, ?_, h.room⟩
      simp only
      rw [occupied_replace _ _ _ _ hkc]
      exact h.occ


theorem CacheInv.of_eq {mp mp' : MADNS} (h : CacheInv mp) (h1 : mp'.cachev = mp.cachev)
    (h2 : mp'.limit = mp.limit) (h3 : mp'.count = mp.count) : CacheInv mp' :=
  ⟨by rw [h1, h2]; exact h.len, by rw [h2]; exact h.pow, by rw [h1, h3]; exact h.occ,
   by rw [h2, h3]; exact h.room⟩

theorem create_cacheInv (ips : List Nat) (lat : Nat → ℚ) (mem : Nat → QUERY)
    (query_time server_reqs : Int) (sockOk : Bool) (mp : MADNS)
    (h : madns_create ips lat mem query_time server_reqs sockOk = some mp) : CacheInv mp := by
  unfold madns_create at h
  by_cases h0 : ips.length = 0
  · rw [if_pos h0] at h; exact absurd h (by simp)
  · rw [if_neg h0] at h
    dsimp only at h
    generalize min (if server_reqs ≠ 0 then server_reqs else MADNS_SERVER_REQS)
      (Int.tdiv (MAX_TIDS : Int) (ips.length : Int)) = R at h
    by_cases hq : (ips.length : Int) * R > (MAX_TIDS : Int) ∨ (ips.length : Int) * R < 2
    · rw [if_pos hq] at h; exact absurd h (by simp)
    · rw [if_neg hq] at h
      by_cases hs : sockOk = false
      · rw [if_pos hs] at h; exact absurd h (by simp)
      · rw [if_neg hs] at h
        have hmp := (Option.some.inj h).symm
        subst hmp
        exact ⟨by simp, ⟨4, rfl⟩, by simp [occupied_replicate], by simp [MIN_CACHE]⟩

theorem reachable_cacheInv (mp : MADNS) (h : Reachable mp) : CacheInv mp := by
  induction h with
  | create ips lat qt sr mp hc => exact create_cacheInv ips lat _ qt sr true mp hc
  | request mp name ctx rnd tk now sent r hreach hr ih =>
    have hwf := reachable_wf mp hreach
    by_cases hadm : ctx = 0 ∨ madns_ready mp = 0 ∨ strlen name > DNS_MAX_HOSTNAME
    · unfold madns_request at hr
      rw [if_pos hadm] at hr
      rw [← Option.some.inj hr]; exact ih
    · obtain ⟨k, rest, best, sv, e, pkt, _, _, _, _, _, hreq, _⟩ :=
        request_admitted mp name ctx rnd tk now sent hwf hadm
      rw [hreq] at hr
      rw [← Option.some.inj hr]
      exact ih.of_eq rfl rfl rfl
  | response mp dgs now tk r hreach hr ih =>
    have hwf := reachable_wf mp hreach
    rcases response_cases mp dgs now tk hwf r hr with
      ⟨_, _, h3⟩ | ⟨k, mp1, r1, hk, hwf1, ⟨l, cc, cv, he⟩, hd, _, hmp, _, hsrc⟩
    · rw [h3]; exact ih
    · have hinv1 : CacheInv mp1 := by
        rcases hsrc with e | ⟨resp, hu⟩
        · rw [e]; exact ih
        · obtain ⟨mp', h1, h2⟩ := update_cache_inv mp resp now ih
          rw [hu] at h1
          rw [Option.some.inj h1]; exact h2
      have hk1 : k ∈ mp1.active := by rw [he]; exact hk
      obtain ⟨_, _, _, _, _, _, hl, hc, hcv, _⟩ := destroy_query_result mp1 k tk hwf1 hk1 r1 hd
      rw [hmp]
      exact hinv1.of_eq hcv hl hc
  | cancel mp context tk r hreach hr ih =>
    have hwf := reachable_wf mp hreach
    rcases cancelScan_cases mp context tk mp.active r hr with
      ⟨h1, _⟩ | ⟨pre, k, post, qp, r1, h1, _, h3, _, h5, h6⟩
    · rw [h1]; exact ih
    · have hk : k ∈ mp.active := by rw [h1]; simp
      obtain ⟨_, _, _, _, _, _, hl, hc, hcv, _⟩ := destroy_query_result mp k tk hwf hk r1 h5
      rw [h6]
      exact ih.of_eq hcv hl hc

theorem handle3_responded :
    madns_response handle1 [dgramAB] 101 1
      = some { ctx := 77, ip := some 0x01020304, mp := handle3, rest := [] } := by
  decide!

theorem handle3_reachable : Reachable handle3 :=
  Reachable.response handle1 [dgramAB] 101 1
    { ctx := 77, ip := some 0x01020304, mp := handle3, rest := [] }
    handle1_reachable handle3_responded

/-- C9: on a reachable handle, for a name of at most 255 bytes that `inet_addr` does not
accept as a literal, `madns_lookup` returns a result; if the result is not `INADDR_ANY`,
some slot of the table holds an entry whose name equals the name ignoring case, whose
`ip` is the result and whose `expires ≥ now` (an entry that has expired is never
returned); and if the table holds no such live entry, the result is `INADDR_ANY`. -/
theorem C9_lookup_live_entry (inet_addr : List Nat → Nat) (mp : MADNS) (name : List Nat)
    (now : Int) (h : Reachable mp) (hlit : inet_addr name = INADDR_NONE)
    (hlen : strlen name ≤ DNS_MAX_HOSTNAME) :
    ∃ r, madns_lookup inet_addr mp name now = some r ∧
      (r ≠ INADDR_ANY → ∃ (i : Nat) (cip : CACHE_INFO), mp.cachev[i]? = some (some cip) ∧
        strcasecmp cip.name name = 0 ∧ cip.ip = r ∧ cip.expires ≥ now) ∧
      ((∀ (i : Nat) (cip : CACHE_INFO), mp.cachev[i]? = some (some cip) →
          ¬ (strcasecmp cip.name name = 0 ∧ cip.expires ≥ now)) → r = INADDR_ANY) := by
  obtain ⟨r, hr⟩ := (reachable_cacheInv mp h).lookup_total inet_addr name now
  refine ⟨r, hr, ?_, ?_⟩
  all_goals
    unfold madns_lookup at hr
    rw [if_neg (by simp [hlit]), if_neg (by omega)] at hr
  · intro hne
    rcases lookupProbe_sound _ _ _ _ _ _ _ _ hr with h0 | ⟨i, cip, h1, _, h3, h4, h5⟩
    · exact absurd h0 hne
    · exact ⟨i, cip, h1, h4, h5, h3⟩
  · intro hno
    exact lookupProbe_miss _ _ _ _ _ _ _ _ hr hno

theorem C9_lookup_live_entry_witness :
    ∃ r, madns_lookup noLiteral handle3 nameABUpper 200 = some r ∧
      (r ≠ INADDR_ANY → ∃ (i : Nat) (cip : CACHE_INFO),
        handle3.cachev[i]? = some (some cip) ∧
        strcasecmp cip.name nameABUpper = 0 ∧ cip.ip = r ∧ cip.expires ≥ 200) ∧
      ((∀ (i : Nat) (cip : CACHE_INFO), handle3.cachev[i]? = some (some cip) →
          ¬ (strcasecmp cip.name nameABUpper = 0 ∧ cip.expires ≥ 200)) → r = INADDR_ANY) :=
  C9_lookup_live_entry noLiteral handle3 nameABUpper 200 handle3_reachable rfl (by decide)

theorem handle3_lookups :
    madns_lookup noLiteral handle3 nameABUpper 200 = some 0x01020304 ∧
    madns_lookup noLiteral handle3 nameAB 401 = some 0x01020304 ∧
    madns_lookup noLiteral handle3 nameAB 402 = some INADDR_ANY ∧
    madns_lookup noLiteral handle3 facebook 200 = some INADDR_ANY := by
  decide

/-! ### Names as cache keys -/

theorem strcasecmp_eq_zero_iff (a b : List Nat) :
    strcasecmp a b = 0 ↔ lowerKey a = lowerKey b := by
  induction a generalizing b with
  | nil =>
    cases b with
    | nil => simp [strcasecmp, lowerKey]
    | cons y ys =>
      have hz := tolower_eq_zero y
      by_cases hy : y = 0
      · simp [strcasecmp, lowerKey, cstr, hy, tolower]
      · have : tolower y ≠ 0 := fun e => hy (hz.mp e)
        simp only [strcasecmp, lowerKey, cstr, hy, if_false, List.map_nil, List.map_cons]
        constructor
        · intro h; omega
        · intro h; exact absurd h (by simp)
  | cons x xs ih =>
    cases b with
    | nil =>
      have hz := tolower_eq_zero x
      by_cases hx : x = 0
      · simp [strcasecmp, lowerKey, cstr, hx, tolower]
      · have : tolower x ≠ 0 := fun e => hx (hz.mp e)
        simp only [strcasecmp, lowerKey, cstr, hx, if_false, List.map_nil, List.map_cons]
        constructor
        · intro h; omega
        · intro h; exact absurd h (by simp)
    | cons y ys =>
      have hzx := tolower_eq_zero x
      have hzy := tolower_eq_zero y
      rw [strcasecmp]
      by_cases hx : x = 0
      · subst hx
        by_cases hy : y = 0
        · simp [lowerKey, cstr, hy, tolower]
        · have : tolower y ≠ 0 := fun e => hy (hzy.mp e)
          simp only [true_or, if_true, lowerKey, cstr, hy, if_false, List.map_nil,
            List.map_cons]
          constructor
          · intro h
            have h0 : tolower 0 = 0 := by simp [tolower]
            rw [h0] at h
            omega
          · intro h; exact absurd h (by simp)
      · have htx : tolower x ≠ 0 := fun e => hx (hzx.mp e)
        by_cases ht : tolower x = tolower y
        · have hy : y ≠ 0 := fun e => htx (by rw [ht]; exact hzy.mpr e)
          rw [if_neg (by simp [hx, ht])]
          rw [ih ys]
          simp [lowerKey, cstr, hx, hy, ht]
        · rw [if_pos (Or.inr ht)]
          constructor
          · intro h; omega
          · intro h
            by_cases hy : y = 0
            · simp [lowerKey, cstr, hx, hy] at h
            · simp only [lowerKey, cstr, hx, hy, if_false, List.map_cons, List.cons.injEq] at h
              exact absurd h.1 ht

theorem strcmp_eq_zero (a b : List Nat) (h : strcmp a b = 0) : cstr a = cstr b := by
  induction a generalizing b with
  | nil =>
    cases b with
    | nil => rfl
    | cons y ys =>
      simp only [strcmp] at h
      have : y = 0 := by omega
      simp [cstr, this]
  | cons x xs ih =>
    cases b with
    | nil =>
      simp only [strcmp] at h
      have : x = 0 := by omega
      simp [cstr, this]
    | cons y ys =>
      rw [strcmp] at h
      split at h
      · have hxy : x = y := by omega
        subst hxy
        rename_i hc
        rcases hc with hc | hc
        · simp [cstr, hc]
        · exact absurd rfl hc
      · rename_i hc
        simp only [not_or, not_not] at hc
        obtain ⟨hx, hxy⟩ := hc
        subst hxy
        simp [cstr, hx, ih ys h]

theorem fnvLoop_cstr (a : List Nat) (hash : Nat) : fnvLoop (cstr a) hash = fnvLoop a hash := by
  induction a generalizing hash with
  | nil => rfl
  | cons x xs ih =>
    by_cases hx : x = 0
    · simp [cstr, fnvLoop, hx]
    · rw [cstr, if_neg hx, fnvLoop, if_neg hx, fnvLoop, if_neg hx, ih]

theorem fnvstr_of_key (a b : List Nat) (h : lowerKey a = lowerKey b) : fnvstr a = fnvstr b := by
  unfold fnvstr
  rw [← fnvLoop_cstr a, ← fnvLoop_cstr b, fnvLoop_of_map (cstr a) (cstr b) h]

theorem lowerKey_cstr (a : List Nat) : lowerKey (cstr a) = lowerKey a := by
  unfold lowerKey; rw [cstr_idem]


/-! ### Probe paths -/

theorem succ_mod_shift (L i u : Nat) : (i % L + 1 + u) % L = (i + (u + 1)) % L := by
  rw [Nat.add_assoc, Nat.mod_add_mod]
  congr 2
  omega

theorem residues_ne (L i u v : Nat) (hu : u < v) (hv : v < L) :
    (i + u) % L ≠ (i + v) % L := by
  intro h
  have h1 : (i + v) % L = (i + u + (v - u)) % L := by congr 1; omega
  rw [h1, Nat.add_mod (i + u)] at h
  have hd : (v - u) % L = v - u := Nat.mod_eq_of_lt (by omega)
  rw [hd] at h
  have hlt : (i + u) % L < L := Nat.mod_lt _ (by omega)
  by_cases hc : (i + u) % L + (v - u) < L
  · rw [Nat.mod_eq_of_lt hc] at h
    omega
  · have h2 : ((i + u) % L + (v - u)) % L = (i + u) % L + (v - u) - L := by
      rw [Nat.mod_eq_sub_mod (by omega)]
      exact Nat.mod_eq_of_lt (by omega)
    rw [h2] at h
    omega

theorem updateProbe_path (cachev : List (Option CACHE_INFO)) (n hash : Nat) (name : List Nat)
    (now : Int) (fuel i : Nat) (putp : Option Nat) (res : PROBE)
    (h : updateProbe cachev (2 ^ n - 1) hash name now fuel i putp = some res) :
    (∃ (j : Nat) (e : CACHE_INFO), res = PROBE.found j ∧ cachev[j]? = some (some e) ∧
      e.hash = hash ∧ strcmp e.name name = 0) ∨
    (∃ (j : Nat) (p : Option Nat) (s : Nat), res = PROBE.empty j p ∧ s < fuel ∧
      j = (i + s) % 2 ^ n ∧ cachev[j]? = some none ∧
      (∀ u, u < s → ∃ e : CACHE_INFO, cachev[(i + u) % 2 ^ n]? = some (some e) ∧
        (p = none → e.expires ≥ now)) ∧
      (p = putp ∨ ∃ sk, sk < s ∧ p = some ((i + sk) % 2 ^ n))) := by
  induction fuel generalizing i putp with
  | zero => rw [updateProbe] at h; exact absurd h (by simp)
  | succ f ih =>
    rw [updateProbe, mask_eq_mod] at h
    split at h
    · exact absurd h (by simp)
    · rename_i hc
      right
      refine ⟨i % 2 ^ n, putp, 0, (Option.some.inj h).symm, by omega, by simp, hc,
        fun u hu => absurd hu (by omega), Or.inl rfl⟩
    · rename_i cip hc
      split at h
      · rename_i hm
        left
        exact ⟨i % 2 ^ n, cip, (Option.some.inj h).symm, hc, hm.1, hm.2⟩
      · rcases ih _ _ h with hf | ⟨j, p, s, h1, h2, h3, h4, h5, h6⟩
        · left; exact hf
        · right
          refine ⟨j, p, s + 1, h1, by omega, ?_, h4, ?_, ?_⟩
          · rw [h3, succ_mod_shift]
          · intro u hu
            cases u with
            | zero =>
              refine ⟨cip, by simpa using hc, ?_⟩
              intro hp
              rcases h6 with h6 | ⟨sk, _, h6⟩
              · rw [hp] at h6
                by_cases hcond : putp = none ∧ cip.expires < now
                · rw [if_pos hcond] at h6; exact absurd h6 (by simp)
                · rw [if_neg hcond] at h6
                  have : ¬ cip.expires < now := fun hlt => hcond ⟨h6.symm, hlt⟩
                  omega
              · rw [hp] at h6; exact absurd h6 (by simp)
            | succ u' =>
              obtain ⟨e, he1, he2⟩ := h5 u' (by omega)
              rw [succ_mod_shift] at he1
              exact ⟨e, he1, he2⟩
          · rcases h6 with h6 | ⟨sk, hsk, h6⟩
            · by_cases hcond : putp = none ∧ cip.expires < now
              · rw [if_pos hcond] at h6
                right
                exact ⟨0, by omega, by simpa using h6⟩
              · rw [if_neg hcond] at h6
                left; exact h6
            · right
              refine ⟨sk + 1, by omega, ?_⟩
              rw [h6, succ_mod_shift]

theorem lookupProbe_path (cachev : List (Option CACHE_INFO)) (n hash : Nat) (name : List Nat)
    (t : Int) (s fuel i : Nat) (e : CACHE_INFO) (hs : s < fuel)
    (hpath : ∀ u, u < s → ∃ e' : CACHE_INFO, cachev[(i + u) % 2 ^ n]? = some (some e') ∧
      ¬ (e'.hash = hash ∧ e'.expires ≥ t ∧ strcasecmp e'.name name = 0))
    (hend : cachev[(i + s) % 2 ^ n]? = some (some e))
    (hmatch : e.hash = hash ∧ e.expires ≥ t ∧ strcasecmp e.name name = 0) :
    lookupProbe cachev (2 ^ n - 1) hash name t fuel i = some e.ip := by
  induction s generalizing fuel i with
  | zero =>
    cases fuel with
    | zero => omega
    | succ f =>
      rw [lookupProbe, mask_eq_mod]
      rw [Nat.add_zero] at hend
      rw [hend]
      simp only
      rw [if_pos hmatch]
  | succ s' ih =>
    cases fuel with
    | zero => omega
    | succ f =>
      obtain ⟨e0, h0, hn0⟩ := hpath 0 (by omega)
      rw [Nat.add_zero] at h0
      rw [lookupProbe, mask_eq_mod, h0]
      simp only
      rw [if_neg hn0]
      apply ih f (i % 2 ^ n + 1) (by omega)
      · intro u hu
        obtain ⟨e', h1, h2⟩ := hpath (u + 1) (by omega)
        exact ⟨e', by rw [succ_mod_shift]; exact h1, h2⟩
      · rw [succ_mod_shift]; exact hend

theorem sweepStep_keeps (now : Int) (j : Nat) (st : SWEEP) :
    (∀ (i : Nat) (e : CACHE_INFO), st.cachev[i]? = some (some e) → e.expires > now →
      (sweepStep now j st).cachev[i]? = some (some e)) ∧
    (∀ (i : Nat) (e : CACHE_INFO), (sweepStep now j st).cachev[i]? = some (some e) →
      st.cachev[i]? = some (some e)) := by
  unfold sweepStep
  split
  · rename_i xp hx
    split
    · exact ⟨fun _ _ h _ => h, fun _ _ h => h⟩
    · rename_i hle
      split
      · constructor
        · intro i e he hlive
          simp only
          by_cases hij : j = i
          · subst hij
            rw [hx] at he
            have := Option.some.inj (Option.some.inj he)
            subst this
            exact absurd hlive hle
          · rw [List.getElem?_set_ne hij]; exact he
        · intro i e he
          simp only at he
          by_cases hij : j = i
          · subst hij
            have hlt := getElem?_lt_length _ _ _ hx
            rw [List.getElem?_set_self hlt] at he
            exact absurd he (by simp)
          · rw [List.getElem?_set_ne hij] at he; exact he
      · exact ⟨fun _ _ h _ => h, fun _ _ h => h⟩
  · exact ⟨fun _ _ h _ => h, fun _ _ h => h⟩

theorem sweepLoop_keeps (now : Int) (j : Nat) (st : SWEEP) :
    (∀ (i : Nat) (e : CACHE_INFO), st.cachev[i]? = some (some e) → e.expires > now →
      (sweepLoop now j st).cachev[i]? = some (some e)) ∧
    (∀ (i : Nat) (e : CACHE_INFO), (sweepLoop now j st).cachev[i]? = some (some e) →
      st.cachev[i]? = some (some e)) := by
  induction j generalizing st with
  | zero => exact ⟨fun _ _ h _ => h, fun _ _ h => h⟩
  | succ k ih =>
    rw [sweepLoop]
    obtain ⟨a1, a2⟩ := sweepStep_keeps now k st
    obtain ⟨b1, b2⟩ := ih (sweepStep now k st)
    exact ⟨fun i e h hl => b1 i e (a1 i e h hl) hl, fun i e h => a2 i e (b2 i e h)⟩

theorem easySweep_keeps (mp : MADNS) (now : Int) :
    (∀ (i : Nat) (e : CACHE_INFO), mp.cachev[i]? = some (some e) → e.expires > now →
      (easySweep mp now).cachev[i]? = some (some e)) ∧
    (∀ (i : Nat) (e : CACHE_INFO), (easySweep mp now).cachev[i]? = some (some e) →
      mp.cachev[i]? = some (some e)) := by
  unfold easySweep
  split
  · exact sweepLoop_keeps now mp.limit
      { cachev := mp.cachev, easy := decide (mp.cachev[0]? = some none), count := mp.count + 1 }
  · exact ⟨fun _ _ h _ => h, fun _ _ h => h⟩

theorem freeSlot_sound (putp : List (Option CACHE_INFO)) (mask fuel i j : Nat)
    (h : freeSlot putp mask fuel i = some j) : putp[j]? = some none := by
  induction fuel generalizing i with
  | zero => rw [freeSlot] at h; exact absurd h (by simp)
  | succ f ih =>
    rw [freeSlot] at h
    split at h
    · exact absurd h (by simp)
    · rename_i hc
      rw [← Option.some.inj h]; exact hc
    · exact ih _ h

theorem rehash_keeps (now : Int) (limit : Nat) (old putp res : List (Option CACHE_INFO))
    (h : rehash now limit old putp = some res) (i : Nat) (e : CACHE_INFO)
    (he : putp[i]? = some (some e)) : res[i]? = some (some e) := by
  induction old generalizing putp with
  | nil =>
    rw [rehash] at h
    rw [← Option.some.inj h]; exact he
  | cons a as ih =>
    cases a with
    | none =>
      rw [rehash] at h
      exact ih putp h he
    | some cip =>
      rw [rehash] at h
      split at h
      · exact ih putp h he
      · split at h
        · exact absurd h (by simp)
        · rename_i k hk
          have hfree := freeSlot_sound _ _ _ _ _ hk
          have hne : k ≠ i := by
            intro e'
            subst e'
            rw [he] at hfree
            exact absurd hfree (by simp)
          exact ih _ h (by rw [List.getElem?_set_ne hne]; exact he)


theorem growLimit_pow (count : Int) (fuel limit : Nat) :
    ∃ m, growLimit count fuel limit = limit * 2 ^ m := by
  induction fuel generalizing limit with
  | zero => exact ⟨0, by simp [growLimit]⟩
  | succ f ih =>
    rw [growLimit]
    split
    · obtain ⟨m, hm⟩ := ih (limit * 2)
      exact ⟨m + 1, by rw [hm]; ring⟩
    · exact ⟨0, by simp⟩

theorem rehash_length (now : Int) (limit : Nat) (old putp res : List (Option CACHE_INFO))
    (h : rehash now limit old putp = some res) : res.length = putp.length := by
  induction old generalizing putp with
  | nil =>
    rw [rehash] at h
    rw [← Option.some.inj h]
  | cons a as ih =>
    cases a with
    | none =>
      rw [rehash] at h
      exact ih putp h
    | some cip =>
      rw [rehash] at h
      split at h
      · exact ih putp h
      · split at h
        · exact absurd h (by simp)
        · rw [ih _ h]; simp

theorem placeNew_shape (mp mp' : MADNS) (now : Int) (i : Nat) (cip : CACHE_INFO)
    (hp : placeNew mp now i cip = some mp') :
    (mp'.limit = mp.limit ∧ mp'.cachev = (easySweep mp now).cachev.set i (some cip)) ∨
    (∃ m, mp'.limit = 2 ^ m ∧ mp'.cachev[cip.hash % 2 ^ m]? = some (some cip)) := by
  unfold placeNew at hp
  simp only at hp
  split at hp
  · left
    rw [← Option.some.inj hp]
    exact ⟨rfl, rfl⟩
  · right
    cases hr : rebuild now (easySweep mp now).count (easySweep mp now).cachev cip with
    | none => rw [hr] at hp; exact absurd hp (by simp)
    | some r =>
      rw [hr] at hp
      simp only [Option.map_some', Option.some.injEq] at hp
      unfold rebuild at hr
      simp only at hr
      obtain ⟨m, hm⟩ := growLimit_pow (easySweep mp now).count
        ((easySweep mp now).count.toNat + 1) MIN_CACHE
      have g3 : growLimit (easySweep mp now).count ((easySweep mp now).count.toNat + 1)
          MIN_CACHE = 2 ^ (m + 4) := by
        rw [hm, MIN_CACHE]; ring
      rw [g3] at hr
      cases hq : rehash now (2 ^ (m + 4)) (easySweep mp now).cachev
          ((List.replicate (2 ^ (m + 4)) none).set (cip.hash &&& (2 ^ (m + 4) - 1))
            (some cip)) with
      | none => rw [hq] at hr; exact absurd hr (by simp)
      | some res =>
        rw [hq] at hr
        simp only [Option.map_some', Option.some.injEq] at hr
        have hidx : cip.hash % 2 ^ (m + 4) < 2 ^ (m + 4) :=
          Nat.mod_lt _ (Nat.pow_pos (by decide))
        have hkeep := rehash_keeps now _ _ _ res hq (cip.hash % 2 ^ (m + 4)) cip
          (by rw [mask_eq_mod]; exact List.getElem?_set_self (by simpa using hidx))
        rw [← hp, ← hr]
        exact ⟨m + 4, rfl, hkeep⟩

/-- Right after `update_cache` has stored a reply for a name that had no entry in the
table, in a second in which no entry expires, the probe of `madns_lookup` finds the new
entry for every name with the same key, until the entry expires. -/
theorem update_cache_fresh (mp : MADNS) (rp : RESPONSE) (now t : Int) (name : List Nat)
    (hinv : CacheInv mp) (hkey : lowerKey rp.name = lowerKey name)
    (hfresh : ∀ (i : Nat) (e : CACHE_INFO), mp.cachev[i]? = some (some e) →
      lowerKey e.name ≠ lowerKey name)
    (hnow : ∀ (i : Nat) (e : CACHE_INFO), mp.cachev[i]? = some (some e) → e.expires ≠ now)
    (ht : t ≤ now + rp.ttl) :
    ∃ mp1, update_cache mp rp now = some mp1 ∧ CacheInv mp1 ∧
      lookupProbe mp1.cachev (mp1.limit - 1) (fnvstr name) name t mp1.limit (fnvstr name)
        = some rp.ip := by
  obtain ⟨mp1, hu, hinv1⟩ := update_cache_inv mp rp now hinv
  refine ⟨mp1, hu, hinv1, ?_⟩
  obtain ⟨n, hn⟩ := hinv.pow
  have hhash : fnvstr rp.name = fnvstr name := fnvstr_of_key _ _ hkey
  obtain ⟨cip, hcip⟩ : ∃ c : CACHE_INFO, c =
      { hash := fnvstr rp.name, expires := now + rp.ttl, ip := rp.ip, name := cstr rp.name } :=
    ⟨_, rfl⟩
  have hm : cip.hash = fnvstr name ∧ cip.expires ≥ t ∧ strcasecmp cip.name name = 0 := by
    rw [hcip]
    refine ⟨hhash, by simp only; omega, ?_⟩
    rw [strcasecmp_eq_zero_iff, lowerKey_cstr, hkey]
  have hip : cip.ip = rp.ip := by rw [hcip]
  have hold : ∀ (i : Nat) (e : CACHE_INFO), mp.cachev[i]? = some (some e) →
      ¬ (e.hash = fnvstr name ∧ e.expires ≥ t ∧ strcasecmp e.name name = 0) := by
    intro i e he hm'
    exact hfresh i e he ((strcasecmp_eq_zero_iff _ _).mp hm'.2.2)
  unfold update_cache at hu
  cases hpr : updateProbe mp.cachev (mp.limit - 1) (fnvstr rp.name) rp.name now mp.limit
      (fnvstr rp.name) none with
  | none => rw [hpr] at hu; exact absurd hu (by simp)
  | some res =>
    rw [hpr] at hu
    rw [hn] at hpr
    rcases updateProbe_path _ _ _ _ _ _ _ _ _ hpr with
      ⟨j, e, h1, h2, _, h4⟩ | ⟨j, p, s, h1, h2, h3, h4, h5, h6⟩
    · exfalso
      apply hfresh j e h2
      unfold lowerKey
      rw [strcmp_eq_zero _ _ h4]
      exact hkey
    · subst h1
      simp only [← hcip] at hu
      rw [hhash] at h3 h5 h6
      rw [← hip]
      cases p with
      | some k =>
        simp only at hu
        rcases h6 with h6 | ⟨sk, hsk, h6⟩
        · exact absurd h6 (by simp)
        · have hk := Option.some.inj h6
          obtain ⟨ek, hek, _⟩ := h5 sk hsk
          have hklt : k < mp.cachev.length := by
            rw [hk]; exact getElem?_lt_length _ _ _ hek
          rw [← Option.some.inj hu]
          simp only
          rw [hn]
          apply lookupProbe_path _ n _ _ _ sk (2 ^ n) _ cip (by omega)
          · intro u hu'
            obtain ⟨e', he', _⟩ := h5 u (by omega)
            refine ⟨e', ?_, hold _ e' he'⟩
            have hne : k ≠ (fnvstr name + u) % 2 ^ n := by
              rw [hk]
              exact Ne.symm (residues_ne _ _ _ _ hu' (by omega))
            rw [List.getElem?_set_ne hne]; exact he'
          · rw [← hk]
            exact List.getElem?_set_self hklt
          · exact hm
      | none =>
        simp only at hu
        obtain ⟨k1, k2⟩ := easySweep_keeps mp now
        obtain ⟨s1, _, _, s4⟩ := easySweep_spec mp now
        have hjlt : j < (easySweep mp now).cachev.length :=
          getElem?_lt_length _ _ _ (s4 j h4)
        rcases placeNew_shape mp mp1 now j _ hu with ⟨hl, hc⟩ | ⟨m, hl, hc⟩
        · rw [hl, hc, hn]
          apply lookupProbe_path _ n _ _ _ s (2 ^ n) _ cip h2
          · intro u hu'
            obtain ⟨e', he', hlive⟩ := h5 u hu'
            have hgt : e'.expires > now := by
              have h1 := hlive rfl
              have h2 := hnow _ e' he'
              omega
            refine ⟨e', ?_, hold _ e' he'⟩
            have hne : j ≠ (fnvstr name + u) % 2 ^ n := by
              rw [h3]
              exact Ne.symm (residues_ne _ _ _ _ hu' h2)
            rw [List.getElem?_set_ne hne]
            exact k1 _ e' he' hgt
          · rw [← h3]
            exact List.getElem?_set_self hjlt
          · exact hm
        · rw [hl]
          apply lookupProbe_path _ m _ _ _ 0 (2 ^ m) _ cip (Nat.two_pow_pos m)
          · intro u hu'; omega
          · rw [Nat.add_zero, ← hm.1]; exact hc
          · exact hm


/-- C2 (amended): on a reachable handle, when `madns_response` accepts a reply for an
active query whose name is not an IPv4 literal, the reply carrying an address other than
`INADDR_ANY` with time-to-live `ttl` and a QNAME equal to the query name ignoring case,
and the cache holds no entry for that name and no entry that expires in the second of the
call, then the call returns the context with that address and `madns_lookup` of the query
name on the resulting state returns exactly that address at every time from the call up
to `ttl` seconds later. -/
theorem C2_lookup_after_response (inet_addr : List Nat → Nat) (mp : MADNS) (d : DGRAM)
    (ds : List DGRAM) (now : Int) (tk : ℚ) (resp : RESPONSE) (qp : QUERY) (t : Int)
    (h : Reachable mp) (hlen : d.len ≠ 0)
    (hparse : parse_response d.buf d.len = some (true, resp))
    (hslot : mp.queries[resp.tid % mp.qsize]? = some qp)
    (hacc : accepts mp qp resp d.src = true)
    (hip : resp.ip ≠ INADDR_ANY) (hname : strcasecmp resp.name qp.name = 0)
    (hlit : inet_addr qp.name = INADDR_NONE)
    (hfresh : ∀ (i : Nat) (e : CACHE_INFO), mp.cachev[i]? = some (some e) →
      strcasecmp e.name qp.name ≠ 0)
    (hnow : ∀ (i : Nat) (e : CACHE_INFO), mp.cachev[i]? = some (some e) → e.expires ≠ now)
    (ht : now ≤ t ∧ t ≤ now + resp.ttl) :
    ∃ r, madns_response mp (d :: ds) now tk = some r ∧ r.ctx = qp.ctx ∧
      r.ip = some resp.ip ∧ madns_lookup inet_addr r.mp qp.name t = some resp.ip := by
  have hwf := reachable_wf mp h
  have hinv := reachable_cacheInv mp h
  have hq : mp.qsize ≠ 0 := by have := hwf.qbound.1; omega
  have hk := accepts_active mp hwf _ qp resp d.src hslot hacc
  obtain ⟨mp1, hu, hinv1, hlook⟩ := update_cache_fresh mp resp now t qp.name hinv
    ((strcasecmp_eq_zero_iff _ _).mp hname)
    (fun i e he hkey => hfresh i e he ((strcasecmp_eq_zero_iff _ _).mpr hkey))
    hnow ht.2
  obtain ⟨l, c, cv, he⟩ := update_cache_frame mp mp1 resp now hu
  have hwf1 : WF mp1 := update_cache_wf mp mp1 resp now hwf hu
  have hk1 : resp.tid % mp.qsize ∈ mp1.active := by rw [he]; exact hk
  obtain ⟨_, _, _, _, _, _, hd', _⟩ := destroy_query_wf mp1 _ tk hwf1 hk1
  obtain ⟨rd, hd⟩ : ∃ rd, destroy_query mp1 (resp.tid % mp.qsize) tk = some rd := ⟨_, hd'⟩
  obtain ⟨_, ⟨qp', hqp', hctx⟩, _, _, _, _, hl, _, hcv, _⟩ :=
    destroy_query_result mp1 _ tk hwf1 hk1 rd hd
  have hqq : qp' = qp := by
    rw [he] at hqp'
    simp only at hqp'
    rw [hslot] at hqp'
    exact (Option.some.inj hqp').symm
  subst hqq
  refine ⟨{ ctx := rd.1, ip := some resp.ip, mp := rd.2, rest := ds }, ?_, hctx, rfl, ?_⟩
  · rw [madns_response, if_neg hlen, hparse]
    simp only [hq, if_false, hslot, hacc, if_true]
    rw [if_pos ⟨hip, hname⟩, hu]
    simp only
    rw [hd]
    rfl
  · unfold madns_lookup
    rw [if_neg (by simp [hlit]), if_neg (by have := hwf.names _ hk _ hslot; omega)]
    simp only
    rw [hcv, hl]
    exact hlook

theorem replicate_none_no_entry (k i : Nat) (e : CACHE_INFO) :
    (List.replicate k (none : Option CACHE_INFO))[i]? ≠ some (some e) := by
  intro h
  have hlt := getElem?_lt_length _ _ _ h
  rw [List.getElem?_eq_getElem hlt] at h
  simp at h

theorem C2_lookup_after_response_witness :
    ∃ r, madns_response handle1 [dgramAB] 101 1 = some r ∧ r.ctx = 77 ∧
      r.ip = some respAB.ip ∧ madns_lookup dottedQuad r.mp nameAB 401 = some respAB.ip :=
  C2_lookup_after_response dottedQuad handle1 dgramAB [] 101 1 respAB
    { ctx := 77, expires := 105, tid := 4, name := nameAB, server := some 0, started := 0 }
    401 handle1_reachable (by decide) replyAB_parsed (by decide) (by decide) (by decide)
    (by decide) (by decide)
    (fun i e he => absurd he (replicate_none_no_entry 16 i e))
    (fun i e he => absurd he (replicate_none_no_entry 16 i e))
    (by decide)

/-- C2 (as stated) fails: the active query is on the name "1.2.3.4"; the accepted reply
carries 9.9.9.9, which `madns_response` hands to the caller, but `madns_lookup` returns
the literal address 1.2.3.4 without consulting the cache. -/
theorem C2_counterexample :
    literalRun.map (fun r => (r.ctx, r.ip)) = some (77, some 0x09090909) ∧
    literalRun.map (fun r => madns_lookup dottedQuad r.mp name1234 101)
      = some (some 0x01020304) ∧
    dottedQuad name1234 = 0x01020304 := by
  decide!

/-! ### The label check of `send_request` -/

set_option maxRecDepth 100000 in
/-- C11: the label check of `send_request` runs only where a label ends at a dot. A name
whose last (or only) label has 64 bytes is not rejected: a packet of `strlen + 18` bytes
with the length byte 64 is built and sent and `expires` is stamped (105 = 100 + 5). A
label of 64 bytes in first or middle position is rejected (no packet, `expires` stays 0),
and a label of 63 bytes is accepted. -/
theorem C11_last_label_unchecked :
    sendOutcome label64 = some (some (82, some 64), some 105) ∧
    sendOutcome lastLabel64 = some (some (84, some 1), some 105) ∧
    (queryPacket 4 lastLabel64).map (fun pkt => pkt[14]?) = some (some 64) ∧
    sendOutcome longLabel = some (none, some 0) ∧
    sendOutcome midLabel64 = some (none, some 0) ∧
    sendOutcome label63 = some (some (83, some 63), some 105) := by
  refine ⟨?_, ?_, ?_, ?_, ?_, ?_⟩ <;> decide

/-! ### The question section of a reply -/

theorem dotRaw_eq (labels : List (List Nat)) (hne : labels ≠ []) :
    dotRaw labels = 46 :: joinLabels labels := by
  induction labels with
  | nil => exact absurd rfl hne
  | cons l ls ih =>
    cases ls with
    | nil => simp [dotRaw, joinLabels]
    | cons l2 ls2 => rw [dotRaw, ih (by simp), joinLabels_cons_cons]

theorem rawLabels_length (labels : List (List Nat)) :
    (rawLabels labels).length = (dotRaw labels).length := by
  induction labels with
  | nil => rfl
  | cons l ls ih => simp [rawLabels, dotRaw, ih]

theorem rawLabels_length_ge (labels : List (List Nat)) :
    labels.length ≤ (rawLabels labels).length := by
  induction labels with
  | nil => simp
  | cons l ls ih => simp only [rawLabels, List.length_cons, List.length_append]; omega

theorem joinLabels_nonzero_raw (labels : List (List Nat)) (hlab : ∀ l ∈ labels, wireLabel l) :
    ∀ c ∈ joinLabels labels, c ≠ 0 := by
  induction labels with
  | nil => intro c hc; simp [joinLabels] at hc
  | cons l ls ih =>
    have hl := (hlab l (List.mem_cons_self _ _)).2.2
    have ih' := ih (fun x hx => hlab x (List.mem_cons_of_mem _ hx))
    cases ls with
    | nil => intro c hc; exact hl c (by simpa [joinLabels] using hc)
    | cons l2 ls2 =>
      intro c hc
      rw [joinLabels_cons_cons] at hc
      simp only [List.mem_append, List.mem_cons] at hc
      rcases hc with hc | hc | hc
      · exact hl c hc
      · omega
      · exact ih' c hc

theorem qnameLoop_raw (labels : List (List Nat)) (e fuel : Nat) (pre post : List Nat)
    (hlab : ∀ l ∈ labels, wireLabel l) (hfuel : labels.length < fuel)
    (he : pre.length + (rawLabels labels).length < e) :
    qnameLoop e fuel (pre ++ rawLabels labels ++ 0 :: post) pre.length =
      some (pre ++ dotRaw labels ++ 0 :: post, pre.length + (rawLabels labels).length) := by
  induction labels generalizing pre fuel with
  | nil =>
    cases fuel with
    | zero => simp at hfuel
    | succ n =>
      simp only [rawLabels, List.length_nil, Nat.add_zero, List.append_nil] at he ⊢
      rw [qnameLoop, if_pos he, getElem?_append_cons]
      simp [dotRaw]
  | cons l ls ih =>
    obtain ⟨h1, h63, _⟩ := hlab l (List.mem_cons_self _ _)
    unfold NS_MAXLABEL at h63
    cases fuel with
    | zero => simp at hfuel
    | succ n =>
      have hlt : pre.length < e := by omega
      have hshape : pre ++ rawLabels (l :: ls) ++ 0 :: post
          = pre ++ l.length :: (l ++ rawLabels ls ++ 0 :: post) := by
        simp [rawLabels]
      have hget : (pre ++ rawLabels (l :: ls) ++ 0 :: post)[pre.length]? = some l.length := by
        rw [hshape, getElem?_append_cons]
      rw [qnameLoop, if_pos hlt, hget]
      simp only
      rw [if_neg (by omega)]
      have hs : schar l.length = (l.length : Int) := by
        unfold schar; rw [if_pos (by omega)]
      rw [hs, if_neg (by omega)]
      have hp : ((pre.length : Int) + (l.length : Int) + 1).toNat
          = (pre ++ 46 :: l).length := by
        simp only [List.length_append, List.length_cons]
        omega
      have hset : (pre ++ rawLabels (l :: ls) ++ 0 :: post).set pre.length 46
          = (pre ++ 46 :: l) ++ rawLabels ls ++ 0 :: post := by
        rw [hshape, set_append_cons]
        simp
      rw [hp, hset, ih n (pre ++ 46 :: l)
        (fun x hx => hlab x (List.mem_cons_of_mem _ hx))
        (by simp only [List.length_cons] at hfuel; omega)
        (by simp only [rawLabels, List.length_cons, List.length_append] at he ⊢
            omega)]
      simp only [dotRaw, rawLabels, List.length_cons, List.length_append,
        List.append_assoc, List.cons_append, Option.some.injEq, Prod.mk.injEq]
      constructor
      · trivial
      · omega

/-- The question section of any reply: on a packet whose header announces one question in
a reply and whose QNAME is made of labels of 1 to 63 bytes, none NUL, `parse_response`
rewrites the QNAME in place to the lowercased dotted name and goes on behind the
terminating NUL. -/
theorem parse_response_question_raw (t0 t1 f0 f1 a0 a1 x8 x9 x10 x11 : Nat)
    (labels : List (List Nat)) (post : List Nat) (len : Nat)
    (hf : 128 ≤ f0) (hne : labels ≠ []) (hlab : ∀ l ∈ labels, wireLabel l)
    (hlen : 12 + (rawLabels labels).length < len) :
    parse_response
      ([t0, t1, f0, f1, 0, 1, a0, a1, x8, x9, x10, x11] ++ rawLabels labels ++ 0 :: post) len
    = afterName
        ([t0, t1, f0, f1, 0, 1, a0, a1, x8, x9, x10, x11] ++
          46 :: (joinLabels labels).map tolower ++ 0 :: post)
        len (12 + (rawLabels labels).length + 1)
        { ip := INADDR_ANY, ttl := 0, tid := t0 + 256 * t1,
          name := (joinLabels labels).map tolower } := by
  obtain ⟨r0, r1, r3, n2, n4, n6⟩ :=
    header_reads t0 t1 f0 f1 0 1 a0 a1 x8 x9 x10 x11 (rawLabels labels ++ 0 :: post)
  rw [← List.append_assoc] at r0 r1 r3 n2 n4 n6
  obtain ⟨hdr, hhdr⟩ : ∃ hdr, hdr = [t0, t1, f0, f1, 0, 1, a0, a1, x8, x9, x10, x11] :=
    ⟨_, rfl⟩
  have h12 : hdr.length = 12 := by rw [hhdr]; rfl
  rw [← hhdr] at r0 r1 r3 n2 n4 n6 ⊢
  have hq := qnameLoop_raw labels len
    (((hdr ++ rawLabels labels ++ 0 :: post).length + 1) *
     ((hdr ++ rawLabels labels ++ 0 :: post).length + 1))
    hdr post hlab
    (by
      have := rawLabels_length_ge labels
      simp only [List.length_append, List.length_cons]
      nlinarith)
    (by rw [h12]; exact hlen)
  rw [h12] at hq
  have hdot := dotRaw_eq labels hne
  have hnz : ∀ c ∈ joinLabels labels, c ≠ 0 := joinLabels_nonzero_raw labels hlab
  have hnz2 : ∀ c ∈ (joinLabels labels).map tolower, c ≠ 0 := by
    intro c hc
    obtain ⟨x, hx, rfl⟩ := List.mem_map.mp hc
    exact fun e => hnz x hx ((tolower_eq_zero x).mp e)
  have hwl : (rawLabels labels).length = (joinLabels labels).length + 1 := by
    rw [rawLabels_length, hdot]; simp
  have hshape : hdr ++ dotRaw labels ++ 0 :: post
      = (hdr ++ [46]) ++ joinLabels labels ++ 0 :: post := by
    rw [hdot]; simp
  have hshape2 : hdr ++ 46 :: (joinLabels labels).map tolower ++ 0 :: post
      = (hdr ++ [46]) ++ (joinLabels labels).map tolower ++ 0 :: post := by
    simp
  have h13 : (hdr ++ [46]).length = 13 := by simp [h12]
  have hl := lowerLoop_body (joinLabels labels)
    ((hdr ++ dotRaw labels ++ 0 :: post).length + 1)
    (hdr ++ [46]) post hnz
    (by rw [hshape]; simp only [List.length_append, List.length_cons]; omega)
  rw [← hshape, ← hshape2, h13] at hl
  have hz : (hdr ++ dotRaw labels ++ 0 :: post)[12 + (rawLabels labels).length]?
      = some 0 := by
    rw [rawLabels_length, ← h12, ← List.length_append, getElem?_append_cons]
  have hname : cstr (List.drop 13 (hdr ++ 46 :: (joinLabels labels).map tolower ++ 0 :: post))
      = (joinLabels labels).map tolower := by
    rw [hshape2, List.append_assoc, ← h13, List.drop_left, cstr_append_zero _ _ hnz2]
  generalize hdr ++ rawLabels labels ++ 0 :: post = P at r0 r1 r3 n2 n4 n6 hq ⊢
  generalize hdr ++ dotRaw labels ++ 0 :: post = B at hq hl hz ⊢
  generalize hdr ++ 46 :: (joinLabels labels).map tolower ++ 0 :: post = B2 at hl hname ⊢
  unfold parse_response
  simp only [r0, r1, n2, n4]
  rw [if_neg (by omega), hq]
  simp only [hz]
  rw [if_neg (by simp), hl]
  simp only [hname]
  rw [hwl]
  congr 1
  omega

/-! ### Replies that carry no address -/

theorem question_type_read (hdr body post : List Nat) (h12 : hdr.length = 12)
    (n : Nat) (hn : body.length = n) :
    ntohsp (hdr ++ body ++ 0 :: 0 :: 1 :: post) (12 + n + 1) = some 1 := by
  have e1 : 12 + n + 1 = (hdr ++ body ++ [0]).length := by
    simp only [List.length_append, List.length_cons, List.length_nil, h12, hn]
  have e2 : hdr ++ body ++ 0 :: 0 :: 1 :: post = (hdr ++ body ++ [0]) ++ 0 :: 1 :: post := by
    simp
  rw [e1, e2]
  unfold ntohsp
  rw [List.getElem?_append_right (Nat.le_refl _), List.getElem?_append_right (Nat.le_succ _)]
  simp

theorem rawLabels_length_join (labels : List (List Nat)) (hne : labels ≠ []) :
    (rawLabels labels).length = (46 :: (joinLabels labels).map tolower).length := by
  rw [rawLabels_length, dotRaw_eq labels hne]
  simp

/-- C12: on a packet with the QR bit set, QDCOUNT 1, a QNAME made of labels of 1 to 63
bytes (none NUL, in any case), QTYPE 1 and RCODE 3, where `len` covers the question,
`parse_response` succeeds with `ip = INADDR_NONE`, `ttl = 86400`, the TID field of the
header (read as stored, low byte first) and the lowercased dotted name, whatever ANCOUNT
(`a0`, `a1`) is and whatever follows QTYPE (`post`). -/
theorem C12_nxdomain (t0 t1 f0 f1 a0 a1 x8 x9 x10 x11 : Nat) (labels : List (List Nat))
    (post : List Nat) (len : Nat) (hf : 128 ≤ f0) (hrcode : f1 % 16 = DNS_R_NXDOMAIN)
    (hne : labels ≠ []) (hlab : ∀ l ∈ labels, wireLabel l)
    (hlen : 12 + (rawLabels labels).length + 5 ≤ len) :
    parse_response
      ([t0, t1, f0, f1, 0, 1, a0, a1, x8, x9, x10, x11] ++ rawLabels labels
        ++ 0 :: 0 :: 1 :: post) len
    = some (true, { ip := INADDR_NONE, ttl := 86400, tid := t0 + 256 * t1,
                    name := (joinLabels labels).map tolower }) := by
  rw [parse_response_question_raw _ _ _ _ _ _ _ _ _ _ labels _ _ hf hne hlab (by omega)]
  have hq := question_type_read [t0, t1, f0, f1, 0, 1, a0, a1, x8, x9, x10, x11]
    (46 :: (joinLabels labels).map tolower) post rfl (rawLabels labels).length
    (rawLabels_length_join labels hne).symm
  obtain ⟨_, _, r3, _, _, n6⟩ := header_reads t0 t1 f0 f1 0 1 a0 a1 x8 x9 x10 x11
    (46 :: (joinLabels labels).map tolower ++ 0 :: 0 :: 1 :: post)
  rw [← List.append_assoc] at r3 n6
  unfold afterName
  rw [if_neg (by omega), hq]
  simp only [r3, n6]
  rw [if_neg (by decide), if_pos hrcode]

theorem C12_nxdomain_witness :
    parse_response
      ([4, 0, 0x81, 0x83, 0, 1, 0, 7, 0, 0, 0, 0] ++ rawLabels [[65], [98]]
        ++ 0 :: 0 :: 1 :: [0, 1, 0xC0, 12, 9, 9]) 21
    = some (true, { ip := INADDR_NONE, ttl := 86400, tid := 4 + 256 * 0,
                    name := (joinLabels [[65], [98]]).map tolower }) :=
  C12_nxdomain 4 0 0x81 0x83 0 7 0 0 0 0 [[65], [98]] [0, 1, 0xC0, 12, 9, 9] 21
    (by decide) (by decide) (by decide) (by decide) (by decide)

/-- C12 (as stated) fails: a reply with the QR bit set, QDCOUNT 1, RCODE 3 and the root
name as QNAME (the single byte 0) followed by QTYPE 1 is rejected, whether the packet ends
behind the question (17 bytes) or goes on (47 bytes): the lowercasing loop starts at the
byte behind the QNAME's first byte, so QTYPE, which stands at offset 13, is read at offset
14, as 256. A QNAME with a NUL byte inside a label is rejected in the same way, with the
name cut at that byte. -/
theorem C12_counterexample :
    (parse_response (rootReply 0) 17).map Prod.fst = some false ∧
    (parse_response (rootReply 30) 47).map Prod.fst = some false ∧
    ((rootReply 30)[12]?, ntohsp (rootReply 30) 13, ntohsp (rootReply 30) 14)
      = (some 0, some 1, some 256) ∧
    (parse_response nulLabelReply 23).map (fun r => (r.1, r.2.name)) = some (false, [97]) := by
  refine ⟨?_, ?_, ?_, ?_⟩ <;> decide

/-! ### The query packet -/

theorem cstr_of_nonzero (a : List Nat) (ha : ∀ c ∈ a, c ≠ 0) : cstr a = a := by
  induction a with
  | nil => rfl
  | cons c cs ih =>
    rw [cstr, if_neg (ha c (List.mem_cons_self _ _)),
      ih (fun x hx => ha x (List.mem_cons_of_mem _ hx))]

/-- C19 (amended): for a slot with a TID below 65536 and a host name made of labels of 1
to 63 bytes (none NUL or a dot), the packet that `send_request` builds is: the TID in host
byte order (low byte first on the little-endian target), then flags 0x0100, QDCOUNT 1 and
ANCOUNT = NSCOUNT = ARCOUNT = 0 in network byte order; the QNAME with each label
lowercased behind its length byte; then 0x00, QTYPE 1 and QCLASS 1 as big-endian 16-bit
values. Its length is `strlen(name) + 18`. -/
theorem C19_query_packet (mp : MADNS) (k : Nat) (now : Int) (sent : Bool) (qp : QUERY)
    (labels : List (List Nat)) (hqp : mp.queries[k]? = some qp) (hprev : qp.server = none)
    (helig : ∃ (s : Nat) (sv : SERVER), mp.serv[s]? = some sv ∧ sv.nreqs < mp.server_reqs)
    (htid : qp.tid < 65536) (hname : qp.name = joinLabels labels)
    (hne : labels ≠ []) (hlab : ∀ l ∈ labels, goodLabel l) :
    ∃ mp' pkt, send_request mp k now sent = some (mp', some pkt) ∧
      pkt = [qp.tid % 256, qp.tid / 256, 0x01, 0x00, 0x00, 0x01, 0, 0, 0, 0, 0, 0]
        ++ wireLabels labels ++ [0x00, 0x00, 0x01, 0x00, 0x01] ∧
      pkt.length = strlen qp.name + 18 := by
  obtain ⟨best, sv, e, pkt, _, _, _, hpkt, hsend⟩ :=
    send_request_fresh mp k now sent qp hqp hprev helig
  have henc := encodeName_labels labels [] hne hlab
  have hdot := dotLabels_eq labels hne
  have hwl : (wireLabels labels).length = (joinLabels labels).length + 1 := by
    rw [wireLabels_length, hdot]; simp
  have hstr : strlen qp.name = (joinLabels labels).length := by
    unfold strlen
    rw [hname, cstr_of_nonzero _ (joinLabels_nonzero labels hlab)]
  have hmod : qp.tid / 256 % 256 = qp.tid / 256 := Nat.mod_eq_of_lt (by omega)
  have hq : queryPacket qp.tid qp.name
      = some ([qp.tid % 256, qp.tid / 256, 0x01, 0x00, 0x00, 0x01, 0, 0, 0, 0, 0, 0]
          ++ wireLabels labels ++ [0x00, 0x00, 0x01, 0x00, 0x01]) := by
    unfold queryPacket
    rw [hname, henc]
    simp [queryHeader, DNS_A_RECORD, hmod]
  rw [hq] at hpkt
  rw [hpkt] at hsend
  refine ⟨_, _, hsend, rfl, ?_⟩
  simp only [List.length_append, List.length_cons, List.length_nil, hwl, hstr]
  omega

theorem C19_query_packet_witness :
    ∃ mp' pkt, send_request handle0Filled 0 100 true = some (mp', some pkt) ∧
      pkt = [4 % 256, 4 / 256, 0x01, 0x00, 0x00, 0x01, 0, 0, 0, 0, 0, 0]
        ++ wireLabels [[97], [98]] ++ [0x00, 0x00, 0x01, 0x00, 0x01] ∧
      pkt.length = strlen nameAB + 18 :=
  C19_query_packet handle0Filled 0 100 true
    { ctx := 77, expires := 0, tid := 4, name := nameAB, server := none, started := 0 }
    [[97], [98]] rfl rfl ⟨0, { ip := 0x7F000035, nreqs := 0, latency := 0 }, rfl, by decide⟩
    (by decide) (by decide) (by decide) (by decide)

/-- C19 (as stated) fails: on `handle0`, when `rand()` returns 32767 the request gets the
TID 32768 = 0x8000 and the packet starts with the bytes 0x00 0x80, the TID in host byte
order; in network byte order they would be 0x80 0x00. -/
theorem C19_counterexample :
    (madns_request handle0 nameAB 77 32767 0 100 true).map
        (fun r => (r.1, r.2.2.map (List.take 2))) = some (32768, some [0x00, 0x80]) ∧
    ([0x00, 0x80] : List Nat) ≠ [32768 / 256, 32768 % 256] := by
  refine ⟨?_, ?_⟩ <;> decide

/-- A reply without answers: with the QR bit set, QDCOUNT 1, a QNAME of labels of 1 to 63
non-NUL bytes, QTYPE 1, an RCODE other than 3 and ANCOUNT 0, `parse_response` succeeds
with `ip = INADDR_ANY` and `ttl = 0`. -/
theorem parse_empty_reply (t0 t1 f0 f1 x8 x9 x10 x11 : Nat) (labels : List (List Nat))
    (post : List Nat) (len : Nat) (hf : 128 ≤ f0) (hrcode : f1 % 16 ≠ DNS_R_NXDOMAIN)
    (hne : labels ≠ []) (hlab : ∀ l ∈ labels, wireLabel l)
    (hlen : 12 + (rawLabels labels).length + 5 ≤ len) :
    parse_response
      ([t0, t1, f0, f1, 0, 1, 0, 0, x8, x9, x10, x11] ++ rawLabels labels
        ++ 0 :: 0 :: 1 :: post) len
    = some (true, { ip := INADDR_ANY, ttl := 0, tid := t0 + 256 * t1,
                    name := (joinLabels labels).map tolower }) := by
  rw [parse_response_question_raw _ _ _ _ _ _ _ _ _ _ labels _ _ hf hne hlab (by omega)]
  have hq := question_type_read [t0, t1, f0, f1, 0, 1, 0, 0, x8, x9, x10, x11]
    (46 :: (joinLabels labels).map tolower) post rfl (rawLabels labels).length
    (rawLabels_length_join labels hne).symm
  obtain ⟨_, _, r3, _, _, n6⟩ := header_reads t0 t1 f0 f1 0 1 0 0 x8 x9 x10 x11
    (46 :: (joinLabels labels).map tolower ++ 0 :: 0 :: 1 :: post)
  rw [← List.append_assoc] at r3 n6
  unfold afterName
  rw [if_neg (by omega), hq]
  simp only [r3, n6]
  rw [if_neg (by decide), if_neg hrcode, if_pos (by decide)]

/-- C20 (amended): on a reachable handle, a reply with ANCOUNT 0 and an RCODE other than 3
(QR set, QDCOUNT 1, well-formed QNAME, QTYPE 1) that arrives from the server bound to the
slot `tid mod qsize`, for a query with that TID, is accepted: `madns_response` returns the
query's non-null `ctx` with `*ip = INADDR_ANY`, releases the slot (it leaves the active
list and is zeroed), `madns_ready()` grows by one, and the cache is left as it is. -/
theorem C20_empty_reply_completes (mp : MADNS) (d : DGRAM) (ds : List DGRAM) (now : Int)
    (tk : ℚ) (t0 t1 f0 f1 x8 x9 x10 x11 : Nat) (labels : List (List Nat)) (post : List Nat)
    (qp : QUERY) (s : Nat) (sv : SERVER) (h : Reachable mp)
    (hbuf : d.buf = [t0, t1, f0, f1, 0, 1, 0, 0, x8, x9, x10, x11] ++ rawLabels labels
      ++ 0 :: 0 :: 1 :: post)
    (hf : 128 ≤ f0) (hrcode : f1 % 16 ≠ DNS_R_NXDOMAIN)
    (hne : labels ≠ []) (hlab : ∀ l ∈ labels, wireLabel l)
    (hlen : 12 + (rawLabels labels).length + 5 ≤ d.len)
    (hslot : mp.queries[(t0 + 256 * t1) % mp.qsize]? = some qp)
    (hctx : qp.ctx ≠ 0) (htid : qp.tid = t0 + 256 * t1)
    (hsrv : qp.server = some s) (hsv : mp.serv[s]? = some sv) (hip : sv.ip = d.src) :
    ∃ mp', madns_response mp (d :: ds) now tk
        = some { ctx := qp.ctx, ip := some INADDR_ANY, mp := mp', rest := ds } ∧
      madns_ready mp' = madns_ready mp + 1 ∧
      (t0 + 256 * t1) % mp.qsize ∈ mp.active ∧
      mp'.active = mp.active.erase ((t0 + 256 * t1) % mp.qsize) ∧
      (t0 + 256 * t1) % mp.qsize ∉ mp'.active ∧
      mp'.queries = mp.queries.set ((t0 + 256 * t1) % mp.qsize) QUERY.zero ∧
      mp'.cachev = mp.cachev ∧ mp'.limit = mp.limit ∧ mp'.count = mp.count := by
  have hwf := reachable_wf mp h
  have hq : mp.qsize ≠ 0 := by have := hwf.qbound.1; omega
  have hparse := parse_empty_reply t0 t1 f0 f1 x8 x9 x10 x11 labels post d.len hf hrcode hne
    hlab hlen
  rw [← hbuf] at hparse
  obtain ⟨resp, hresp⟩ : ∃ resp : RESPONSE, resp = ⟨INADDR_ANY, 0, t0 + 256 * t1,
      (joinLabels labels).map tolower⟩ := ⟨_, rfl⟩
  rw [← hresp] at hparse
  have hrt : resp.tid = t0 + 256 * t1 := by rw [hresp]
  have hri : resp.ip = INADDR_ANY := by rw [hresp]
  have hacc : accepts mp qp resp d.src = true := by
    unfold accepts
    simp [hctx, htid, hsrv, hsv, hip, hrt]
  rw [← hrt] at hslot ⊢
  have hk := accepts_active mp hwf _ qp _ d.src hslot hacc
  obtain ⟨_, _, _, _, _, _, hdq, _⟩ := destroy_query_wf mp _ tk hwf hk
  obtain ⟨r1, hd⟩ : ∃ r1, destroy_query mp (resp.tid % mp.qsize) tk = some r1 := ⟨_, hdq⟩
  obtain ⟨_, ⟨q, hq1, hc⟩, hact, _, hnf, hqs, hl, hcnt, hcv, _⟩ :=
    destroy_query_result mp _ tk hwf hk r1 hd
  rw [hslot] at hq1
  have hqq : q = qp := (Option.some.inj hq1).symm
  subst hqq
  refine ⟨r1.2, ?_, ?_, hk, hact, ?_, hqs, hcv, hl, hcnt⟩
  · have hlen0 : d.len ≠ 0 := by omega
    rw [madns_response, if_neg hlen0, hparse]
    simp only [hq, if_false, hslot, hacc, if_true]
    rw [if_neg (fun hh => hh.1 hri)]
    simp only
    rw [hd]
    simp only [Option.map_some', hc, hri]
  · unfold madns_ready
    exact hnf
  · rw [hact]
    exact fun hm =>
      ((List.Nodup.mem_erase_iff (List.nodup_append.mp hwf.nodup).1).mp hm).1 rfl

theorem C20_empty_reply_completes_witness :
    ∃ mp', madns_response handle1 (emptyReplyAB :: []) 101 1
        = some { ctx := 77, ip := some INADDR_ANY, mp := mp', rest := [] } ∧
      madns_ready mp' = madns_ready handle1 + 1 ∧
      (4 + 256 * 0) % handle1.qsize ∈ handle1.active ∧
      mp'.active = handle1.active.erase ((4 + 256 * 0) % handle1.qsize) ∧
      (4 + 256 * 0) % handle1.qsize ∉ mp'.active ∧
      mp'.queries = handle1.queries.set ((4 + 256 * 0) % handle1.qsize) QUERY.zero ∧
      mp'.cachev = handle1.cachev ∧ mp'.limit = handle1.limit ∧ mp'.count = handle1.count :=
  C20_empty_reply_completes handle1 emptyReplyAB [] 101 1 4 0 0x81 0 0 0 0 0 [[97], [98]]
    [0, 1]
    { ctx := 77, expires := 105, tid := 4, name := nameAB, server := some 0, started := 0 }
    0 { ip := 0x7F000035, nreqs := 1, latency := 0 } handle1_reachable
    (by decide) (by decide) (by decide) (by decide) (by decide) (by decide) (by decide)
    (by decide) rfl rfl rfl rfl

/-- C20 (as stated) fails: `handle1` has the query "a.b" active (TID 4, context 77, sent
to 127.0.0.53); the reply `emptyReplyAB` from that server has ANCOUNT 0 and RCODE 0. The
call of `madns_response` that reads it returns the context 77 with `*ip = INADDR_ANY`,
the slot is released (the active list is empty) and `madns_ready()` goes from 3 to 4. -/
theorem C20_counterexample :
    (madns_response handle1 [emptyReplyAB] 101 1).map
        (fun r => (r.ctx, r.ip, madns_ready r.mp, r.mp.active))
      = some (77, some INADDR_ANY, 4, []) ∧
    madns_ready handle1 = 3 ∧ handle1.active = [0] ∧
    emptyReplyAB.buf[6]? = some 0 ∧ emptyReplyAB.buf[7]? = some 0 ∧
    emptyReplyAB.buf[3]? = some 0 := by
  decide!

/-! ### What a cancel and a response release -/

theorem cancelScan_skip (mp : MADNS) (c : Nat) (tk : ℚ) (pre l : List Nat)
    (hpre : ∀ j ∈ pre, ∃ q, mp.queries[j]? = some q ∧ q.ctx ≠ c) :
    cancelScan mp c tk (pre ++ l) = cancelScan mp c tk l := by
  induction pre with
  | nil => rfl
  | cons j js ih =>
    obtain ⟨q, hq, hc⟩ := hpre j (List.mem_cons_self _ _)
    rw [List.cons_append, cancelScan, hq]
    simp only
    rw [if_neg hc]
    exact ih (fun x hx => hpre x (List.mem_cons_of_mem _ hx))

theorem cancelScan_miss (mp : MADNS) (c : Nat) (tk : ℚ) (l : List Nat)
    (hl : ∀ j ∈ l, ∃ q, mp.queries[j]? = some q ∧ q.ctx ≠ c) :
    cancelScan mp c tk l = some (0, mp) := by
  have := cancelScan_skip mp c tk l [] hl
  rw [List.append_nil] at this
  rw [this]
  rfl

theorem set_getElem?_ne {α : Type} (l : List α) (k j : Nat) (x : α) (h : j ≠ k) :
    (l.set k x)[j]? = l[j]? := by
  rw [List.getElem?_set]
  rw [if_neg (fun e => h e.symm)]

theorem cancel_hit (mp : MADNS) (hwf : WF mp) (c : Nat) (tk : ℚ) (pre : List Nat) (k : Nat)
    (post : List Nat) (qp : QUERY) (ha : mp.active = pre ++ k :: post)
    (hpre : ∀ j ∈ pre, ∀ q, mp.queries[j]? = some q → q.ctx ≠ c)
    (hqp : mp.queries[k]? = some qp) (hc : qp.ctx = c) :
    ∃ mp', madns_cancel mp c tk = some ((qp.tid : Int), mp') ∧
      mp'.active = pre ++ post ∧ k ∉ mp'.active ∧
      mp'.queries = mp.queries.set k QUERY.zero ∧ mp'.unused = mp.unused ++ [k] ∧
      madns_ready mp' = madns_ready mp + 1 ∧
      mp'.cachev = mp.cachev ∧ mp'.limit = mp.limit ∧ mp'.count = mp.count := by
  have hk : k ∈ mp.active := by rw [ha]; simp
  have hnd : (pre ++ k :: post).Nodup := by
    rw [← ha]; exact (List.nodup_append.mp hwf.nodup).1
  have hkpre : k ∉ pre := fun hm =>
    (List.nodup_append.mp hnd).2.2 hm (List.mem_cons_self _ _)
  have hkpost : k ∉ post := (List.nodup_cons.mp (List.nodup_append.mp hnd).2.1).1
  have hpre' : ∀ j ∈ pre, ∃ q, mp.queries[j]? = some q ∧ q.ctx ≠ c := by
    intro j hj
    obtain ⟨q, _, hq, _⟩ := hwf.active_ok j (by rw [ha]; simp [hj])
    exact ⟨q, hq, hpre j hj q hq⟩
  obtain ⟨_, _, _, _, _, _, hdq, _⟩ := destroy_query_wf mp k tk hwf hk
  obtain ⟨r1, hd⟩ : ∃ r1, destroy_query mp k tk = some r1 := ⟨_, hdq⟩
  obtain ⟨_, _, hact, hun, hnf, hqs, hl, hcnt, hcv, _⟩ :=
    destroy_query_result mp k tk hwf hk r1 hd
  have her : mp.active.erase k = pre ++ post := by
    rw [ha, List.erase_append_right _ hkpre, List.erase_cons_head]
  refine ⟨r1.2, ?_, by rw [hact, her], ?_, hqs, hun, ?_, hcv, hl, hcnt⟩
  · unfold madns_cancel
    rw [ha, cancelScan_skip mp c tk pre _ hpre', cancelScan, hqp]
    simp only
    rw [if_pos hc, hd]
    rfl
  · rw [hact, her]
    simp [hkpre, hkpost]
  · unfold madns_ready
    exact hnf

theorem response_ready (mp : MADNS) (hwf : WF mp) (dgs : List DGRAM) (now : Int) (tk : ℚ)
    (r : RESULT) (hr : madns_response mp dgs now tk = some r) :
    (r.ctx ≠ 0 → madns_ready r.mp = madns_ready mp + 1) ∧ (r.ctx = 0 → r.mp = mp) ∧
    ∀ j ∈ mp.active, j ∈ r.mp.active → r.mp.queries[j]? = mp.queries[j]? := by
  rcases response_cases mp dgs now tk hwf r hr with ⟨h0, _, hm⟩ |
    ⟨k, mp1, r1, hk, hwf1, ⟨l, c, cv, he⟩, hd, hctx, hmp, _, _⟩
  · refine ⟨fun hne => absurd h0 hne, fun _ => hm, ?_⟩
    intro j _ _
    rw [hm]
  · have hk1 : k ∈ mp1.active := by rw [he]; exact hk
    obtain ⟨_, ⟨q, hq, hc⟩, hact, _, hnf, hqs, _⟩ :=
      destroy_query_result mp1 k tk hwf1 hk1 r1 hd
    obtain ⟨q', _, hq', hne, _⟩ := hwf1.active_ok k hk1
    rw [hq] at hq'
    have hqq : q' = q := (Option.some.inj hq').symm
    subst hqq
    have hrc : r.ctx ≠ 0 := by rw [hctx, hc]; exact hne
    refine ⟨fun _ => ?_, fun h0 => absurd h0 hrc, ?_⟩
    · unfold madns_ready
      rw [hmp, hnf, he]
    · intro j _ hj
      rw [hmp, hact] at hj
      have hjk : j ≠ k := fun e => by
        rw [e] at hj
        exact ((List.Nodup.mem_erase_iff (List.nodup_append.mp hwf1.nodup).1).mp hj).1 rfl
      rw [hmp, hqs, set_getElem?_ne _ _ _ _ hjk, he]

theorem cancel_keeps (mp : MADNS) (hwf : WF mp) (c : Nat) (tk : ℚ) (r : Int × MADNS)
    (hr : madns_cancel mp c tk = some r) :
    ∀ j ∈ mp.active, j ∈ r.2.active → r.2.queries[j]? = mp.queries[j]? := by
  unfold madns_cancel at hr
  rcases cancelScan_cases mp c tk mp.active r hr with ⟨h0, _⟩ |
    ⟨pre, k, post, qp, r1, hl, _, _, _, hd, hre⟩
  · intro j _ _
    rw [h0]
  · have hk : k ∈ mp.active := by rw [hl]; simp
    obtain ⟨_, _, hact, _, _, hqs, _⟩ := destroy_query_result mp k tk hwf hk r1 hd
    intro j _ hj
    rw [hre] at hj ⊢
    simp only at hj ⊢
    rw [hact] at hj
    have hjk : j ≠ k := fun e => by
      rw [e] at hj
      exact ((List.Nodup.mem_erase_iff (List.nodup_append.mp hwf.nodup).1).mp hj).1 rfl
    rw [hqs, set_getElem?_ne _ _ _ _ hjk]

theorem request_result (mp : MADNS) (hwf : WF mp) (name : List Nat) (ctx rnd : Nat) (tk : ℚ)
    (now : Int) (sent : Bool) (r : Int × MADNS × Option (List Nat))
    (hr : madns_request mp name ctx rnd tk now sent = some r) :
    ((ctx = 0 ∨ madns_ready mp = 0 ∨ strlen name > DNS_MAX_HOSTNAME) → r = (0, mp, none)) ∧
    (¬ (ctx = 0 ∨ madns_ready mp = 0 ∨ strlen name > DNS_MAX_HOSTNAME) →
      ∃ k qp, r.2.1.active = mp.active ++ [k] ∧ k ∉ mp.active ∧
        r.2.1.queries[k]? = some qp ∧ qp.ctx = ctx ∧ (qp.tid : Int) = r.1 ∧
        madns_ready r.2.1 = madns_ready mp - 1) ∧
    ∀ j ∈ mp.active, r.2.1.queries[j]? = mp.queries[j]? := by
  by_cases hadm : ctx = 0 ∨ madns_ready mp = 0 ∨ strlen name > DNS_MAX_HOSTNAME
  · have h0 : r = (0, mp, none) := by
      unfold madns_request at hr
      rw [if_pos hadm] at hr
      exact (Option.some.inj hr).symm
    refine ⟨fun _ => h0, fun hn => absurd hadm hn, ?_⟩
    intro j _
    rw [h0]
  · obtain ⟨k, rest, best, sv, e, pkt, hu, _, _, _, _, hreq, _⟩ :=
      request_admitted mp name ctx rnd tk now sent hwf hadm
    rw [hreq] at hr
    have hre := (Option.some.inj hr).symm
    have hku : k ∈ mp.unused := by rw [hu]; simp
    have hkl : k < mp.queries.length := by
      rw [hwf.qlen]; exact hwf.mem_lt k (by simp [hku])
    subst hre
    refine ⟨fun h => absurd h hadm, fun _ => ?_, ?_⟩
    · exact ⟨k, _, rfl, fun hka => hwf.not_both k hka hku, List.getElem?_set_self hkl,
        rfl, rfl, rfl⟩
    · intro j hj
      have hjk : j ≠ k := fun e => hwf.not_both k (e ▸ hj) hku
      exact set_getElem?_ne _ _ _ _ hjk

/-- C14: on a reachable handle,
(1) if `k` is the first slot of the active list whose context is `c`, `madns_cancel(mp, c)`
returns the TID stored in slot `k`, releases exactly that slot (it leaves the active list,
is zeroed and appended to the free list; the cache is untouched) and `madns_ready()` grows
by exactly 1;
(2) if no active query holds `c`, it returns 0 and changes nothing;
(3) a `madns_response` call that returns non-null increases `madns_ready()` by exactly 1,
and one that returns null leaves the handle as it is;
(4) the TID stored in a slot is the value that `madns_request` returned when it admitted
the query, with the context it was given; and
(5) no call changes a slot that stays on the active list. -/
theorem C14_cancel_and_ready (mp : MADNS) (h : Reachable mp) :
    (∀ (c : Nat) (tk : ℚ) (pre : List Nat) (k : Nat) (post : List Nat) (qp : QUERY),
      mp.active = pre ++ k :: post →
      (∀ j ∈ pre, ∀ q, mp.queries[j]? = some q → q.ctx ≠ c) →
      mp.queries[k]? = some qp → qp.ctx = c →
      ∃ mp', madns_cancel mp c tk = some ((qp.tid : Int), mp') ∧
        mp'.active = pre ++ post ∧ k ∉ mp'.active ∧
        mp'.queries = mp.queries.set k QUERY.zero ∧ mp'.unused = mp.unused ++ [k] ∧
        madns_ready mp' = madns_ready mp + 1 ∧
        mp'.cachev = mp.cachev ∧ mp'.limit = mp.limit ∧ mp'.count = mp.count) ∧
    (∀ (c : Nat) (tk : ℚ),
      (∀ k ∈ mp.active, ∀ q, mp.queries[k]? = some q → q.ctx ≠ c) →
      madns_cancel mp c tk = some (0, mp)) ∧
    (∀ (dgs : List DGRAM) (now : Int) (tk : ℚ) (r : RESULT),
      madns_response mp dgs now tk = some r →
      (r.ctx ≠ 0 → madns_ready r.mp = madns_ready mp + 1) ∧ (r.ctx = 0 → r.mp = mp) ∧
      ∀ j ∈ mp.active, j ∈ r.mp.active → r.mp.queries[j]? = mp.queries[j]?) ∧
    (∀ (name : List Nat) (ctx rnd : Nat) (tk : ℚ) (now : Int) (sent : Bool)
      (r : Int × MADNS × Option (List Nat)),
      madns_request mp name ctx rnd tk now sent = some r →
      (¬ (ctx = 0 ∨ madns_ready mp = 0 ∨ strlen name > DNS_MAX_HOSTNAME) →
        ∃ k qp, r.2.1.active = mp.active ++ [k] ∧ k ∉ mp.active ∧
          r.2.1.queries[k]? = some qp ∧ qp.ctx = ctx ∧ (qp.tid : Int) = r.1 ∧
          madns_ready r.2.1 = madns_ready mp - 1) ∧
      ∀ j ∈ mp.active, r.2.1.queries[j]? = mp.queries[j]?) ∧
    (∀ (c : Nat) (tk : ℚ) (r : Int × MADNS), madns_cancel mp c tk = some r →
      ∀ j ∈ mp.active, j ∈ r.2.active → r.2.queries[j]? = mp.queries[j]?) := by
  have hwf := reachable_wf mp h
  refine ⟨?_, ?_, ?_, ?_, ?_⟩
  · intro c tk pre k post qp ha hpre hqp hc
    exact cancel_hit mp hwf c tk pre k post qp ha hpre hqp hc
  · intro c tk hall
    unfold madns_cancel
    apply cancelScan_miss
    intro j hj
    obtain ⟨q, _, hq, _⟩ := hwf.active_ok j hj
    exact ⟨q, hq, hall j hj q hq⟩
  · intro dgs now tk r hr
    exact response_ready mp hwf dgs now tk r hr
  · intro name ctx rnd tk now sent r hr
    exact (request_result mp hwf name ctx rnd tk now sent r hr).2
  · intro c tk r hr
    exact cancel_keeps mp hwf c tk r hr

theorem C14_cancel_and_ready_witness :
    ∃ mp', madns_cancel handle1 77 1 = some ((4 : Int), mp') ∧
      mp'.active = [] ++ [] ∧ 0 ∉ mp'.active ∧
      mp'.queries = handle1.queries.set 0 QUERY.zero ∧ mp'.unused = handle1.unused ++ [0] ∧
      madns_ready mp' = madns_ready handle1 + 1 ∧
      mp'.cachev = handle1.cachev ∧ mp'.limit = handle1.limit ∧ mp'.count = handle1.count :=
  (C14_cancel_and_ready handle1 handle1_reachable).1 77 1 [] 0 []
    { ctx := 77, expires := 105, tid := 4, name := nameAB, server := some 0, started := 0 }
    rfl (fun j hj => absurd hj (List.not_mem_nil j)) rfl rfl

/-! ### The load of the cache table -/

theorem placeNew_load (mp mp' : MADNS) (now : Int) (i : Nat) (cip : CACHE_INFO)
    (h : Load mp) (hp : placeNew mp now i cip = some mp') : Load mp' := by
  obtain ⟨⟨n, hn4, hn⟩, hload⟩ := h
  have hL : (0 : Int) ≤ (mp.limit : Int) := Int.ofNat_nonneg _
  unfold placeNew at hp
  simp only at hp
  split at hp
  · rename_i hc
    have he := (Option.some.inj hp).symm
    subst he
    refine ⟨⟨n, hn4, hn⟩, ?_⟩
    simp only
    rcases hc with hc | hc
    · rw [Int.tdiv_eq_ediv (by omega) (by decide)] at hc
      omega
    · rw [Int.tdiv_eq_ediv hL (by decide)] at hc
      omega
  · rename_i hc
    rw [not_or, not_lt, not_lt] at hc
    have h34 : (0 : Int) ≤ Int.tdiv ((mp.limit : Int) * 3) 4 := by
      rw [Int.tdiv_eq_ediv (by omega) (by decide)]
      omega
    have hcnt : 0 ≤ (easySweep mp now).count := le_trans h34 hc.1
    obtain ⟨k, hk⟩ : ∃ k : Nat, (easySweep mp now).count = (k : Int) :=
      ⟨(easySweep mp now).count.toNat, (Int.toNat_of_nonneg hcnt).symm⟩
    have hk2 : k < 2 ^ k := Nat.lt_two_pow k
    have hfuel : Int.tdiv ((easySweep mp now).count * 4) 3
        < ((MIN_CACHE : Nat) : Int) * 2 ^ ((easySweep mp now).count.toNat + 1) := by
      rw [Int.tdiv_eq_ediv (by omega) (by decide), hk]
      simp only [Int.toNat_ofNat, MIN_CACHE]
      have : ((2 : Int) ^ (k + 1)) = 2 * ((2 ^ k : Nat) : Int) := by
        push_cast; ring
      rw [this]
      have hk3 : (k : Int) < ((2 ^ k : Nat) : Int) := by exact_mod_cast hk2
      omega
    obtain ⟨g1, m, g2⟩ := growLimit_spec (easySweep mp now).count
      ((easySweep mp now).count.toNat + 1) MIN_CACHE hfuel
    have g3 : growLimit (easySweep mp now).count ((easySweep mp now).count.toNat + 1) MIN_CACHE
        = 2 ^ (m + 4) := by
      rw [g2, MIN_CACHE]; ring
    rw [Int.tdiv_eq_ediv (by omega) (by decide)] at g1
    obtain ⟨r, hr, he⟩ := Option.map_eq_some'.mp hp
    unfold rebuild at hr
    simp only at hr
    obtain ⟨putp, _, hre⟩ := Option.map_eq_some'.mp hr
    subst he
    subst hre
    refine ⟨⟨m + 4, by omega, g3⟩, ?_⟩
    simp only
    omega

theorem update_cache_load (mp mp' : MADNS) (rp : RESPONSE) (now : Int) (h : Load mp)
    (hu : update_cache mp rp now = some mp') : Load mp' := by
  unfold update_cache at hu
  split at hu
  · exact absurd hu (by simp)
  · split at hu
    · have he := (Option.some.inj hu).symm
      subst he
      exact h
    · exact absurd hu (by simp)
  · simp only at hu
    split at hu
    · have he := (Option.some.inj hu).symm
      subst he
      exact h
    · exact placeNew_load mp mp' now _ _ h hu

theorem cached_inv (mp : MADNS) (h : Cached mp) : CacheInv mp ∧ Load mp := by
  induction h with
  | start mp hl hc hv =>
    refine ⟨⟨?_, ⟨4, ?_⟩, ?_, ?_⟩, ⟨4, le_refl 4, ?_⟩, ?_⟩
    · rw [hv, hl]; simp
    · rw [hl]; rfl
    · rw [hv, hc, occupied_replicate]; rfl
    · rw [hl, hc]; decide
    · rw [hl]; rfl
    · rw [hl, hc]; decide
  | step mp rp now mp' _ hu ih =>
    obtain ⟨mp2, hu2, hinv⟩ := update_cache_inv mp rp now ih.1
    rw [hu] at hu2
    have he : mp' = mp2 := Option.some.inj hu2
    subst he
    exact ⟨hinv, update_cache_load mp mp' rp now ih.2 hu⟩

/-- C16: in every cache state that `update_cache` calls produce from the empty table
(`limit = 16`, `count = 0`), `limit` is a power of two, `limit ≥ 16` and
`count ≤ 3/4 * limit` (as `4 * count ≤ 3 * limit`); the number of entries in the table is
at most `count`; and every further `update_cache` call returns. -/
theorem C16_cache_load (mp : MADNS) (h : Cached mp) :
    (∃ n, mp.limit = 2 ^ n) ∧ MIN_CACHE ≤ mp.limit ∧
    4 * mp.count ≤ 3 * (mp.limit : Int) ∧ (occupied mp.cachev : Int) ≤ mp.count ∧
    ∀ (rp : RESPONSE) (now : Int), ∃ mp', update_cache mp rp now = some mp' := by
  obtain ⟨hinv, ⟨n, hn4, hn⟩, hload⟩ := cached_inv mp h
  refine ⟨⟨n, hn⟩, ?_, hload, hinv.occ, ?_⟩
  · rw [hn, MIN_CACHE]
    calc 16 = 2 ^ 4 := rfl
      _ ≤ 2 ^ n := Nat.pow_le_pow_right (by decide) hn4
  · intro rp now
    obtain ⟨mp', hu, _⟩ := update_cache_inv mp rp now hinv
    exact ⟨mp', hu⟩

theorem fillNames_succ (n : Nat) :
    fillNames (n + 1) = (fillNames n).bind fun m =>
      update_cache m { ip := 0x0A000000 + n, ttl := 300, tid := 0, name := [97 + n] } 100 := by
  unfold fillNames
  rw [List.range_succ, List.foldl_append]
  rfl

theorem fillNames_cached (n : Nat) (m : MADNS) (h : fillNames n = some m) : Cached m := by
  induction n generalizing m with
  | zero =>
    have h0 : fillNames 0 = some handle0 := rfl
    rw [h0] at h
    rw [← Option.some.inj h]
    exact Cached.start handle0 rfl rfl rfl
  | succ n ih =>
    rw [fillNames_succ] at h
    cases hf : fillNames n with
    | none => rw [hf] at h; exact absurd h (by simp)
    | some m0 =>
      rw [hf] at h
      exact Cached.step m0 _ 100 m (ih m0 hf) h

/-- The table `cache12`: twelve calls of `update_cache` from the empty table, the last of
which rebuilds it; `limit` is 32, `count` is 12 and twelve slots are occupied. -/
theorem cache12_filled :
    fillNames 12 = some cache12 ∧
    (cache12.limit, cache12.count, occupied cache12.cachev) = (32, 12, 12) ∧
    (fillNames 11).map (fun m => (m.limit, m.count)) = some (16, 11) := by
  refine ⟨?_, ?_, ?_⟩ <;> decide

theorem C16_cache_load_witness :
    (∃ n, cache12.limit = 2 ^ n) ∧ MIN_CACHE ≤ cache12.limit ∧
    4 * cache12.count ≤ 3 * (cache12.limit : Int) ∧
    (occupied cache12.cachev : Int) ≤ cache12.count ∧
    ∀ (rp : RESPONSE) (now : Int), ∃ mp', update_cache cache12 rp now = some mp' :=
  C16_cache_load cache12 (fillNames_cached 12 cache12 (by decide))

/-! ### The size of a rebuilt table -/

theorem growLimit_min (count : Int) (fuel limit j : Nat)
    (hj : Int.tdiv (count * 4) 3 < (limit : Int) * 2 ^ j) :
    growLimit count fuel limit ≤ limit * 2 ^ j := by
  induction fuel generalizing limit j with
  | zero =>
    rw [growLimit]
    exact Nat.le_mul_of_pos_right _ (Nat.two_pow_pos j)
  | succ n ih =>
    rw [growLimit]
    split
    · rename_i hle
      cases j with
      | zero =>
        simp only [pow_zero, mul_one] at hj
        omega
      | succ j' =>
        have := ih (limit * 2) j' (by
          push_cast
          have e : ((limit : Int) * 2) * 2 ^ j' = (limit : Int) * 2 ^ (j' + 1) := by ring
          rw [e]
          exact hj)
        calc growLimit count n (limit * 2) ≤ limit * 2 * 2 ^ j' := this
          _ = limit * 2 ^ (j' + 1) := by ring
    · exact Nat.le_mul_of_pos_right _ (Nat.two_pow_pos j)

/-- C18 (amended): when `update_cache` finds no entry and no overwritable slot for the name
and, with `count` the entry count after the easy sweep (new entry included), takes the
rebuild branch, it returns a table whose `limit` is the smallest power of two that is
`> count * 4 / 3` (the quotient of the C expression, rounded down) and `>= 16`; `count` is
stored as the new entry count. -/
theorem C18_rebuild_limit (mp : MADNS) (rp : RESPONSE) (now : Int) (i : Nat)
    (h : CacheInv mp)
    (hprobe : updateProbe mp.cachev (mp.limit - 1) (fnvstr rp.name) rp.name now mp.limit
      (fnvstr rp.name) none = some (PROBE.empty i none))
    (hreb : ¬ ((easySweep mp now).count < Int.tdiv ((mp.limit : Int) * 3) 4
      ∨ (easySweep mp now).count < mp.count - Int.tdiv (mp.limit : Int) 4)) :
    ∃ mp' n, update_cache mp rp now = some mp' ∧ mp'.count = (easySweep mp now).count ∧
      4 ≤ n ∧ mp'.limit = 2 ^ n ∧ Int.tdiv (mp'.count * 4) 3 < ((2 ^ n : Nat) : Int) ∧
      ∀ m, 4 ≤ m → Int.tdiv (mp'.count * 4) 3 < ((2 ^ m : Nat) : Int) → 2 ^ n ≤ 2 ^ m := by
  obtain ⟨mp', hu, _⟩ := update_cache_inv mp rp now h
  have hu' := hu
  unfold update_cache at hu'
  rw [hprobe] at hu'
  simp only at hu'
  unfold placeNew at hu'
  simp only at hu'
  rw [if_neg hreb] at hu'
  obtain ⟨r, hr, he⟩ := Option.map_eq_some'.mp hu'
  unfold rebuild at hr
  simp only at hr
  obtain ⟨putp, _, hre⟩ := Option.map_eq_some'.mp hr
  have hL : (0 : Int) ≤ (mp.limit : Int) := Int.ofNat_nonneg _
  rw [not_or, not_lt, not_lt] at hreb
  have h34 : (0 : Int) ≤ Int.tdiv ((mp.limit : Int) * 3) 4 := by
    rw [Int.tdiv_eq_ediv (by omega) (by decide)]
    omega
  have hcnt : 0 ≤ (easySweep mp now).count := le_trans h34 hreb.1
  obtain ⟨k, hk⟩ : ∃ k : Nat, (easySweep mp now).count = (k : Int) :=
    ⟨(easySweep mp now).count.toNat, (Int.toNat_of_nonneg hcnt).symm⟩
  have hk2 : k < 2 ^ k := Nat.lt_two_pow k
  have hfuel : Int.tdiv ((easySweep mp now).count * 4) 3
      < ((MIN_CACHE : Nat) : Int) * 2 ^ ((easySweep mp now).count.toNat + 1) := by
    rw [Int.tdiv_eq_ediv (by omega) (by decide), hk]
    simp only [Int.toNat_ofNat, MIN_CACHE]
    have : ((2 : Int) ^ (k + 1)) = 2 * ((2 ^ k : Nat) : Int) := by
      push_cast; ring
    rw [this]
    have hk3 : (k : Int) < ((2 ^ k : Nat) : Int) := by exact_mod_cast hk2
    omega
  obtain ⟨g1, m, g2⟩ := growLimit_spec (easySweep mp now).count
    ((easySweep mp now).count.toNat + 1) MIN_CACHE hfuel
  have g3 : growLimit (easySweep mp now).count ((easySweep mp now).count.toNat + 1) MIN_CACHE
      = 2 ^ (m + 4) := by
    rw [g2, MIN_CACHE]; ring
  subst he
  subst hre
  refine ⟨_, m + 4, hu, rfl, by omega, g3, ?_, ?_⟩
  · simp only
    rw [← g3]
    exact g1
  · intro m' hm' hlt
    simp only at hlt
    rw [← g3]
    have hj : Int.tdiv ((easySweep mp now).count * 4) 3
        < ((MIN_CACHE : Nat) : Int) * 2 ^ (m' - 4) := by
      have e : ((2 ^ m' : Nat) : Int) = ((MIN_CACHE : Nat) : Int) * 2 ^ (m' - 4) := by
        have : m' = (m' - 4) + 4 := by omega
        rw [MIN_CACHE]
        conv_lhs => rw [this]
        push_cast
        ring
      rw [← e]
      exact hlt
    have := growLimit_min (easySweep mp now).count ((easySweep mp now).count.toNat + 1)
      MIN_CACHE (m' - 4) hj
    calc growLimit (easySweep mp now).count ((easySweep mp now).count.toNat + 1) MIN_CACHE
        ≤ MIN_CACHE * 2 ^ (m' - 4) := this
      _ = 2 ^ m' := by
        have e4 : m' = (m' - 4) + 4 := by omega
        rw [MIN_CACHE]
        conv_rhs => rw [e4]
        ring

theorem C18_rebuild_limit_witness :
    ∃ mp' n, update_cache cache11 resp12 100 = some mp' ∧
      mp'.count = (easySweep cache11 100).count ∧
      4 ≤ n ∧ mp'.limit = 2 ^ n ∧ Int.tdiv (mp'.count * 4) 3 < ((2 ^ n : Nat) : Int) ∧
      ∀ m, 4 ≤ m → Int.tdiv (mp'.count * 4) 3 < ((2 ^ m : Nat) : Int) → 2 ^ n ≤ 2 ^ m :=
  C18_rebuild_limit cache11 resp12 100 10
    ⟨by decide, ⟨4, by decide⟩, by decide, by decide⟩ (by decide) (by decide)

/-- C18 (as stated) fails: after 11 distinct live names the table has `limit = 16` and
`count = 11`. The 12th name makes `count = 12`, and `update_cache` rebuilds with
`count = 12`: the loop `for (limit = MIN_CACHE; limit <= count * 4 / 3; limit <<= 1)`
leaves `limit = 32`, although `count * 4 / 3 = 16` and 16 is a power of two that is
`>= count * 4 / 3` and `>= 16`. -/
theorem C18_counterexample :
    (fillNames 11).map (fun m => (m.limit, m.count, occupied m.cachev)) = some (16, 11, 11) ∧
    (fillNames 12).map (fun m => (m.limit, m.count, occupied m.cachev)) = some (32, 12, 12) ∧
    (update_cache cache11 resp12 100).map (fun m => (m.limit, m.count)) = some (32, 12) ∧
    growLimit 12 13 MIN_CACHE = 32 ∧
    Int.tdiv (12 * 4) 3 = 16 ∧ (16 : Nat) = 2 ^ 4 ∧ MIN_CACHE ≤ 16 := by
  refine ⟨?_, ?_, ?_, ?_, ?_, ?_, ?_⟩ <;> decide

/-! ### The owner name of an answer -/

set_option maxRecDepth 1000000 in
/-- C13: in the reply `chainReply [0xC1, 0x13]` the owner name of the A record is the
compression pointer to offset 0x113 = 275, where the name "c.d" stands. Its first byte is
0xC1, not 0xC0, so `parse_response` does not take it for a pointer, reads the record at
the wrong place and fails. The same reply with the pointer 0xC0 0x0C or with the literal
name "c.d" as owner yields 9.9.9.9 with TTL 300. -/
theorem C13_pointer_byte :
    (chainReply [0xC1, 0x13]).length = 296 ∧
    ((chainReply [0xC1, 0x13]).drop 275).take 5 = rawLabels [[99], [100]] ++ [0] ∧
    (parse_response (chainReply [0xC1, 0x13]) 296).map Prod.fst = some false ∧
    parse_response (chainReply [0xC0, 12]) 296
      = some (true, { ip := 0x09090909, ttl := 300, tid := 4, name := nameAB }) ∧
    parse_response (chainReply (rawLabels [[99], [100]] ++ [0])) 299
      = some (true, { ip := 0x09090909, ttl := 300, tid := 4, name := nameAB }) := by
  refine ⟨?_, ?_, ?_, ?_, ?_⟩ <;> decide

/-! ### The order of the active list -/

/-- C15: after a request that is sent (expires = 105) and a request that `send_request`
cannot encode (expires stays 0), both made at time 100, the active list holds the unsent
query behind the sent one: the list is not in ascending order of `expires`, and
`madns_expires()` returns 5 = 105 - 100 although the smallest `expires - now` is -100.
`madns_response` at time 100 returns null: the query with `expires = 0` is not returned
before the head is. -/
theorem C15_unsent_query_at_tail :
    unsentRun.map (fun m => (m.active, activeExpires m)) = some ([0, 1], [105, 0]) ∧
    unsentRun.bind (fun m => madns_expires m 100) = some 5 ∧
    unsentRun.map (fun m => (activeExpires m).map (fun e => e - 100)) = some [5, -100] ∧
    unsentRun.bind (fun m => (madns_response m [] 100 0).map (fun r => (r.ctx, r.mp.active)))
      = some (0, [0, 1]) := by
  refine ⟨?_, ?_, ?_, ?_⟩ <;> decide

/-! ### Names in the cache table -/

theorem keyCount_zero_of_not_mem (l : List (Option CACHE_INFO)) (κ : List Nat)
    (h : κ ∉ entryKeys l) : keyCount l κ = 0 := by
  induction l with
  | nil => rfl
  | cons a as ih =>
    cases a with
    | none =>
      have := ih (by simpa [entryKeys] using h)
      simpa [keyCount, entryKey] using this
    | some e =>
      simp only [entryKeys, List.filterMap_cons, Option.map_some', List.mem_cons, not_or] at h
      have := ih h.2
      have hne : ¬ lowerKey e.name = κ := fun hh => h.1 hh.symm
      simp only [keyCount, List.countP_cons, entryKey, hne, decide_False] at this ⊢
      simpa using this

theorem keyCount_le_one_of_nodup (l : List (Option CACHE_INFO)) (κ : List Nat)
    (h : (entryKeys l).Nodup) : keyCount l κ ≤ 1 := by
  induction l with
  | nil => simp [keyCount]
  | cons a as ih =>
    cases a with
    | none =>
      have := ih (by simpa [entryKeys] using h)
      simpa [keyCount, entryKey] using this
    | some e =>
      simp only [entryKeys, List.filterMap_cons, Option.map_some', List.nodup_cons] at h
      by_cases hk : lowerKey e.name = κ
      · have h0 := keyCount_zero_of_not_mem as κ (by rw [← hk]; exact h.1)
        simp only [keyCount, List.countP_cons, entryKey, hk, decide_True] at h0 ⊢
        simp only [if_true]
        omega
      · have := ih h.2
        simp only [keyCount, List.countP_cons, entryKey, hk, decide_False] at this ⊢
        simpa using this

theorem keyCount_set (l : List (Option CACHE_INFO)) (κ : List Nat) (i : Nat)
    (old new : Option CACHE_INFO) (h : l[i]? = some old) :
    keyCount (l.set i new) κ + (if entryKey old κ = true then 1 else 0)
      = keyCount l κ + (if entryKey new κ = true then 1 else 0) := by
  induction l generalizing i with
  | nil => simp at h
  | cons a as ih =>
    cases i with
    | zero =>
      simp only [List.getElem?_cons_zero, Option.some.injEq] at h
      subst h
      simp only [List.set_cons_zero, keyCount, List.countP_cons]
      omega
    | succ j =>
      simp only [List.getElem?_cons_succ] at h
      have := ih j h
      simp only [List.set_cons_succ, keyCount, List.countP_cons] at this ⊢
      omega

theorem keyCount_pos (l : List (Option CACHE_INFO)) (κ : List Nat) (j : Nat) (e : CACHE_INFO)
    (he : l[j]? = some (some e)) (hk : lowerKey e.name = κ) : 1 ≤ keyCount l κ := by
  unfold keyCount
  apply List.countP_pos_iff.mpr
  exact ⟨some e, List.getElem?_mem he, by simp [entryKey, hk]⟩

theorem keyCount_two (l : List (Option CACHE_INFO)) (κ : List Nat) (i j : Nat)
    (e1 e2 : CACHE_INFO) (hij : i ≠ j) (h1 : l[i]? = some (some e1))
    (h2 : l[j]? = some (some e2)) (k1 : lowerKey e1.name = κ) (k2 : lowerKey e2.name = κ) :
    2 ≤ keyCount l κ := by
  have hs := keyCount_set l κ i (some e1) none h1
  have h2' : (l.set i none)[j]? = some (some e2) := by
    rw [List.getElem?_set_ne hij]; exact h2
  have hp := keyCount_pos (l.set i none) κ j e2 h2' k2
  simp only [entryKey, k1, decide_True, if_true] at hs
  simp at hs
  omega

theorem keyCount_le_of_entries (l1 l2 : List (Option CACHE_INFO)) (κ : List Nat)
    (h : ∀ (i : Nat) (e : CACHE_INFO), l1[i]? = some (some e) → l2[i]? = some (some e)) :
    keyCount l1 κ ≤ keyCount l2 κ := by
  induction l1 generalizing l2 with
  | nil => simp [keyCount]
  | cons a as ih =>
    cases l2 with
    | nil =>
      cases a with
      | none =>
        have := ih [] (fun i e he => by
          have := h (i + 1) e (by simpa using he)
          simp at this)
        simpa [keyCount, entryKey] using this
      | some e =>
        have := h 0 e (by simp)
        simp at this
    | cons b bs =>
      have htail := ih bs (fun i e he => by
        have := h (i + 1) e (by simpa using he)
        simpa using this)
      cases a with
      | none =>
        simp only [keyCount, List.countP_cons, entryKey] at htail ⊢
        simp only [Bool.false_eq_true, if_false, Nat.add_zero]
        omega
      | some e =>
        have hb := h 0 e (by simp)
        simp only [List.getElem?_cons_zero, Option.some.injEq] at hb
        subst hb
        simp only [keyCount, List.countP_cons] at htail ⊢
        omega

theorem keyCount_replicate (k : Nat) (κ : List Nat) :
    keyCount (List.replicate k none) κ = 0 := by
  induction k with
  | zero => rfl
  | succ m ih => simp [keyCount, List.replicate_succ, entryKey]

theorem freeSlot_path (putp : List (Option CACHE_INFO)) (n fuel i j : Nat)
    (h : freeSlot putp (2 ^ n - 1) fuel i = some j) :
    ∃ s, s < fuel ∧ j = (i + s) % 2 ^ n ∧ putp[j]? = some none ∧
      ∀ u, u < s → ∃ e : CACHE_INFO, putp[(i + u) % 2 ^ n]? = some (some e) := by
  induction fuel generalizing i with
  | zero => simp [freeSlot] at h
  | succ f ih =>
    rw [freeSlot, mask_eq_mod] at h
    cases hc : putp[i % 2 ^ n]? with
    | none => rw [hc] at h; exact absurd h (by simp)
    | some o =>
      rw [hc] at h
      cases o with
      | none =>
        simp only [Option.some.injEq] at h
        subst h
        exact ⟨0, Nat.succ_pos _, rfl, hc, fun u hu => absurd hu (Nat.not_lt_zero u)⟩
      | some e =>
        simp only at h
        obtain ⟨s, hs, hj, hfree, hpath⟩ := ih (i + 1) h
        refine ⟨s + 1, by omega, ?_, hfree, ?_⟩
        · rw [hj]; congr 1; omega
        · intro u hu
          cases u with
          | zero => exact ⟨e, hc⟩
          | succ u' =>
            obtain ⟨e', he'⟩ := hpath u' (by omega)
            refine ⟨e', ?_⟩
            have : (i + (u' + 1)) % 2 ^ n = (i + 1 + u') % 2 ^ n := by congr 1; omega
            rw [this]; exact he'

theorem rehash_places (now : Int) (n : Nat) (old putp res : List (Option CACHE_INFO))
    (h : rehash now (2 ^ n) old putp = some res) (j : Nat) (e : CACHE_INFO)
    (he : old[j]? = some (some e)) (hlive : e.expires > now) :
    ∃ s, s < 2 ^ n ∧ res[(e.hash + s) % 2 ^ n]? = some (some e) ∧
      ∀ u, u < s → ∃ e' : CACHE_INFO, res[(e.hash + u) % 2 ^ n]? = some (some e') := by
  induction old generalizing putp j with
  | nil => simp at he
  | cons a as ih =>
    cases a with
    | none =>
      rw [rehash] at h
      cases j with
      | zero => simp at he
      | succ j' => exact ih putp h j' (by simpa using he)
    | some c =>
      rw [rehash] at h
      split at h
      · rename_i hexp
        cases j with
        | zero =>
          simp only [List.getElem?_cons_zero, Option.some.injEq] at he
          subst he
          omega
        | succ j' => exact ih putp h j' (by simpa using he)
      · split at h
        · exact absurd h (by simp)
        · rename_i k hk
          cases j with
          | zero =>
            simp only [List.getElem?_cons_zero, Option.some.injEq] at he
            subst he
            obtain ⟨s, hs, hkj, hfree, hpath⟩ := freeSlot_path putp n (2 ^ n) c.hash k hk
            have hkl : k < putp.length := getElem?_lt_length _ _ _ hfree
            refine ⟨s, hs, ?_, ?_⟩
            · apply rehash_keeps now (2 ^ n) as _ res h
              rw [← hkj]
              exact List.getElem?_set_self hkl
            · intro u hu
              obtain ⟨e', he'⟩ := hpath u hu
              refine ⟨e', rehash_keeps now (2 ^ n) as _ res h _ e' ?_⟩
              have hne : k ≠ (c.hash + u) % 2 ^ n := by
                intro hh
                rw [← hh, hfree] at he'
                exact absurd he' (by simp)
              rw [List.getElem?_set_ne hne]
              exact he'
          | succ j' => exact ih _ h j' (by simpa using he)

theorem rehash_origin (now : Int) (limit : Nat) (old putp res : List (Option CACHE_INFO))
    (h : rehash now limit old putp = some res) (i : Nat) (e : CACHE_INFO)
    (he : res[i]? = some (some e)) :
    putp[i]? = some (some e) ∨ ∃ j : Nat, old[j]? = some (some e) ∧ e.expires > now := by
  induction old generalizing putp with
  | nil =>
    rw [rehash] at h
    rw [← Option.some.inj h] at he
    exact Or.inl he
  | cons a as ih =>
    cases a with
    | none =>
      rw [rehash] at h
      rcases ih putp h with h1 | ⟨j, hj, hl⟩
      · exact Or.inl h1
      · exact Or.inr ⟨j + 1, by simpa using hj, hl⟩
    | some c =>
      rw [rehash] at h
      split at h
      · rcases ih putp h with h1 | ⟨j, hj, hl⟩
        · exact Or.inl h1
        · exact Or.inr ⟨j + 1, by simpa using hj, hl⟩
      · rename_i hexp
        split at h
        · exact absurd h (by simp)
        · rename_i k hk
          rcases ih _ h with h1 | ⟨j, hj, hl⟩
          · by_cases hki : k = i
            · subst hki
              have hkl : k < putp.length :=
                getElem?_lt_length _ _ _ (freeSlot_sound _ _ _ _ _ hk)
              rw [List.getElem?_set_self hkl] at h1
              simp only [Option.some.injEq] at h1
              subst h1
              exact Or.inr ⟨0, by simp, by omega⟩
            · rw [List.getElem?_set_ne hki] at h1
              exact Or.inl h1
          · exact Or.inr ⟨j + 1, by simpa using hj, hl⟩

theorem rehash_keyCount (now : Int) (limit : Nat) (old putp res : List (Option CACHE_INFO))
    (h : rehash now limit old putp = some res) (κ : List Nat) :
    keyCount res κ ≤ keyCount putp κ + keyCount old κ := by
  induction old generalizing putp with
  | nil =>
    rw [rehash] at h
    rw [← Option.some.inj h]
    omega
  | cons a as ih =>
    cases a with
    | none =>
      rw [rehash] at h
      have := ih putp h
      simp only [keyCount, List.countP_cons, entryKey] at this ⊢
      omega
    | some c =>
      rw [rehash] at h
      split at h
      · have := ih putp h
        simp only [keyCount, List.countP_cons] at this ⊢
        omega
      · split at h
        · exact absurd h (by simp)
        · rename_i k hk
          have hfree := freeSlot_sound _ _ _ _ _ hk
          have hs := keyCount_set putp κ k none (some c) hfree
          have := ih _ h
          simp only [keyCount, List.countP_cons, entryKey] at this hs ⊢
          simp only [Bool.false_eq_true, if_false, Nat.add_zero] at hs
          omega

/-! ### What a rebuild keeps -/

theorem update_cache_rebuild (mp : MADNS) (rp : RESPONSE) (now : Int) (i : Nat)
    (h : CacheInv mp)
    (hprobe : updateProbe mp.cachev (mp.limit - 1) (fnvstr rp.name) rp.name now mp.limit
      (fnvstr rp.name) none = some (PROBE.empty i none))
    (hreb : ¬ ((easySweep mp now).count < Int.tdiv ((mp.limit : Int) * 3) 4
      ∨ (easySweep mp now).count < mp.count - Int.tdiv (mp.limit : Int) 4)) :
    ∃ (m : Nat) (res : List (Option CACHE_INFO)), 4 ≤ m ∧
      rehash now (2 ^ m) (easySweep mp now).cachev
        ((List.replicate (2 ^ m) none).set ((newEntry rp now).hash % 2 ^ m)
          (some (newEntry rp now))) = some res ∧
      update_cache mp rp now = some
        { mp with limit := 2 ^ m, cachev := res, count := (easySweep mp now).count } := by
  obtain ⟨mp', hu, _⟩ := update_cache_inv mp rp now h
  have hu' := hu
  unfold update_cache at hu'
  rw [hprobe] at hu'
  simp only at hu'
  unfold placeNew at hu'
  simp only at hu'
  rw [if_neg hreb] at hu'
  obtain ⟨r, hr, he⟩ := Option.map_eq_some'.mp hu'
  unfold rebuild at hr
  simp only at hr
  obtain ⟨putp, hrh, hre⟩ := Option.map_eq_some'.mp hr
  have hL : (0 : Int) ≤ (mp.limit : Int) := Int.ofNat_nonneg _
  rw [not_or, not_lt, not_lt] at hreb
  have h34 : (0 : Int) ≤ Int.tdiv ((mp.limit : Int) * 3) 4 := by
    rw [Int.tdiv_eq_ediv (by omega) (by decide)]
    omega
  have hcnt : 0 ≤ (easySweep mp now).count := le_trans h34 hreb.1
  obtain ⟨g, hg⟩ : ∃ g, g = growLimit (easySweep mp now).count
      ((easySweep mp now).count.toNat + 1) MIN_CACHE := ⟨_, rfl⟩
  obtain ⟨m0, g2⟩ := growLimit_pow (easySweep mp now).count
    ((easySweep mp now).count.toNat + 1) MIN_CACHE
  have g3 : g = 2 ^ (m0 + 4) := by
    rw [hg, g2, MIN_CACHE]; ring
  rw [← hg] at hrh hre
  rw [g3, mask_eq_mod] at hrh
  rw [g3] at hre
  refine ⟨m0 + 4, putp, by omega, hrh, ?_⟩
  rw [hu, ← he, ← hre]

theorem rebuild_keyCount (mp : MADNS) (rp : RESPONSE) (now : Int) (m : Nat)
    (res : List (Option CACHE_INFO))
    (hrh : rehash now (2 ^ m) (easySweep mp now).cachev
      ((List.replicate (2 ^ m) none).set ((newEntry rp now).hash % 2 ^ m)
        (some (newEntry rp now))) = some res)
    (huniq : (entryKeys mp.cachev).Nodup) (hfresh : lowerKey rp.name ∉ entryKeys mp.cachev)
    (κ : List Nat) : keyCount res κ ≤ 1 := by
  have h1 := rehash_keyCount now (2 ^ m) _ _ res hrh κ
  have hidx : (newEntry rp now).hash % 2 ^ m < 2 ^ m := Nat.mod_lt _ (Nat.two_pow_pos m)
  have h2 := keyCount_set (List.replicate (2 ^ m) none) κ ((newEntry rp now).hash % 2 ^ m)
    none (some (newEntry rp now)) (by simp [hidx])
  rw [keyCount_replicate] at h2
  have h3 := keyCount_le_of_entries (easySweep mp now).cachev mp.cachev κ
    (easySweep_keeps mp now).2
  have h4 : keyCount mp.cachev κ ≤ 1 := keyCount_le_one_of_nodup mp.cachev κ huniq
  by_cases hk : lowerKey rp.name = κ
  · have h5 : keyCount mp.cachev κ = 0 :=
      keyCount_zero_of_not_mem mp.cachev κ (by rw [← hk]; exact hfresh)
    simp only [entryKey, Bool.false_eq_true, if_false, Nat.add_zero] at h2
    split at h2 <;> omega
  · have h6 : entryKey (some (newEntry rp now)) κ = false := by
      simp only [entryKey, newEntry, lowerKey_cstr, hk, decide_False]
    rw [h6] at h2
    simp only [entryKey, Bool.false_eq_true, if_false, Nat.add_zero] at h2
    omega

/-- C17 (amended): let the table hold at most one entry per name (names compared ignoring
case) and none for the name of the call, and let `update_cache` take its rebuild branch
for reply data with a TTL `≥ 0`. Then the call returns, and afterwards
(1) every name that `madns_lookup` resolved just before the call, through an entry that
does not expire in the very second of the call, resolves to the same address;
(2) the new name, if it is not an IPv4 literal and has at most 255 bytes, resolves to the
address of the call;
(3) no entry with `expires < now` is in the new table. -/
theorem C17_rebuild_keeps_lookups (inet_addr : List Nat → Nat) (mp : MADNS) (rp : RESPONSE)
    (now : Int) (i : Nat) (h : CacheInv mp)
    (huniq : (entryKeys mp.cachev).Nodup) (hfresh : lowerKey rp.name ∉ entryKeys mp.cachev)
    (hprobe : updateProbe mp.cachev (mp.limit - 1) (fnvstr rp.name) rp.name now mp.limit
      (fnvstr rp.name) none = some (PROBE.empty i none))
    (hreb : ¬ ((easySweep mp now).count < Int.tdiv ((mp.limit : Int) * 3) 4
      ∨ (easySweep mp now).count < mp.count - Int.tdiv (mp.limit : Int) 4))
    (httl : 0 ≤ rp.ttl) :
    ∃ mp', update_cache mp rp now = some mp' ∧
      (∀ (name : List Nat) (ip : Nat), madns_lookup inet_addr mp name now = some ip →
        ip ≠ INADDR_ANY →
        (∀ (j : Nat) (e : CACHE_INFO), mp.cachev[j]? = some (some e) →
          strcasecmp e.name name = 0 → e.expires ≠ now) →
        madns_lookup inet_addr mp' name now = some ip) ∧
      (inet_addr rp.name = INADDR_NONE → strlen rp.name ≤ DNS_MAX_HOSTNAME →
        madns_lookup inet_addr mp' rp.name now = some rp.ip) ∧
      (∀ (j : Nat) (e : CACHE_INFO), mp'.cachev[j]? = some (some e) → now ≤ e.expires) := by
  obtain ⟨m, res, _, hrh, hu⟩ := update_cache_rebuild mp rp now i h hprobe hreb
  have hcount := rebuild_keyCount mp rp now m res hrh huniq hfresh
  have hidx : (newEntry rp now).hash % 2 ^ m < 2 ^ m := Nat.mod_lt _ (Nat.two_pow_pos m)
  have hnew : res[(newEntry rp now).hash % 2 ^ m]? = some (some (newEntry rp now)) := by
    apply rehash_keeps now (2 ^ m) _ _ res hrh
    exact List.getElem?_set_self (by simpa using hidx)
  refine ⟨_, hu, ?_, ?_, ?_⟩
  · intro name ip hlook hip hlive
    unfold madns_lookup at hlook ⊢
    by_cases hlit : inet_addr name ≠ INADDR_NONE
    · rw [if_pos hlit] at hlook ⊢
      exact hlook
    · rw [if_neg hlit] at hlook ⊢
      by_cases hlong : strlen name > DNS_MAX_HOSTNAME
      · rw [if_pos hlong] at hlook ⊢
        exact hlook
      · rw [if_neg hlong] at hlook ⊢
        simp only
        rcases lookupProbe_sound _ _ _ _ _ _ _ _ hlook with h0 | ⟨j, e, he, hh, hge, hcmp, hei⟩
        · exact absurd h0 hip
        · have hgt : e.expires > now := by
            have := hlive j e he hcmp
            omega
          have hsw := (easySweep_keeps mp now).1 j e he hgt
          obtain ⟨s, hs, hend, hpath⟩ := rehash_places now m _ _ res hrh j e hsw hgt
          rw [hh] at hend hpath
          rw [← hei]
          apply lookupProbe_path res m _ _ _ s (2 ^ m) _ e hs
          · intro u hu'
            obtain ⟨e', he'⟩ := hpath u hu'
            refine ⟨e', he', ?_⟩
            intro hm
            have k1 : lowerKey e'.name = lowerKey name :=
              (strcasecmp_eq_zero_iff _ _).mp hm.2.2
            have k2 : lowerKey e.name = lowerKey name :=
              (strcasecmp_eq_zero_iff _ _).mp hcmp
            have hne := residues_ne (2 ^ m) (fnvstr name) u s hu' hs
            have := keyCount_two res (lowerKey name) _ _ e' e hne he' hend k1 k2
            have := hcount (lowerKey name)
            omega
          · exact hend
          · exact ⟨hh, hge, hcmp⟩
  · intro hlit hlen
    unfold madns_lookup
    rw [if_neg (by simp [hlit]), if_neg (by omega)]
    simp only
    have hm : (newEntry rp now).hash = fnvstr rp.name ∧ (newEntry rp now).expires ≥ now ∧
        strcasecmp (newEntry rp now).name rp.name = 0 := by
      refine ⟨rfl, ?_, ?_⟩
      · simp only [newEntry]; omega
      · rw [strcasecmp_eq_zero_iff]
        simp only [newEntry, lowerKey_cstr]
    have hipn : (newEntry rp now).ip = rp.ip := rfl
    rw [← hipn]
    apply lookupProbe_path res m _ _ _ 0 (2 ^ m) _ (newEntry rp now) (Nat.two_pow_pos m)
    · intro u hu'; omega
    · rw [Nat.add_zero, ← hm.1]; exact hnew
    · exact hm
  · intro j e he
    simp only at he
    rcases rehash_origin now (2 ^ m) _ _ res hrh j e he with h1 | ⟨j', _, hl⟩
    · rw [List.getElem?_set] at h1
      split at h1
      · split at h1
        · simp only [Option.some.injEq] at h1
          rw [← h1]
          simp only [newEntry]
          omega
        · exact absurd h1 (by simp)
      · rw [List.getElem?_replicate] at h1
        split at h1 <;> exact absurd h1 (by simp)
    · omega

theorem C17_rebuild_keeps_lookups_witness :
    ∃ mp', update_cache cache11 resp12 100 = some mp' ∧
      (∀ (name : List Nat) (ip : Nat), madns_lookup noLiteral cache11 name 100 = some ip →
        ip ≠ INADDR_ANY →
        (∀ (j : Nat) (e : CACHE_INFO), cache11.cachev[j]? = some (some e) →
          strcasecmp e.name name = 0 → e.expires ≠ 100) →
        madns_lookup noLiteral mp' name 100 = some ip) ∧
      (noLiteral resp12.name = INADDR_NONE → strlen resp12.name ≤ DNS_MAX_HOSTNAME →
        madns_lookup noLiteral mp' resp12.name 100 = some resp12.ip) ∧
      (∀ (j : Nat) (e : CACHE_INFO), mp'.cachev[j]? = some (some e) → 100 ≤ e.expires) :=
  C17_rebuild_keeps_lookups noLiteral cache11 resp12 100 10
    ⟨by decide, ⟨4, by decide⟩, by decide, by decide⟩ (by decide) (by decide) (by decide)
    (by decide) (by decide)

/-- C17 (as stated) fails: the table `cache11` holds 11 live names in 16 slots; the call of
`update_cache` for the name "1.2.3.4" with the address 9.9.9.9 rebuilds it (`limit` goes
from 16 to 32), but `madns_lookup` of the newly inserted name returns the literal address
1.2.3.4, not 9.9.9.9. -/
theorem C17_counterexample :
    cache11.limit = 16 ∧
    (update_cache cache11 resp1234 100).map
        (fun m => (m.limit, madns_lookup dottedQuad m name1234 100))
      = some (32, some 0x01020304) ∧
    dottedQuad name1234 = 0x01020304 ∧ resp1234.ip = 0x09090909 := by
  refine ⟨?_, ?_, ?_, ?_⟩ <;> decide

/-- A rebuild drops an entry that expires in the second of the call: in `cacheShort` the
name "a" expires at time 105 and `madns_lookup` resolves it at time 105 (`expires >= now`).
The call of `update_cache` for a twelfth name at time 105 rebuilds the table, the rebuild
drops every entry with `expires <= now`, and "a" resolves to `INADDR_ANY` afterwards. The
new `count` is 12 while the table holds 11 entries. -/
theorem rebuild_drops_entry_expiring_now :
    madns_lookup noLiteral cacheShort [97] 105 = some 0x0A000000 ∧
    (update_cache cacheShort resp12 105).map
        (fun m => (m.limit, m.count, occupied m.cachev, madns_lookup noLiteral m [97] 105))
      = some (32, 12, 11, some INADDR_ANY) := by
  refine ⟨?_, ?_⟩ <;> decide

/-! ### An unsent query behind a sent one -/

/-- C21: on `handle0`, "a.b" is requested with context 77 and sent (expires = 105), then a
name that `send_request` cannot encode is requested with context 78, both at time 100. The
slot of the second request keeps `expires = 0` and stands behind the first one on the
active list. `madns_response` without a datagram returns null at time 100 and at time 104
and leaves both queries active; at time 105 it returns the context 77 of the head, and
only the call after that returns the context 78. When the unsent query is the only active
one, the next `madns_response` returns its context with `INADDR_ANY`. -/
theorem C21_unsent_query_waits :
    unsentRun.map (fun m => (m.active, (m.queries[1]?).map (fun q => (q.ctx, q.expires))))
      = some ([0, 1], some (78, 0)) ∧
    unsentRun.bind (fun m => (madns_response m [] 100 1).map
      (fun r => (r.ctx, r.ip, r.mp.active))) = some (0, none, [0, 1]) ∧
    unsentRun.bind (fun m => (madns_response m [] 104 1).map
      (fun r => (r.ctx, r.ip, r.mp.active))) = some (0, none, [0, 1]) ∧
    unsentRun.bind (fun m => (madns_response m [] 105 1).bind fun r =>
      (madns_response r.mp [] 105 1).map fun r2 => ((r.ctx, r.ip), (r2.ctx, r2.ip)))
      = some ((77, some INADDR_ANY), (78, some INADDR_ANY)) ∧
    (madns_request handle0 longLabel 78 0 0 100 true).bind (fun r1 =>
      (madns_response r1.2.1 [] 100 1).map (fun r => (r.ctx, r.ip, r.mp.active)))
      = some (78, some INADDR_ANY, []) := by
  refine ⟨?_, ?_, ?_, ?_, ?_⟩ <;> decide

/-! ### The easy sweep and the slot of the new entry -/

/-- C24: eleven one-letter names are cached at time 100, "e" with TTL 5 (it stands in its
home slot 9, behind "j" in slot 8), the others with TTL 300; the table has
the open-addressing property and `madns_lookup` resolves "e" at time 105. The call of
`update_cache` for "l" (home slot 8) at time 105 finds the free slot 10 behind "j" and
"e"; the easy sweep then removes "e", which expires at 105, and the new entry is stored in
slot 10 behind the emptied slot 9. The table is not rebuilt (`limit` stays 16), slot 10
has lost its probe path, and `madns_lookup` of "l" at the same instant returns
`INADDR_ANY`. -/
theorem C24_sweep_cuts_new_entry :
    (fillShortAt 4 11).map (fun m => (openAddressed m.cachev,
        madns_lookup noLiteral m [101] 105)) = some (true, some 0x0A000004) ∧
    ((fillShortAt 4 11).bind fun m => update_cache m resp12 105).map
        (fun m => (m.limit, m.count)) = some (16, 11) ∧
    ((fillShortAt 4 11).bind fun m => update_cache m resp12 105).map
        (fun m => [8, 9, 10].map fun k => (m.cachev[k]?).join.map fun e => e.name)
      = some [some [106], none, some [108]] ∧
    ((fillShortAt 4 11).bind fun m => update_cache m resp12 105).map
        (fun m => (probeReach m.cachev 10, openAddressed m.cachev,
          madns_lookup noLiteral m [108] 105))
      = some (false, false, some INADDR_ANY) ∧
    fnvstr [108] % 16 = 8 ∧ resp12.name = [108] ∧ resp12.ip = 0x0A00000B := by
  refine ⟨?_, ?_, ?_, ?_, ?_, ?_, ?_⟩ <;> decide

/-! ### Reads of `parse_response` behind the packet -/

/-- C25: `parse_response` reads behind the end of the packet. On the 34-byte reply
`shortRdata` alone (a buffer of exactly `len` bytes) it has no defined result; with three
more bytes in the buffer it succeeds, and the address it returns is made of the last byte
of the packet and of the three bytes behind it: two buffers with the same 34 bytes give
1.2.3.4 and 1.9.9.9. A packet of 3 bytes, and one of 11 bytes, has no defined result
either: the header fields are read before any length check; on a packet of 16 bytes that
ends inside the QNAME the byte at offset 16 is read. -/
theorem C25_reads_behind_packet :
    shortRdata.length = 34 ∧
    parse_response shortRdata 34 = none ∧
    parse_response (shortRdata ++ [2, 3, 4]) 34
      = some (true, { ip := 0x01020304, ttl := 300, tid := 4, name := nameAB }) ∧
    parse_response (shortRdata ++ [9, 9, 9]) 34
      = some (true, { ip := 0x01090909, ttl := 300, tid := 4, name := nameAB }) ∧
    parse_response (replyAB.take 3) 3 = none ∧
    parse_response (replyAB.take 11) 11 = none ∧
    parse_response (replyAB.take 16) 16 = none ∧
    (parse_response (replyAB.take 3 ++ List.replicate 34 0) 3).map Prod.fst = some false := by
  refine ⟨?_, ?_, ?_, ?_, ?_, ?_, ?_, ?_⟩ <;> decide

/-! ### The field `count` after a rebuild -/

/-- C26: eleven one-letter names are cached at time 100, "b" with TTL 5 (it expires at
time 105), the others with TTL 300; `count` is 11 and 11 slots are occupied. The call of
`update_cache` for a twelfth name at time 200 rebuilds the table (`limit` 32); the rebuild
drops the expired entry "b" without counting it off: `count` is 12 and 11 slots are
occupied. -/
theorem C26_count_after_rebuild :
    (fillShortAt 1 11).map (fun m => (m.limit, m.count, occupied m.cachev))
      = some (16, 11, 11) ∧
    ((fillShortAt 1 11).bind fun m => update_cache m resp12 200).map
        (fun m => (m.limit, m.count, occupied m.cachev, madns_lookup noLiteral m [98] 200))
      = some (32, 12, 11, some INADDR_ANY) := by
  refine ⟨?_, ?_⟩ <;> decide

/-! ### The choice of the server -/

theorem firstEligible_spec (prev : Option Nat) (reqs : Int) (l : List SERVER) (i : Nat) :
    firstEligible prev reqs l i = i + l.length ∨
    ∃ j sv, firstEligible prev reqs l i = i + j ∧ l[j]? = some sv ∧ some (i + j) ≠ prev ∧
      sv.nreqs < reqs ∧
      ∀ j' sv', j' < j → l[j']? = some sv' → ¬ (some (i + j') ≠ prev ∧ sv'.nreqs < reqs) := by
  induction l generalizing i with
  | nil => left; simp [firstEligible]
  | cons s ss ih =>
    unfold firstEligible
    split
    · rename_i hc
      right
      exact ⟨0, s, rfl, List.getElem?_cons_zero, hc.1, hc.2, fun j' sv' hj' => absurd hj' (by omega)⟩
    · rename_i hc
      rcases ih (i + 1) with h | ⟨j, sv, h1, h2, h3, h4, h5⟩
      · left; rw [h]; simp only [List.length_cons]; omega
      · right
        refine ⟨j + 1, sv, by rw [h1]; omega, by simpa using h2,
          by rwa [show i + (j + 1) = i + 1 + j by omega], h4, ?_⟩
        intro j' sv' hj' hsv'
        cases j' with
        | zero =>
          simp only [List.getElem?_cons_zero, Option.some.injEq] at hsv'
          subst hsv'
          exact hc
        | succ j'' =>
          simp only [List.getElem?_cons_succ] at hsv'
          have := h5 j'' sv' (by omega) hsv'
          rwa [show i + 1 + j'' = i + (j'' + 1) by omega] at this

theorem lowestLatency_spec (prev : Option Nat) (reqs : Int) (l : List SERVER) (i : Nat)
    (best : Nat × ℚ) :
    (lowestLatency prev reqs l i best = best ∧
      ∀ j sv, l[j]? = some sv → some (i + j) ≠ prev → sv.nreqs < reqs → best.2 ≤ sv.latency) ∨
    ∃ j sv, l[j]? = some sv ∧ lowestLatency prev reqs l i best = (i + j, sv.latency) ∧
      some (i + j) ≠ prev ∧ sv.nreqs < reqs ∧ sv.latency < best.2 ∧
      ∀ j' sv', l[j']? = some sv' → some (i + j') ≠ prev → sv'.nreqs < reqs →
        sv.latency ≤ sv'.latency ∧ (sv'.latency = sv.latency → j ≤ j') := by
  induction l generalizing i best with
  | nil => left; exact ⟨rfl, fun j sv h => absurd h (by simp)⟩
  | cons s ss ih =>
    unfold lowestLatency
    by_cases hc : some i ≠ prev ∧ s.nreqs < reqs ∧ s.latency < best.2
    · rw [if_pos hc]
      rcases ih (i + 1) (i, s.latency) with ⟨h1, h2⟩ | ⟨j, sv, h1, h2, h3, h4, h5, h6⟩
      · right
        refine ⟨0, s, List.getElem?_cons_zero, by rw [h1]; rfl, hc.1, hc.2.1, hc.2.2, ?_⟩
        intro j' sv' hsv' hne hlt
        cases j' with
        | zero =>
          simp only [List.getElem?_cons_zero, Option.some.injEq] at hsv'
          subst hsv'
          exact ⟨le_refl _, fun _ => le_refl _⟩
        | succ j'' =>
          simp only [List.getElem?_cons_succ] at hsv'
          have := h2 j'' sv' hsv' (by rwa [show i + 1 + j'' = i + (j'' + 1) by omega]) hlt
          exact ⟨this, fun _ => Nat.zero_le _⟩
      · right
        refine ⟨j + 1, sv, by simpa using h1, by rw [h2]; congr 1; omega,
          by rwa [show i + (j + 1) = i + 1 + j by omega], h4, lt_trans h5 hc.2.2, ?_⟩
        intro j' sv' hsv' hne hlt
        cases j' with
        | zero =>
          simp only [List.getElem?_cons_zero, Option.some.injEq] at hsv'
          subst hsv'
          have h5' : sv.latency < s.latency := h5
          exact ⟨le_of_lt h5', fun he => absurd he (ne_of_gt h5')⟩
        | succ j'' =>
          simp only [List.getElem?_cons_succ] at hsv'
          have := h6 j'' sv' hsv' (by rwa [show i + 1 + j'' = i + (j'' + 1) by omega]) hlt
          exact ⟨this.1, fun he => by have := this.2 he; omega⟩
    · rw [if_neg hc]
      rcases ih (i + 1) best with ⟨h1, h2⟩ | ⟨j, sv, h1, h2, h3, h4, h5, h6⟩
      · left
        refine ⟨h1, ?_⟩
        intro j' sv' hsv' hne hlt
        cases j' with
        | zero =>
          simp only [List.getElem?_cons_zero, Option.some.injEq] at hsv'
          subst hsv'
          by_contra hlat
          exact hc ⟨hne, hlt, not_le.mp hlat⟩
        | succ j'' =>
          simp only [List.getElem?_cons_succ] at hsv'
          exact h2 j'' sv' hsv' (by rwa [show i + 1 + j'' = i + (j'' + 1) by omega]) hlt
      · right
        refine ⟨j + 1, sv, by simpa using h1, by rw [h2]; congr 1; omega,
          by rwa [show i + (j + 1) = i + 1 + j by omega], h4, h5, ?_⟩
        intro j' sv' hsv' hne hlt
        cases j' with
        | zero =>
          simp only [List.getElem?_cons_zero, Option.some.injEq] at hsv'
          subst hsv'
          have hge : best.2 ≤ s.latency := by
            by_contra hlat
            exact hc ⟨hne, hlt, not_le.mp hlat⟩
          have h5' : sv.latency < s.latency := lt_of_lt_of_le h5 hge
          exact ⟨le_of_lt h5', fun he => absurd he (ne_of_gt h5')⟩
        | succ j'' =>
          simp only [List.getElem?_cons_succ] at hsv'
          have := h6 j'' sv' hsv' (by rwa [show i + 1 + j'' = i + (j'' + 1) by omega]) hlt
          exact ⟨this.1, fun he => by have := this.2 he; omega⟩

theorem bumpReqs_eq (serv : List SERVER) (i : Nat) (d : Int) (sv : SERVER)
    (h : serv[i]? = some sv) :
    bumpReqs serv i d = some (serv.set i { sv with nreqs := sv.nreqs + d }) := by
  unfold bumpReqs
  rw [h]

theorem prev_released (serv : List SERVER) (prev : Option Nat)
    (hprev : ∀ p, prev = some p → p < serv.length) :
    ∃ serv1,
      (match prev with
       | none => some serv
       | some s => bumpReqs serv s (-1)) = some serv1 ∧
      serv1.length = serv.length ∧
      ∀ s sv, serv[s]? = some sv → serv1[s]? = some
        (if some s = prev then { sv with nreqs := sv.nreqs - 1 } else sv) := by
  cases prev with
  | none => exact ⟨serv, rfl, rfl, fun s sv h => by simp [h]⟩
  | some p =>
    have hpl := hprev p rfl
    have hsp : serv[p]? = some (serv[p]) := List.getElem?_eq_getElem hpl
    refine ⟨_, bumpReqs_eq _ _ _ _ hsp, by simp, ?_⟩
    intro s sv h
    by_cases hs : s = p
    · subst hs
      rw [hsp] at h
      rw [← Option.some.inj h, List.getElem?_set_self hpl]
      simp [sub_eq_add_neg]
    · rw [List.getElem?_set_ne (Ne.symm hs), h]
      simp [hs]

/-- C22: the choice of the server in `send_request`, for the query in slot `k` whose
previous server is `qp.server` (an index of the server table, or none). If some server
other than the previous one has `nreqs < server_reqs`, the function returns, and the server
`best` it binds to the query is such a server, its latency is at most the latency of every
such server, and it is the lowest-indexed one among those of equal latency; in the new
table `best` has one request more, the previous server one request less, and every other
server is as before. If no server is eligible, the state is unchanged and no packet is
given to `sendto`. -/
theorem C22_server_choice (mp : MADNS) (k : Nat) (now : Int) (sent : Bool) (qp : QUERY)
    (hqp : mp.queries[k]? = some qp) (hprev : ∀ p, qp.server = some p → p < mp.serv.length) :
    ((∃ s sv, mp.serv[s]? = some sv ∧ some s ≠ qp.server ∧ sv.nreqs < mp.server_reqs) →
      ∃ best sb mp' pkt, send_request mp k now sent = some (mp', pkt) ∧
        mp.serv[best]? = some sb ∧ some best ≠ qp.server ∧ sb.nreqs < mp.server_reqs ∧
        (∀ s sv, mp.serv[s]? = some sv → some s ≠ qp.server → sv.nreqs < mp.server_reqs →
          sb.latency ≤ sv.latency ∧ (sv.latency = sb.latency → best ≤ s)) ∧
        srvOf mp'.queries k = some best ∧
        mp'.serv.length = mp.serv.length ∧
        (∀ s sv, mp.serv[s]? = some sv → mp'.serv[s]? = some
          (if s = best then { sv with nreqs := sv.nreqs + 1 }
           else if some s = qp.server then { sv with nreqs := sv.nreqs - 1 } else sv))) ∧
    ((¬ ∃ s sv, mp.serv[s]? = some sv ∧ some s ≠ qp.server ∧ sv.nreqs < mp.server_reqs) →
      send_request mp k now sent = some (mp, none)) := by
  have hk : k < mp.queries.length := getElem?_lt_length _ _ _ hqp
  obtain ⟨serv1, hs1, hlen1, hget1⟩ := prev_released mp.serv qp.server hprev
  constructor
  · rintro ⟨s0, sv0, hs0, hne0, hlt0⟩
    rcases firstEligible_spec qp.server mp.server_reqs mp.serv 0 with
      hnone | ⟨i, si, hi, hsi, hnei, hlti, hbefore⟩
    · exact absurd ⟨by simpa using hne0, hlt0⟩
        (firstEligible_none _ _ _ 0 hnone s0 sv0 hs0)
    · simp only [Nat.zero_add] at hi hnei hbefore
      have hil : i < mp.serv.length := getElem?_lt_length _ _ _ hsi
      have hsi1 : serv1[i]? = some si := by rw [hget1 i si hsi, if_neg hnei]
      -- every eligible server stands at or behind `i` and is unchanged in `serv1`
      have hfrom : ∀ s sv, mp.serv[s]? = some sv → some s ≠ qp.server →
          sv.nreqs < mp.server_reqs → ∃ j, s = i + j ∧ (serv1.drop i)[j]? = some sv := by
        intro s sv hs hne hlt
        have hge : i ≤ s := by
          by_contra hlt'
          exact hbefore s sv (by omega) hs ⟨hne, hlt⟩
        refine ⟨s - i, by omega, ?_⟩
        rw [List.getElem?_drop, show i + (s - i) = s by omega, hget1 s sv hs, if_neg hne]
      have hback : ∀ j sv, (serv1.drop i)[j]? = some sv → some (i + j) ≠ qp.server →
          mp.serv[i + j]? = some sv := by
        intro j sv hj hne
        rw [List.getElem?_drop] at hj
        have hjl : i + j < mp.serv.length := by
          rw [← hlen1]; exact getElem?_lt_length _ _ _ hj
        have h0 : mp.serv[i + j]? = some (mp.serv[i + j]) := List.getElem?_eq_getElem hjl
        rw [hget1 _ _ h0, if_neg hne] at hj
        rw [h0, Option.some.inj hj]
      obtain ⟨best, sb, hbest, hsb, hnb, hltb, hmin⟩ : ∃ best sb,
          (lowestLatency qp.server mp.server_reqs (serv1.drop i) i (i, si.latency)).1 = best ∧
          mp.serv[best]? = some sb ∧ some best ≠ qp.server ∧ sb.nreqs < mp.server_reqs ∧
          ∀ s sv, mp.serv[s]? = some sv → some s ≠ qp.server → sv.nreqs < mp.server_reqs →
            sb.latency ≤ sv.latency ∧ (sv.latency = sb.latency → best ≤ s) := by
        rcases lowestLatency_spec qp.server mp.server_reqs (serv1.drop i) i (i, si.latency) with
          ⟨h1, h2⟩ | ⟨j, sv, h1, h2, h3, h4, h5, h6⟩
        · refine ⟨i, si, by rw [h1], hsi, hnei, hlti, ?_⟩
          intro s sv hs hne hlt
          obtain ⟨j, hj, hdj⟩ := hfrom s sv hs hne hlt
          exact ⟨h2 j sv hdj (by rw [← hj]; exact hne) hlt, fun _ => by omega⟩
        · refine ⟨i + j, sv, by rw [h2], hback j sv h1 h3, h3, h4, ?_⟩
          intro s sv' hs hne hlt
          obtain ⟨j', hj', hdj⟩ := hfrom s sv' hs hne hlt
          have := h6 j' sv' hdj (by rw [← hj']; exact hne) hlt
          exact ⟨this.1, fun he => by have := this.2 he; omega⟩
      have hbl : best < mp.serv.length := getElem?_lt_length _ _ _ hsb
      have hsb1 : serv1[best]? = some sb := by rw [hget1 best sb hsb, if_neg hnb]
      have hs2 := bumpReqs_eq serv1 best 1 sb hsb1
      have hfe : firstEligible qp.server mp.server_reqs mp.serv 0 ≠ mp.serv.length := by omega
      have hex : ∃ r, send_request mp k now sent = some r := by
        unfold send_request
        simp only [hqp]
        rw [if_neg hfe, hi]
        split
        · rename_i hn
          exact absurd (hn.symm.trans hs1) (by simp)
        · rename_i serv1' hs1'
          have he1 : serv1' = serv1 := Option.some.inj (hs1'.symm.trans hs1)
          subst he1
          simp only [hsi1, hbest, hs2]
          split
          · exact ⟨_, rfl⟩
          · exact ⟨_, rfl⟩
      obtain ⟨r, hr⟩ := hex
      obtain ⟨qp', hqp', hcase⟩ := send_request_spec mp k now sent r hr
      have hq : qp' = qp := Option.some.inj (hqp'.symm.trans hqp)
      subst hq
      rcases hcase with ⟨h0, _⟩ | ⟨_, serv1', si', serv2', e, hs1', hsi', hs2', _, hrm⟩
      · exact absurd h0 hfe
      · have he1 : serv1' = serv1 := Option.some.inj (hs1'.symm.trans hs1)
        subst he1
        rw [hi] at hsi' hs2' hrm
        have he2 : si' = si := Option.some.inj (hsi'.symm.trans hsi1)
        subst he2
        rw [hbest] at hs2' hrm
        have he3 : serv2' = serv1'.set best { sb with nreqs := sb.nreqs + 1 } :=
          Option.some.inj (hs2'.symm.trans hs2)
        subst he3
        refine ⟨best, sb, r.1, r.2, hr, hsb, hnb, hltb, hmin, ?_, ?_, ?_⟩
        · rw [hrm]
          simp [srvOf, List.getElem?_set_self hk]
        · rw [hrm]
          simp [hlen1]
        · intro s sv hs
          rw [hrm]
          simp only
          by_cases hsb' : s = best
          · subst hsb'
            rw [hsb] at hs
            rw [← Option.some.inj hs, if_pos rfl,
              List.getElem?_set_self (by rw [hlen1]; exact hbl)]
          · rw [List.getElem?_set_ne (Ne.symm hsb'), if_neg hsb']
            exact hget1 s sv hs
  · intro hno
    rcases firstEligible_spec qp.server mp.server_reqs mp.serv 0 with
      hnone | ⟨i, si, hi, hsi, hnei, hlti, _⟩
    · unfold send_request
      simp only [hqp]
      rw [if_pos (by omega)]
    · simp only [Nat.zero_add] at hnei
      exact absurd ⟨i, si, hsi, hnei, hlti⟩ hno

theorem C22_server_choice_witness :
    ∃ best sb mp' pkt, send_request handleFour 0 100 true = some (mp', pkt) ∧
      handleFour.serv[best]? = some sb ∧ some best ≠ (some 0 : Option Nat) ∧
      sb.nreqs < handleFour.server_reqs ∧
      (∀ s sv, handleFour.serv[s]? = some sv → some s ≠ (some 0 : Option Nat) →
        sv.nreqs < handleFour.server_reqs →
        sb.latency ≤ sv.latency ∧ (sv.latency = sb.latency → best ≤ s)) ∧
      srvOf mp'.queries 0 = some best ∧
      mp'.serv.length = handleFour.serv.length ∧
      (∀ s sv, handleFour.serv[s]? = some sv → mp'.serv[s]? = some
        (if s = best then { sv with nreqs := sv.nreqs + 1 }
         else if some s = (some 0 : Option Nat) then { sv with nreqs := sv.nreqs - 1 }
         else sv)) :=
  (C22_server_choice handleFour 0 100 true
    { ctx := 70, expires := 105, tid := 16, name := nameAB, server := some 0, started := 0 }
    rfl (by intro p h; cases h; decide)).1
    ⟨2, { ip := 0x0A000003, nreqs := 1, latency := 1 / 4 }, rfl, by decide, by decide⟩

/-- The choice on `handleFour` for the query of slot 0: server 1 has the lowest latency
but is full, the servers 2 and 3 tie, and server 2 is taken; server 0, the previous one,
is released. -/
theorem handleFour_choice :
    (send_request handleFour 0 100 true).map
        (fun r => (srvOf r.1.queries 0, r.1.serv.map SERVER.nreqs))
      = some (some 2, [0, 4, 2, 0]) := by
  decide!

/-! ### The requests in flight at each server -/

theorem bumpReqs_lt (serv : List SERVER) (i : Nat) (d : Int) (x : List SERVER)
    (h : bumpReqs serv i d = some x) : i < serv.length := by
  unfold bumpReqs at h
  split at h
  · exact absurd h (by simp)
  · rename_i sv hsv
    exact getElem?_lt_length _ _ _ hsv

theorem send_request_bounded (mp : MADNS) (k : Nat) (now : Int) (sent : Bool)
    (r : MADNS × Option (List Nat)) (hb : ReqsBounded mp)
    (h : send_request mp k now sent = some r) : ReqsBounded r.1 := by
  obtain ⟨qp, hqp, hcase⟩ := send_request_spec mp k now sent r h
  rcases hcase with ⟨_, hr⟩ | ⟨hfe, serv1, si, serv2, e, hs1, hsi, hs2, _, hrm⟩
  · rw [hr]; exact hb
  · have hprev : ∀ p, qp.server = some p → p < mp.serv.length := by
      intro p hp
      rw [hp] at hs1
      exact bumpReqs_lt _ _ _ _ hs1
    obtain ⟨serv1', hs1', hlen1, hget1⟩ := prev_released mp.serv qp.server hprev
    have he1 : serv1' = serv1 := Option.some.inj (hs1'.symm.trans hs1)
    subst he1
    rcases firstEligible_spec qp.server mp.server_reqs mp.serv 0 with
      hnone | ⟨i, si0, hi, hsi0, hnei, hlti, _⟩
    · exact absurd (by simpa using hnone) hfe
    · simp only [Nat.zero_add] at hi hnei
      rw [hi] at hsi hs2 hrm
      have hsi1 : serv1'[i]? = some si0 := by rw [hget1 i si0 hsi0, if_neg hnei]
      have he2 : si = si0 := Option.some.inj (hsi.symm.trans hsi1)
      subst he2
      obtain ⟨best, sb, hbest, hsb1, hltb⟩ : ∃ best sb,
          (lowestLatency qp.server mp.server_reqs (serv1'.drop i) i (i, si.latency)).1 = best ∧
          serv1'[best]? = some sb ∧ sb.nreqs < mp.server_reqs := by
        rcases lowestLatency_spec qp.server mp.server_reqs (serv1'.drop i) i (i, si.latency) with
          ⟨h1, _⟩ | ⟨j, sv, h1, h2, _, h4, _, _⟩
        · exact ⟨i, si, by rw [h1], hsi1, hlti⟩
        · exact ⟨i + j, sv, by rw [h2], by rwa [List.getElem?_drop] at h1, h4⟩
      rw [hbest, bumpReqs_eq _ _ _ _ hsb1] at hs2
      have he3 := (Option.some.inj hs2).symm
      subst he3
      rw [hrm]
      unfold ReqsBounded
      intro s sv hs
      have hbl : best < serv1'.length := getElem?_lt_length _ _ _ hsb1
      by_cases hsb' : s = best
      · subst hsb'
        simp only [List.getElem?_set_self hbl, Option.some.injEq] at hs
        subst hs
        simp only
        omega
      · simp only [List.getElem?_set_ne (Ne.symm hsb')] at hs
        have hsl : s < mp.serv.length := by
          rw [← hlen1]; exact getElem?_lt_length _ _ _ hs
        have h0 : mp.serv[s]? = some (mp.serv[s]) := List.getElem?_eq_getElem hsl
        have hb0 := hb s _ h0
        rw [hget1 s _ h0] at hs
        have he4 := (Option.some.inj hs).symm
        subst he4
        simp only
        split
        · simp only; omega
        · exact hb0

theorem request_bounded (mp : MADNS) (name : List Nat) (ctx rnd : Nat) (tk : ℚ) (now : Int)
    (sent : Bool) (hb : ReqsBounded mp) (r : Int × MADNS × Option (List Nat))
    (hr : madns_request mp name ctx rnd tk now sent = some r) : ReqsBounded r.2.1 := by
  unfold madns_request at hr
  split at hr
  · rw [← Option.some.inj hr]; exact hb
  · split at hr
    · exact absurd hr (by simp)
    · split at hr
      · exact absurd hr (by simp)
      · simp only at hr
        split at hr
        · exact absurd hr (by simp)
        · rename_i mp2 pkt hsend
          split at hr
          · exact absurd hr (by simp)
          · rw [← Option.some.inj hr]
            refine send_request_bounded _ _ now sent (mp2, pkt) ?_ hsend
            exact hb

theorem destroy_query_bounded (mp : MADNS) (k : Nat) (tk : ℚ) (h : WF mp) (hk : k ∈ mp.active)
    (hb : ReqsBounded mp) (r : Nat × MADNS) (hr : destroy_query mp k tk = some r) :
    ReqsBounded r.2 := by
  obtain ⟨qp, s, sv, hqp, _, hsv, hd, _⟩ := destroy_query_wf mp k tk h hk
  rw [hd] at hr
  rw [← Option.some.inj hr]
  unfold ReqsBounded
  intro s' sv' hs'
  simp only at hs'
  have hsl : s < mp.serv.length := getElem?_lt_length _ _ _ hsv
  by_cases hss : s' = s
  · subst hss
    simp only [List.getElem?_set_self hsl, Option.some.injEq] at hs'
    subst hs'
    have := hb s' sv hsv
    simp only
    omega
  · simp only [List.getElem?_set_ne (Ne.symm hss)] at hs'
    exact hb s' sv' hs'

theorem response_bounded (mp : MADNS) (dgs : List DGRAM) (now : Int) (tk : ℚ) (h : WF mp)
    (hb : ReqsBounded mp) (r : RESULT) (hr : madns_response mp dgs now tk = some r) :
    ReqsBounded r.mp := by
  rcases response_cases mp dgs now tk h r hr with
    ⟨_, _, hm⟩ | ⟨k, mp1, r1, hk, hwf1, ⟨l, c, cv, he⟩, hd, _, hm, _, _⟩
  · rw [hm]; exact hb
  · rw [hm]
    subst he
    exact destroy_query_bounded _ k tk hwf1 hk hb r1 hd

theorem cancel_bounded (mp : MADNS) (c : Nat) (tk : ℚ) (h : WF mp) (hb : ReqsBounded mp)
    (r : Int × MADNS) (hr : madns_cancel mp c tk = some r) : ReqsBounded r.2 := by
  rcases cancelScan_cases mp c tk mp.active r hr with
    ⟨he, _⟩ | ⟨pre, k, post, qp, r1, hl, _, _, _, hd, he⟩
  · rw [he]; exact hb
  · rw [he]
    exact destroy_query_bounded mp k tk h (by rw [hl]; simp) hb r1 hd

theorem create_bounded (ips : List Nat) (lat : Nat → ℚ) (mem : Nat → QUERY)
    (query_time server_reqs : Int) (sockOk : Bool) (mp : MADNS)
    (h : madns_create ips lat mem query_time server_reqs sockOk = some mp) :
    ReqsBounded mp := by
  unfold madns_create at h
  by_cases h0 : ips.length = 0
  · rw [if_pos h0] at h; exact absurd h (by simp)
  · rw [if_neg h0] at h
    dsimp only at h
    generalize min (if server_reqs ≠ 0 then server_reqs else MADNS_SERVER_REQS)
      (Int.tdiv (MAX_TIDS : Int) (ips.length : Int)) = R at h
    by_cases hq : (ips.length : Int) * R > (MAX_TIDS : Int) ∨ (ips.length : Int) * R < 2
    · rw [if_pos hq] at h; exact absurd h (by simp)
    · rw [if_neg hq] at h
      by_cases hs : sockOk = false
      · rw [if_pos hs] at h; exact absurd h (by simp)
      · rw [if_neg hs] at h
        have hmp := (Option.some.inj h).symm
        subst hmp
        have hR : 0 ≤ R := by
          by_contra hneg
          have hmul : (ips.length : Int) * R ≤ 0 :=
            mul_nonpos_of_nonneg_of_nonpos (Int.natCast_nonneg _) (by omega)
          omega
        unfold ReqsBounded
        intro s sv hs
        simp only [List.getElem?_map] at hs
        cases hr : (List.range ips.length)[s]? with
        | none => rw [hr] at hs; exact absurd hs (by simp)
        | some i =>
          rw [hr] at hs
          simp only [Option.map_some', Option.some.injEq] at hs
          subst hs
          exact hR

theorem reachableFrom_bounded (mem : Nat → QUERY)
    (hclean : ∀ i, (mem i).ctx = 0 ∧ (mem i).server = none) (mp : MADNS)
    (h : ReachableFrom mem mp) : ReqsBounded mp := by
  induction h with
  | create ips lat qt sr mp hc => exact create_bounded ips lat mem qt sr true mp hc
  | request mp name ctx rnd tk now sent r _ hr ih =>
    exact request_bounded mp name ctx rnd tk now sent ih r hr
  | response mp dgs now tk r hreach hr ih =>
    exact response_bounded mp dgs now tk (reachableFrom_wf mem hclean mp hreach) ih r hr
  | cancel mp context tk r hreach hr ih =>
    exact cancel_bounded mp context tk (reachableFrom_wf mem hclean mp hreach) ih r hr

/-- The servers in every state reached from a handle whose query array was allocated with
null `ctx` and `server` fields in every slot: every active slot is bound to a server of the
table, so that `destroy_query` has a defined result on it; the counter `nreqs` of every
server equals the number of active slots bound to it and lies between 0 and
`server_reqs`; and a request that is admitted while `madns_ready() > 0` finds an eligible
server: the first loop of `send_request` stops at a server, and the new slot, at the tail
of the active list, is bound to a server. -/
theorem server_accounting_kept (mem : Nat → QUERY)
    (hclean : ∀ i, (mem i).ctx = 0 ∧ (mem i).server = none) (mp : MADNS)
    (h : ReachableFrom mem mp) :
    (∀ k ∈ mp.active, ∃ qp s, mp.queries[k]? = some qp ∧ qp.server = some s ∧
        s < mp.serv.length ∧ ∀ tk, ∃ r, destroy_query mp k tk = some r) ∧
    (∀ s sv, mp.serv[s]? = some sv →
        sv.nreqs = (inFlight mp s : Int) ∧ 0 ≤ sv.nreqs ∧ sv.nreqs ≤ mp.server_reqs) ∧
    (∀ (name : List Nat) (ctx rnd : Nat) (tk : ℚ) (now : Int) (sent : Bool), ctx ≠ 0 →
        0 < madns_ready mp → strlen name ≤ DNS_MAX_HOSTNAME →
        firstEligible none mp.server_reqs mp.serv 0 < mp.serv.length ∧
        ∃ tid mp' pkt k s, madns_request mp name ctx rnd tk now sent = some (tid, mp', pkt) ∧
          mp'.active = mp.active ++ [k] ∧ srvOf mp'.queries k = some s ∧
          s < mp'.serv.length) := by
  have hwf := reachableFrom_wf mem hclean mp h
  have hb := reachableFrom_bounded mem hclean mp h
  refine ⟨?_, ?_, ?_⟩
  · intro k hk
    obtain ⟨qp, s, h1, _, h3, h4⟩ := hwf.active_ok k hk
    refine ⟨qp, s, h1, h3, h4, fun tk => ?_⟩
    obtain ⟨_, _, _, _, _, _, hd, _⟩ := destroy_query_wf mp k tk hwf hk
    exact ⟨_, hd⟩
  · intro s sv hs
    have hr := hwf.reqs s sv hs
    exact ⟨hr, by rw [hr]; exact Int.natCast_nonneg _, hb s sv hs⟩
  · intro name ctx rnd tk now sent hctx hready hlen
    have hne : mp.unused ≠ [] := by
      intro e
      have := hwf.nfree
      simp only [madns_ready] at hready
      rw [this, e] at hready
      simp at hready
    constructor
    · obtain ⟨s, sv, hs, hlt⟩ := hwf.exists_eligible hne
      have hle := firstEligible_le none mp.server_reqs mp.serv 0
      rcases Nat.lt_or_ge (firstEligible none mp.server_reqs mp.serv 0) mp.serv.length with
        hlt' | hge
      · exact hlt'
      · have heq : firstEligible none mp.server_reqs mp.serv 0 = 0 + mp.serv.length := by omega
        exact absurd ⟨by simp, hlt⟩ (firstEligible_none none mp.server_reqs mp.serv 0 heq s sv hs)
    · have hadm : ¬ (ctx = 0 ∨ madns_ready mp = 0 ∨ strlen name > DNS_MAX_HOSTNAME) := by
        rintro (h1 | h1 | h1)
        · exact hctx h1
        · omega
        · omega
      obtain ⟨k, rest, best, sv, e, pkt, hun, hsv, _, _, _, hreq, _⟩ :=
        request_admitted mp name ctx rnd tk now sent hwf hadm
      have hkq : k < mp.queries.length := by
        rw [hwf.qlen]
        exact hwf.mem_lt k (by rw [hun]; simp)
      refine ⟨_, _, pkt, k, best, hreq, rfl, ?_, ?_⟩
      · simp [srvOf, List.getElem?_set_self hkq]
      · simp only [List.length_set]
        exact getElem?_lt_length _ _ _ hsv

/-- C23: `madns_request` never sets the field `server` of the slot it takes, and
`send_request` reads it as the previous server. On a fresh handle with two servers over the
memory `staleServer 1` (slot 0 holds a stale pointer to `serv[1]`) the first request binds
slot 0 to server 0 and decrements the counter of server 1: `nreqs` is 1 and -1, while one
active slot is bound to server 0 and none to server 1. On a fresh handle with one server
over `staleServer 0` the stale pointer makes the only server count as the previous one:
the first request is admitted with `madns_ready() = 4`, the first loop of `send_request`
finds no server (it ends at `nservs` = 1), nothing is sent, and the slot is active with
`nreqs = 0` at the server it points to. -/
theorem C23_stale_server_released :
    ((madns_create [0x0A000001, 0x0A000002] (fun _ => 0) (staleServer 1) 5 4 true).bind
        fun m => (madns_request m nameAB 77 0 0 100 true).map fun r =>
          (r.1, r.2.1.active, srvOf r.2.1.queries 0, r.2.1.serv.map SERVER.nreqs,
            inFlight r.2.1 0, inFlight r.2.1 1))
      = some (8, [0], some 0, [1, -1], 1, 0) ∧
    (madns_create [0x7F000035] (fun _ => 0) (staleServer 0) 5 4 true).map
        (fun m => (madns_ready m, firstEligible (some 0) m.server_reqs m.serv 0))
      = some (4, 1) ∧
    ((madns_create [0x7F000035] (fun _ => 0) (staleServer 0) 5 4 true).bind
        fun m => (madns_request m nameAB 77 0 0 100 true).map fun r => (r.1, r.2.2))
      = some (4, none) ∧
    ((madns_create [0x7F000035] (fun _ => 0) (staleServer 0) 5 4 true).bind
        fun m => (madns_request m nameAB 77 0 0 100 true).map fun r =>
          (r.2.1.active, srvOf r.2.1.queries 0, r.2.1.serv.map SERVER.nreqs, inFlight r.2.1 0))
      = some ([0], some 0, [0], 1) := by
  refine ⟨?_, ?_, ?_, ?_⟩ <;> decide

/-! ### What every call of `update_cache` does to the table -/

theorem update_cache_rebuild_gt (mp : MADNS) (rp : RESPONSE) (now : Int) (i : Nat)
    (h : CacheInv mp)
    (hprobe : updateProbe mp.cachev (mp.limit - 1) (fnvstr rp.name) rp.name now mp.limit
      (fnvstr rp.name) none = some (PROBE.empty i none))
    (hreb : ¬ ((easySweep mp now).count < Int.tdiv ((mp.limit : Int) * 3) 4
      ∨ (easySweep mp now).count < mp.count - Int.tdiv (mp.limit : Int) 4)) :
    ∃ (m : Nat) (res : List (Option CACHE_INFO)), 4 ≤ m ∧
      Int.tdiv ((easySweep mp now).count * 4) 3 < ((2 ^ m : Nat) : Int) ∧
      rehash now (2 ^ m) (easySweep mp now).cachev
        ((List.replicate (2 ^ m) none).set ((newEntry rp now).hash % 2 ^ m)
          (some (newEntry rp now))) = some res ∧
      update_cache mp rp now = some
        { mp with limit := 2 ^ m, cachev := res, count := (easySweep mp now).count } := by
  obtain ⟨mp', hu, _⟩ := update_cache_inv mp rp now h
  have hu' := hu
  unfold update_cache at hu'
  rw [hprobe] at hu'
  simp only at hu'
  unfold placeNew at hu'
  simp only at hu'
  rw [if_neg hreb] at hu'
  obtain ⟨r, hr, he⟩ := Option.map_eq_some'.mp hu'
  unfold rebuild at hr
  simp only at hr
  obtain ⟨putp, hrh, hre⟩ := Option.map_eq_some'.mp hr
  have hL : (0 : Int) ≤ (mp.limit : Int) := Int.ofNat_nonneg _
  rw [not_or, not_lt, not_lt] at hreb
  have h34 : (0 : Int) ≤ Int.tdiv ((mp.limit : Int) * 3) 4 := by
    rw [Int.tdiv_eq_ediv (by omega) (by decide)]
    omega
  have hcnt : 0 ≤ (easySweep mp now).count := le_trans h34 hreb.1
  obtain ⟨k, hk⟩ : ∃ k : Nat, (easySweep mp now).count = (k : Int) :=
    ⟨(easySweep mp now).count.toNat, (Int.toNat_of_nonneg hcnt).symm⟩
  have hk2 : k < 2 ^ k := Nat.lt_two_pow k
  have hfuel : Int.tdiv ((easySweep mp now).count * 4) 3
      < ((MIN_CACHE : Nat) : Int) * 2 ^ ((easySweep mp now).count.toNat + 1) := by
    rw [Int.tdiv_eq_ediv (by omega) (by decide), hk]
    simp only [Int.toNat_ofNat, MIN_CACHE]
    have : ((2 : Int) ^ (k + 1)) = 2 * ((2 ^ k : Nat) : Int) := by
      push_cast; ring
    rw [this]
    have hk3 : (k : Int) < ((2 ^ k : Nat) : Int) := by exact_mod_cast hk2
    omega
  obtain ⟨g1, m0, g2⟩ := growLimit_spec (easySweep mp now).count
    ((easySweep mp now).count.toNat + 1) MIN_CACHE hfuel
  have g3 : growLimit (easySweep mp now).count ((easySweep mp now).count.toNat + 1) MIN_CACHE
      = 2 ^ (m0 + 4) := by
    rw [g2, MIN_CACHE]; ring
  rw [g3] at hrh hre g1
  rw [mask_eq_mod] at hrh
  refine ⟨m0 + 4, putp, by omega, g1, hrh, ?_⟩
  rw [hu, ← he, ← hre]

theorem update_cache_cases (mp mp' : MADNS) (rp : RESPONSE) (now : Int) (h : CacheInv mp)
    (hu : update_cache mp rp now = some mp') :
    ∃ n, mp.limit = 2 ^ n ∧
    ((∃ (i : Nat) (cip : CACHE_INFO), mp.cachev[i]? = some (some cip) ∧
        mp' = { mp with
          cachev := mp.cachev.set i (some { cip with expires := now + rp.ttl }) }) ∨
     (∃ (s : Nat) (c : CACHE_INFO), s < 2 ^ n ∧
        mp.cachev[(fnvstr rp.name + s) % 2 ^ n]? = some (some c) ∧
        (∀ u, u < s →
          ∃ e : CACHE_INFO, mp.cachev[(fnvstr rp.name + u) % 2 ^ n]? = some (some e)) ∧
        mp' = { mp with
          cachev := mp.cachev.set ((fnvstr rp.name + s) % 2 ^ n) (some (newEntry rp now)) }) ∨
     (∃ s : Nat, s < 2 ^ n ∧ mp.cachev[(fnvstr rp.name + s) % 2 ^ n]? = some none ∧
        (∀ u, u < s →
          ∃ e : CACHE_INFO, mp.cachev[(fnvstr rp.name + u) % 2 ^ n]? = some (some e) ∧
            e.expires ≥ now) ∧
        ((((easySweep mp now).count < Int.tdiv ((mp.limit : Int) * 3) 4
            ∨ (easySweep mp now).count < mp.count - Int.tdiv (mp.limit : Int) 4) ∧
          mp' = { mp with
            cachev := (easySweep mp now).cachev.set ((fnvstr rp.name + s) % 2 ^ n)
              (some (newEntry rp now))
            count := (easySweep mp now).count }) ∨
         (¬ ((easySweep mp now).count < Int.tdiv ((mp.limit : Int) * 3) 4
            ∨ (easySweep mp now).count < mp.count - Int.tdiv (mp.limit : Int) 4) ∧
          ∃ (m : Nat) (res : List (Option CACHE_INFO)), 4 ≤ m ∧
            Int.tdiv ((easySweep mp now).count * 4) 3 < ((2 ^ m : Nat) : Int) ∧
            rehash now (2 ^ m) (easySweep mp now).cachev
              ((List.replicate (2 ^ m) none).set ((newEntry rp now).hash % 2 ^ m)
                (some (newEntry rp now))) = some res ∧
            mp' = { mp with
              limit := 2 ^ m, cachev := res, count := (easySweep mp now).count })))) := by
  obtain ⟨n, hn⟩ := h.pow
  refine ⟨n, hn, ?_⟩
  have hu' := hu
  unfold update_cache at hu'
  cases hp : updateProbe mp.cachev (mp.limit - 1) (fnvstr rp.name) rp.name now mp.limit
      (fnvstr rp.name) none with
  | none => rw [hp] at hu'; exact absurd hu' (by simp)
  | some res =>
    have hp' := hp
    rw [hn] at hp'
    rw [hp] at hu'
    rcases updateProbe_path mp.cachev n (fnvstr rp.name) rp.name now (2 ^ n) (fnvstr rp.name)
      none res hp' with ⟨j, e, hres, hje, _, _⟩ | ⟨j, p, s, hres, hs, hj, hjn, hpath, hput⟩
    · subst hres
      simp only [hje] at hu'
      left
      exact ⟨j, e, hje, (Option.some.inj hu').symm⟩
    · subst hres
      simp only at hu'
      right
      rcases hput with hnone | ⟨sk, hsk, hpk⟩
      · subst hnone
        simp only at hu'
        right
        refine ⟨s, hs, by rw [← hj]; exact hjn, ?_, ?_⟩
        · intro u hu2
          obtain ⟨e, he1, he2⟩ := hpath u hu2
          exact ⟨e, he1, he2 rfl⟩
        · by_cases hreb : (easySweep mp now).count < Int.tdiv ((mp.limit : Int) * 3) 4
              ∨ (easySweep mp now).count < mp.count - Int.tdiv (mp.limit : Int) 4
          · left
            refine ⟨hreb, ?_⟩
            unfold placeNew at hu'
            simp only at hu'
            rw [if_pos hreb] at hu'
            rw [← hj]
            exact (Option.some.inj hu').symm
          · right
            refine ⟨hreb, ?_⟩
            obtain ⟨m, res, hm, hgt, hrh, hupd⟩ :=
              update_cache_rebuild_gt mp rp now j h hp hreb
            rw [hu] at hupd
            exact ⟨m, res, hm, hgt, hrh, Option.some.inj hupd⟩
      · subst hpk
        simp only at hu'
        left
        obtain ⟨c, hc, _⟩ := hpath sk hsk
        refine ⟨sk, c, lt_trans hsk hs, hc, ?_, (Option.some.inj hu').symm⟩
        intro u hu2
        obtain ⟨e, he1, _⟩ := hpath u (lt_trans hu2 hsk)
        exact ⟨e, he1⟩

theorem rehash_occupied (now : Int) (limit : Nat) (old putp res : List (Option CACHE_INFO))
    (h : rehash now limit old putp = some res) :
    occupied res + old.countP (staleAt now) = occupied putp + occupied old := by
  induction old generalizing putp with
  | nil =>
    rw [rehash] at h
    rw [← Option.some.inj h]
    simp [occupied]
  | cons o old ih =>
    cases o with
    | none =>
      rw [rehash] at h
      have := ih putp h
      simpa [occupied, staleAt] using this
    | some cip =>
      rw [rehash] at h
      split at h
      · rename_i hexp
        have := ih putp h
        simp only [occupied, List.countP_cons, staleAt, hexp, decide_True, Option.isSome_some,
          if_true] at this ⊢
        omega
      · rename_i hexp
        split at h
        · exact absurd h (by simp)
        · rename_i i hi
          have := ih _ h
          have hins := occupied_insert putp i cip (freeSlot_sound _ _ _ _ _ hi)
          simp only [occupied, List.countP_cons, staleAt, hexp, decide_False, Option.isSome_some,
            if_true] at this hins ⊢
          simp only [Bool.false_eq_true, if_false] at this ⊢
          omega

/-- The field `count` after a call of `update_cache` on a table whose `count` is exact:
when the call does not rebuild the table (`limit` unchanged: the entry is refreshed, a
stale entry is overwritten, or the new entry is placed after the easy sweep) `count` is
again the number of occupied slots; when it rebuilds (`limit` changes), `count` exceeds the
number of occupied slots by the number of entries with `expires <= now` that the sweep had
left and the rebuild dropped. -/
theorem count_after_update (mp mp' : MADNS) (rp : RESPONSE) (now : Int) (h : CacheInv mp)
    (hex : (occupied mp.cachev : Int) = mp.count) (hu : update_cache mp rp now = some mp') :
    (mp'.limit = mp.limit → (occupied mp'.cachev : Int) = mp'.count) ∧
    (mp'.limit ≠ mp.limit → mp'.count = (occupied mp'.cachev : Int)
      + ((easySweep mp now).cachev.countP (staleAt now) : Nat)) := by
  obtain ⟨n, hn, hcase⟩ := update_cache_cases mp mp' rp now h hu
  rcases hcase with ⟨i, cip, hi, he⟩ | ⟨s, c, _, hc, _, he⟩ |
    ⟨s, _, hsn, _, ⟨hreb, he⟩ | ⟨hreb, m, res, hm, hgt, hrh, he⟩⟩
  · subst he
    refine ⟨fun _ => ?_, fun hne => absurd rfl hne⟩
    simp only
    rw [occupied_replace _ _ _ _ hi]
    exact hex
  · subst he
    refine ⟨fun _ => ?_, fun hne => absurd rfl hne⟩
    simp only
    rw [occupied_replace _ _ _ _ hc]
    exact hex
  · subst he
    refine ⟨fun _ => ?_, fun hne => absurd rfl hne⟩
    obtain ⟨_, s2, _, s4⟩ := easySweep_spec mp now
    simp only
    rw [occupied_insert _ _ _ (s4 _ hsn)]
    push_cast
    omega
  · subst he
    obtain ⟨_, s2, _, _⟩ := easySweep_spec mp now
    have hL : (0 : Int) ≤ (mp.limit : Int) := Int.ofNat_nonneg _
    rw [not_or, not_lt, not_lt] at hreb
    have hne : 2 ^ m ≠ mp.limit := by
      intro heq
      have h16 : 16 ≤ 2 ^ m := by
        calc 16 = 2 ^ 4 := by norm_num
          _ ≤ 2 ^ m := Nat.pow_le_pow_right (by norm_num) hm
      have hn2 : 2 ≤ n := by
        by_contra hlt
        have : n = 0 ∨ n = 1 := by omega
        rcases this with h0 | h0 <;> rw [hn, h0] at heq <;> omega
      obtain ⟨q, hq⟩ : ∃ q, mp.limit = 4 * q := by
        refine ⟨2 ^ (n - 2), ?_⟩
        rw [hn]
        have : n = (n - 2) + 2 := by omega
        conv_lhs => rw [this]
        ring
      have h1 := hreb.1
      rw [Int.tdiv_eq_ediv (by omega) (by decide)] at h1
      have hcnt : 0 ≤ (easySweep mp now).count := by omega
      rw [Int.tdiv_eq_ediv (by omega) (by decide)] at hgt
      have : ((2 ^ m : Nat) : Int) = (mp.limit : Int) := by exact_mod_cast heq
      rw [this] at hgt
      have hq' : (mp.limit : Int) = 4 * (q : Int) := by exact_mod_cast hq
      omega
    refine ⟨fun heq => absurd heq hne, fun _ => ?_⟩
    have hocc := rehash_occupied now _ _ _ _ hrh
    have hp0 : (List.replicate (2 ^ m) (none : Option CACHE_INFO))[
        (newEntry rp now).hash % 2 ^ m]? = some none := by
      have : (newEntry rp now).hash % 2 ^ m < 2 ^ m := Nat.mod_lt _ (Nat.pow_pos (by decide))
      simp [this]
    rw [occupied_insert _ _ _ hp0, occupied_replicate] at hocc
    simp only
    have : (occupied res : Int) + ((easySweep mp now).cachev.countP (staleAt now) : Nat)
        = 1 + (occupied (easySweep mp now).cachev : Int) := by
      exact_mod_cast (by omega :
        occupied res + (easySweep mp now).cachev.countP (staleAt now)
          = 1 + occupied (easySweep mp now).cachev)
    omega

/-! ### The open-addressing property -/

theorem cyclic_dist (L H k : Nat) (hk : k < L) : (H + (k + L - H % L) % L) % L = k := by
  have hL : 0 < L := by omega
  have hH : H % L < L := Nat.mod_lt _ hL
  have hsum : H % L + (k + L - H % L) = k + L := by omega
  calc (H + (k + L - H % L) % L) % L
      = (H % L + (k + L - H % L) % L % L) % L := Nat.add_mod _ _ _
    _ = (H % L % L + (k + L - H % L) % L) % L := by rw [Nat.mod_mod, Nat.mod_mod]
    _ = (H % L + (k + L - H % L)) % L := (Nat.add_mod _ _ _).symm
    _ = (k + L) % L := by rw [hsum]
    _ = k := by rw [Nat.add_mod_right, Nat.mod_eq_of_lt hk]

theorem residues_inj (L i u v : Nat) (hu : u < L) (hv : v < L)
    (h : (i + u) % L = (i + v) % L) : u = v := by
  rcases Nat.lt_trichotomy u v with hlt | heq | hgt
  · exact absurd h (residues_ne L i u v hlt hv)
  · exact heq
  · exact absurd h.symm (residues_ne L i v u hgt hu)

theorem join_isSome (o : Option (Option CACHE_INFO)) :
    o.join.isSome = true ↔ ∃ e : CACHE_INFO, o = some (some e) := by
  cases o with
  | none => simp
  | some x =>
    cases x with
    | none => simp
    | some e => simp

theorem openAddressed_iff (cachev : List (Option CACHE_INFO)) :
    openAddressed cachev = true ↔ OpenAddressed cachev := by
  unfold openAddressed OpenAddressed
  rw [List.all_eq_true]
  constructor
  · intro h k e hke
    have hk : k < cachev.length := getElem?_lt_length _ _ _ hke
    have hpr := h k (List.mem_range.mpr hk)
    unfold probeReach at hpr
    rw [hke] at hpr
    simp only at hpr
    rw [List.all_eq_true] at hpr
    refine ⟨(k + cachev.length - e.hash % cachev.length) % cachev.length,
      Nat.mod_lt _ (by omega), cyclic_dist _ _ _ hk, ?_⟩
    intro u hu
    exact (join_isSome _).mp (hpr u (List.mem_range.mpr hu))
  · intro h k hk
    have hk' : k < cachev.length := List.mem_range.mp hk
    unfold probeReach
    cases hke : cachev[k]? with
    | none => rfl
    | some o =>
      cases o with
      | none => rfl
      | some e =>
        simp only
        obtain ⟨s, hs, hsk, hpath⟩ := h k e hke
        have hd : (k + cachev.length - e.hash % cachev.length) % cachev.length = s := by
          apply residues_inj cachev.length e.hash _ _ (Nat.mod_lt _ (by omega)) hs
          rw [cyclic_dist _ _ _ hk', hsk]
        rw [hd, List.all_eq_true]
        intro u hu
        exact (join_isSome _).mpr (hpath u (List.mem_range.mp hu))

theorem openAddressed_set_some (t : List (Option CACHE_INFO)) (i s : Nat) (c : CACHE_INFO)
    (h : OpenAddressed t) (hs : s < t.length) (hi : (c.hash + s) % t.length = i)
    (hpath : ∀ u, u < s → ∃ e' : CACHE_INFO, t[(c.hash + u) % t.length]? = some (some e')) :
    OpenAddressed (t.set i (some c)) := by
  have hL : 0 < t.length := by omega
  have hil : i < t.length := by rw [← hi]; exact Nat.mod_lt _ hL
  have hkeep : ∀ (j : Nat) (e' : CACHE_INFO), t[j]? = some (some e') →
      ∃ e'' : CACHE_INFO, (t.set i (some c))[j]? = some (some e'') := by
    intro j e' hj
    by_cases hji : j = i
    · subst hji
      exact ⟨c, List.getElem?_set_self hil⟩
    · exact ⟨e', by rw [List.getElem?_set_ne (Ne.symm hji)]; exact hj⟩
  intro k e hke
  simp only [List.length_set]
  by_cases hki : k = i
  · subst hki
    rw [List.getElem?_set_self hil] at hke
    have hce : c = e := Option.some.inj (Option.some.inj hke)
    subst hce
    refine ⟨s, hs, hi, ?_⟩
    intro u hu
    obtain ⟨e', he'⟩ := hpath u hu
    exact hkeep _ e' he'
  · rw [List.getElem?_set_ne (Ne.symm hki)] at hke
    obtain ⟨s', hs', hk', hpath'⟩ := h k e hke
    refine ⟨s', hs', hk', ?_⟩
    intro u hu
    obtain ⟨e', he'⟩ := hpath' u hu
    exact hkeep _ e' he'

theorem openAddressed_set_none (t : List (Option CACHE_INFO)) (x : Nat)
    (h : OpenAddressed t) (hnext : t[(x + 1) % t.length]? = some none) :
    OpenAddressed (t.set x none) := by
  intro k e hke
  simp only [List.length_set]
  have hkx : k ≠ x := by
    intro hkx
    subst hkx
    have hk : k < (t.set k none).length := getElem?_lt_length _ _ _ hke
    rw [List.getElem?_set_self (by simpa using hk)] at hke
    exact absurd hke (by simp)
  rw [List.getElem?_set_ne (Ne.symm hkx)] at hke
  obtain ⟨s, hs, hk, hpath⟩ := h k e hke
  refine ⟨s, hs, hk, ?_⟩
  intro u hu
  obtain ⟨e', he'⟩ := hpath u hu
  by_cases hux : (e.hash + u) % t.length = x
  · exfalso
    have hnx : (e.hash + (u + 1)) % t.length = (x + 1) % t.length := by
      rw [← hux]
      have hsh := succ_mod_shift t.length (e.hash + u) 0
      simp only [Nat.add_zero, Nat.zero_add] at hsh
      rw [hsh, Nat.add_assoc]
    rcases Nat.lt_or_ge (u + 1) s with hlt | hge
    · obtain ⟨e2, he2⟩ := hpath (u + 1) hlt
      rw [hnx, hnext] at he2
      exact absurd he2 (by simp)
    · have hus : u + 1 = s := by omega
      rw [hus, hk] at hnx
      rw [← hnx, hke] at hnext
      exact absurd hnext (by simp)
  · exact ⟨e', by rw [List.getElem?_set_ne (Ne.symm hux)]; exact he'⟩

theorem sweepStep_open (now : Int) (j : Nat) (st : SWEEP) (hj : j < st.cachev.length)
    (h : OpenAddressed st.cachev)
    (heasy : st.easy = true → st.cachev[(j + 1) % st.cachev.length]? = some none) :
    OpenAddressed (sweepStep now j st).cachev ∧
    ((sweepStep now j st).easy = true → (sweepStep now j st).cachev[j]? = some none) := by
  unfold sweepStep
  cases hc : st.cachev[j]? with
  | none =>
    rw [List.getElem?_eq_none_iff] at hc
    omega
  | some o =>
    cases o with
    | none =>
      simp only
      exact ⟨h, fun _ => hc⟩
    | some xp =>
      simp only
      split
      · exact ⟨h, fun he => absurd he (by simp)⟩
      · split
        · rename_i he
          simp only
          exact ⟨openAddressed_set_none _ _ h (heasy he), fun _ => List.getElem?_set_self hj⟩
        · rename_i he
          exact ⟨h, fun he' => absurd he' he⟩

theorem sweepLoop_open (now : Int) (j : Nat) (st : SWEEP) (hj : j ≤ st.cachev.length)
    (h : OpenAddressed st.cachev)
    (heasy : st.easy = true → st.cachev[j % st.cachev.length]? = some none) :
    OpenAddressed (sweepLoop now j st).cachev := by
  induction j generalizing st with
  | zero => exact h
  | succ j ih =>
    rw [sweepLoop]
    have hlen : (sweepStep now j st).cachev.length = st.cachev.length :=
      (sweepStep_spec now j st).1
    obtain ⟨h1, h2⟩ := sweepStep_open now j st (by omega) h heasy
    apply ih _ (by rw [hlen]; omega) h1
    intro he
    rw [hlen, Nat.mod_eq_of_lt (by omega)]
    exact h2 he

theorem easySweep_open (mp : MADNS) (now : Int) (hlen : mp.cachev.length = mp.limit)
    (h : OpenAddressed mp.cachev) : OpenAddressed (easySweep mp now).cachev := by
  unfold easySweep
  split
  · apply sweepLoop_open now mp.limit _ (by simp [hlen]) h
    intro he
    simp only [decide_eq_true_eq] at he
    simp only
    rw [hlen, Nat.mod_self]
    exact he
  · exact h

theorem rehash_open (now : Int) (n : Nat) (old putp res : List (Option CACHE_INFO))
    (hlen : putp.length = 2 ^ n) (h : OpenAddressed putp)
    (hr : rehash now (2 ^ n) old putp = some res) : OpenAddressed res := by
  induction old generalizing putp with
  | nil =>
    rw [rehash] at hr
    rw [← Option.some.inj hr]
    exact h
  | cons o old ih =>
    cases o with
    | none =>
      rw [rehash] at hr
      exact ih putp hlen h hr
    | some cip =>
      rw [rehash] at hr
      split at hr
      · exact ih putp hlen h hr
      · split at hr
        · exact absurd hr (by simp)
        · rename_i i hi
          obtain ⟨s, hs, hj, _, hpath⟩ := freeSlot_path putp n (2 ^ n) cip.hash i hi
          apply ih _ (by simpa using hlen) _ hr
          apply openAddressed_set_some putp i s cip h (by rw [hlen]; exact hs)
            (by rw [hlen]; exact hj.symm)
          intro u hu
          rw [hlen]
          exact hpath u hu

theorem openAddressed_replicate (k : Nat) : OpenAddressed (List.replicate k none) := by
  intro j e hje
  have hj : j < (List.replicate k (none : Option CACHE_INFO)).length :=
    getElem?_lt_length _ _ _ hje
  rw [List.getElem?_eq_getElem hj] at hje
  simp at hje

/-- The open-addressing property is kept by every call of `update_cache` at a time `now`
at which no entry of the table expires (`expires = now`): whether the call refreshes an
entry, overwrites a stale one, places the new entry after the easy sweep or rebuilds the
table, every entry of the new table is reachable from its home slot through occupied
slots. -/
theorem open_addressing_kept (mp mp' : MADNS) (rp : RESPONSE) (now : Int) (h : CacheInv mp)
    (hoa : openAddressed mp.cachev = true) (hu : update_cache mp rp now = some mp')
    (hno : ∀ (j : Nat) (e : CACHE_INFO), mp.cachev[j]? = some (some e) → e.expires ≠ now) :
    openAddressed mp'.cachev = true := by
  rw [openAddressed_iff] at hoa ⊢
  obtain ⟨n, hn, hcase⟩ := update_cache_cases mp mp' rp now h hu
  have hl : mp.cachev.length = 2 ^ n := by rw [h.len, hn]
  have hpos : 0 < 2 ^ n := Nat.pow_pos (by decide)
  rcases hcase with ⟨i, cip, hi, he⟩ | ⟨s, c, hs, _, hpath, he⟩ |
    ⟨s, hs, hsn, hpath, ⟨_, he⟩ | ⟨_, m, res, _, _, hrh, he⟩⟩
  · subst he
    obtain ⟨s, hs, hk, hpath⟩ := hoa i cip hi
    exact openAddressed_set_some mp.cachev i s _ hoa hs hk hpath
  · subst he
    apply openAddressed_set_some mp.cachev _ s (newEntry rp now) hoa (by rw [hl]; exact hs)
      (by rw [hl]; rfl)
    intro u hu2
    rw [hl]
    exact hpath u hu2
  · subst he
    obtain ⟨s1, _, _, _⟩ := easySweep_spec mp now
    have hsw := easySweep_open mp now h.len hoa
    apply openAddressed_set_some _ _ s (newEntry rp now) hsw (by rw [s1, hl]; exact hs)
      (by rw [s1, hl]; rfl)
    intro u hu2
    rw [s1, hl]
    obtain ⟨e, he1, he2⟩ := hpath u hu2
    have hgt : e.expires > now := lt_of_le_of_ne he2 (Ne.symm (hno _ e he1))
    exact ⟨e, (easySweep_keeps mp now).1 _ e he1 hgt⟩
  · subst he
    apply rehash_open now m _ _ res (by simp) _ hrh
    have hpm : 0 < 2 ^ m := Nat.pow_pos (by decide)
    apply openAddressed_set_some _ _ 0 (newEntry rp now) (openAddressed_replicate _)
      (by simp) (by simp)
    intro u hu2
    omega

/-! ### An unsent query at the head of the active list -/

/-- On a reachable handle, an admitted request for which no packet is handed to `sendto`
leaves its slot on the tail of the active list with `expires = 0`; and when no other query
is active, the next `madns_response` call (at a time `now >= 0`) in which every datagram
read is dropped releases that slot and returns its context with `*ip = INADDR_ANY`. -/
theorem unsent_query_reaped (mp : MADNS) (h : Reachable mp) (name : List Nat) (ctx rnd : Nat)
    (tk : ℚ) (now : Int) (sent : Bool) (r : Int × MADNS × Option (List Nat))
    (hctx : ctx ≠ 0) (hready : 0 < madns_ready mp) (hlen : strlen name ≤ DNS_MAX_HOSTNAME)
    (hr : madns_request mp name ctx rnd tk now sent = some r) (hunsent : r.2.2 = none) :
    ∃ k qp, r.2.1.active = mp.active ++ [k] ∧ r.2.1.queries[k]? = some qp ∧ qp.ctx = ctx ∧
      qp.expires = 0 ∧
      ∀ (dgs : List DGRAM) (now2 : Int) (tk2 : ℚ), mp.active = [] → 0 ≤ now2 →
        (∀ d ∈ dgs, unmatched r.2.1 d) →
        ∃ mp', madns_response r.2.1 dgs now2 tk2
            = some { ctx := ctx, ip := some INADDR_ANY, mp := mp', rest := [] } ∧
          mp'.active = [] := by
  have hwf := reachable_wf mp h
  have hadm : ¬ (ctx = 0 ∨ madns_ready mp = 0 ∨ strlen name > DNS_MAX_HOSTNAME) := by
    rintro (h1 | h1 | h1)
    · exact hctx h1
    · omega
    · omega
  obtain ⟨k, rest, best, sv, e, pkt, hun, hsv, _, he0, _, hreq, hwf'⟩ :=
    request_admitted mp name ctx rnd tk now sent hwf hadm
  rw [hreq] at hr
  have hre := (Option.some.inj hr).symm
  subst hre
  simp only at hunsent
  have hez := he0 hunsent
  subst hez
  have hkq : k < mp.queries.length := by
    rw [hwf.qlen]
    exact hwf.mem_lt k (by rw [hun]; simp)
  refine ⟨k, _, rfl, List.getElem?_set_self hkq, rfl, rfl, ?_⟩
  intro dgs now2 tk2 hact hnow hdrop
  have hq : mp.qsize ≠ 0 := by have := hwf.qbound.1; omega
  rw [response_unmatched _ dgs now2 tk2 (by exact hq) hdrop]
  obtain ⟨qp, s, sv2, hqp, _, _, hd, _⟩ := destroy_query_wf _ k tk2 hwf' (by simp)
  simp only [List.getElem?_set_self hkq, Option.some.injEq] at hqp
  subst hqp
  unfold reapHead
  simp only [hact, List.nil_append, List.getElem?_set_self hkq] at hd ⊢
  rw [if_pos hnow, hd]
  simp only [Option.map_some']
  refine ⟨_, rfl, ?_⟩
  simp

/-! ### Packets shorter than the header -/

theorem lowerLoop_ge (fuel : Nat) (buf : List Nat) (p : Nat) (r : List Nat × Nat)
    (h : lowerLoop fuel buf p = some r) : p ≤ r.2 := by
  induction fuel generalizing buf p with
  | zero => rw [lowerLoop] at h; exact absurd h (by simp)
  | succ fuel ih =>
    rw [lowerLoop] at h
    split at h
    · exact absurd h (by simp)
    · split at h
      · rw [← Option.some.inj h]
      · have := ih _ _ h
        omega

/-- A packet shorter than the 12-byte header: whenever `parse_response` has a defined
result on it, the packet is rejected; and on a buffer of exactly `len` bytes the result is
defined only if the packet has at least 6 bytes and the header test (QDCOUNT = 1 and the
QR bit) rejects it. Every other short packet makes `parse_response` read behind its
end. -/
theorem short_packet_rejected (pkt : List Nat) (len : Nat) (hlen : len < 12)
    (r : Bool × RESPONSE) (h : parse_response pkt len = some r) :
    r.1 = false ∧
    (pkt.length = len → 6 ≤ len ∧
      ¬ (ntohsp pkt 4 = some 1 ∧ ∃ f, ntohsp pkt 2 = some f ∧ 0x8000 ≤ f)) := by
  unfold parse_response at h
  split at h
  · rename_i t0 t1 flags nqueries h0 h1 hf hq
    have h5 : 5 < pkt.length := by
      unfold ntohsp at hq
      split at hq
      · rename_i a b ha hb
        exact getElem?_lt_length _ _ _ hb
      · exact absurd hq (by simp)
    simp only at h
    split at h
    · rename_i hrej
      rw [← Option.some.inj h]
      refine ⟨rfl, fun hl => ⟨by omega, ?_⟩⟩
      rintro ⟨hq1, f, hf1, hf2⟩
      rw [hq] at hq1
      rw [hf] at hf1
      have e1 := Option.some.inj hq1
      have e2 := Option.some.inj hf1
      subst e1
      subst e2
      rcases hrej with hrej | hrej
      · exact hrej rfl
      · omega
    · have hfuel : (pkt.length + 1) * (pkt.length + 1)
          = ((pkt.length + 1) * (pkt.length + 1) - 1) + 1 := by
        have : 0 < (pkt.length + 1) * (pkt.length + 1) := Nat.mul_pos (by omega) (by omega)
        omega
      rw [hfuel, qnameLoop, if_neg (by omega)] at h
      simp only at h
      split at h
      · exact absurd h (by simp)
      · rename_i c hc
        have h12 : 12 < pkt.length := getElem?_lt_length _ _ _ hc
        split at h
        · rw [← Option.some.inj h]
          exact ⟨rfl, fun hl => by omega⟩
        · split at h
          · exact absurd h (by simp)
          · rename_i buf2 p2 hlow
            have hge := lowerLoop_ge _ _ _ _ hlow
            simp only at hge
            unfold afterName at h
            rw [if_pos (by omega)] at h
            rw [← Option.some.inj h]
            exact ⟨rfl, fun hl => by omega⟩
  · exact absurd h (by simp)

end Madns
